import Mathlib

/-!
Verification of the adaptive sparse-map / weighted-graph core and the CFG
layer of the ebpf-verifier repository, against its natural-language
specification.

The embedding below is a shallow model of:
  * `crab::AdaptSMap`   (src/crab/adapt_sgraph.hpp, lines 16-280)
  * `crab::AdaptGraph`  (src/crab/adapt_sgraph.hpp, lines 283-614)
  * `crab::cfg_t` and `crab::basic_block_t` (src/crab/cfg.hpp)
  * `Cfg` / `BasicBlock` (src/asm_cfg.hpp)

Modelling conventions:
  * C++ `size_t` and `uint16_t` values are modelled as `Nat`.  The map key
    type is `uint16_t`; the reachability relations therefore restrict keys
    (and graph vertex ids, which the C++ narrows to `key_t` at every map
    call) to the key domain `< 65536`, making the narrowing conversion the
    identity.  Within that domain no machine-integer wrap can occur.
  * The C++ `dense` buffer stores `sz` live elements followed by garbage
    capacity; only the live prefix is ever read, so it is modelled as the
    list of live elements (`dense`), with the capacity kept separately in
    `dense_maxsz`.
  * The `sparse` table is `malloc`ed and only partially written; a cell
    that was never written is modelled as `none`.  A C++ read of such a
    cell (or a read past the allocation) yields an indeterminate value;
    operations that perform such reads take the value read as an explicit
    `junk` parameter so that theorems can quantify over every possible
    outcome of the undefined read.
-/

namespace EbpfVerifier

set_option maxRecDepth 100000


/-! ## AdaptSMap (src/crab/adapt_sgraph.hpp) -/
/-- An element of the dense buffer: `elt_t { key_t key; val_t val; }`. -/
structure Elt where
  key : Nat
  val : Nat
deriving Repr, DecidableEq

/-- Shallow state of `AdaptSMap`: `sz` is `dense.length`; `sparse = none`
models the null sparse pointer (dense mode). -/
structure AdaptSMap where
  dense : List Elt
  dense_maxsz : Nat
  sparse_ub : Nat
  sparse : Option (List (Option Nat))
deriving Repr, DecidableEq

namespace AdaptSMap

/-- The default constructor: `sz = 0, dense_maxsz = 8, sparse_ub = 10,
sparse = nullptr`. -/
def init : AdaptSMap := ⟨[], 8, 10, none⟩

/-- `size()`. -/
def size (m : AdaptSMap) : Nat := m.dense.length

/-- Reading cell `k` of the sparse table; `none` models both an
out-of-bounds access and an uninitialized cell. -/
def tget : List (Option Nat) → Nat → Option Nat
  | [], _ => none
  | x :: _, 0 => x
  | _ :: tbl, k + 1 => tget tbl k

/-- One fuelled round of the capacity-doubling loop
`while (cap < new_max) cap *= 2;` (structural recursion on the fuel so
that the kernel can evaluate it). -/
def growLoopAux : Nat → Nat → Nat → Nat
  | 0, cap, _ => cap
  | fuel + 1, cap, new_max =>
    if cap < new_max then growLoopAux fuel (2 * cap) new_max else cap

/-- The capacity-doubling loop `while (cap < new_max) cap *= 2;`.
`new_max` rounds of doubling always suffice from a nonzero capacity
(`new_max ≤ 2 ^ new_max`), so the fuel never runs out on the loop's
domain.  A zero capacity would loop forever in C++; it never occurs
(capacities start at 8 resp. 10 and only double), and is mapped to 0. -/
def growLoop (cap new_max : Nat) : Nat :=
  if cap = 0 then 0 else growLoopAux new_max cap new_max

/-- `key_t idx = 0; for (key_t k : keys()) sparse[k] = idx++;` starting
from counter value `i`. -/
def writeIdx : List (Option Nat) → List Elt → Nat → List (Option Nat)
  | tbl, [], _ => tbl
  | tbl, e :: es, i => writeIdx (tbl.set e.key (some i)) es (i + 1)

/-- Maximum key of the live elements (`key_max` in `growDense`; 0 when
empty, matching `key_t key_max = 0`). -/
def keyMax (l : List Elt) : Nat := l.foldl (fun acc e => max acc e.key) 0

/-- `growDense(new_max)`: doubles the dense capacity; on the first growth
(null sparse) builds the sparse table sized `key_max + 1`. -/
def growDense (m : AdaptSMap) (new_max : Nat) : AdaptSMap :=
  let cap := growLoop m.dense_maxsz new_max
  match m.sparse with
  | some _ => { m with dense_maxsz := cap }
  | none =>
    let ub := keyMax m.dense + 1
    { m with dense_maxsz := cap, sparse_ub := ub,
             sparse := some (writeIdx (List.replicate ub none) m.dense 0) }

/-- `growSparse(new_ub)`: doubles `sparse_ub` until it reaches `new_ub`,
reallocates the table (fresh, uninitialized) and rewrites the index of
every live element. -/
def growSparse (m : AdaptSMap) (new_ub : Nat) : AdaptSMap :=
  let ub := growLoop m.sparse_ub new_ub
  { m with sparse_ub := ub,
           sparse := some (writeIdx (List.replicate ub none) m.dense 0) }

/-- Last step of `add`: `dense[sz] = elt_t(k, v); if (sparse) sparse[k] = sz;
sz++;` (`m2` already has room and, in sparse mode, `k < sparse_ub`). -/
def addWrite (m2 : AdaptSMap) (k v : Nat) : AdaptSMap :=
  { m2 with dense := m2.dense ++ [⟨k, v⟩],
            sparse := m2.sparse.map (fun tbl => tbl.set k (some m2.dense.length)) }

/-- Middle step of `add` in sparse mode: `if (sparse_ub <= k) growSparse(k+1);`
followed by the write. -/
def addSparse (m1 : AdaptSMap) (k v : Nat) : AdaptSMap :=
  addWrite (if m1.sparse_ub ≤ k then growSparse m1 (k + 1) else m1) k v

/-- The write step of `add` after the capacity check: appends the element
and, in sparse mode, performs the sparse-table update. -/
def addDispatch (m1 : AdaptSMap) (k v : Nat) : AdaptSMap :=
  match m1.sparse with
  | none => { m1 with dense := m1.dense ++ [⟨k, v⟩] }
  | some _ => addSparse m1 k v

/-- `add(k, v)` (precondition: `k ∉ S`): grows dense if full, appends the
element, and if in sparse mode (growing the sparse table first if `k` is
out of range) records `sparse[k] = sz`. -/
def add (m0 : AdaptSMap) (k v : Nat) : AdaptSMap :=
  addDispatch (if m0.dense_maxsz ≤ m0.dense.length
               then growDense m0 (m0.dense.length + 1) else m0) k v

/-- The dense-buffer effect of `remove`: `--sz; elt_t repl = dense[sz];
dense[ik] = repl;` on the live prefix (writing at the dropped slot is a
no-op on the live elements, which `List.set` out of range models). -/
def swapRemoveAt (l : List Elt) (ik : Nat) : List Elt :=
  (l.take (l.length - 1)).set ik (l.getD (l.length - 1) ⟨0, 0⟩)

/-- `remove(k)` (precondition: `k ∈ S`): swap-remove.  `repl` is the last
live element; in sparse mode the removed slot's index comes from the
sparse table (under the precondition that read is always defined; the
model uses 0 if not), in dense mode from a linear scan. -/
def remove (m : AdaptSMap) (k : Nat) : AdaptSMap :=
  match m.sparse with
  | none => { m with dense := swapRemoveAt m.dense (m.dense.findIdx (fun e => e.key == k)) }
  | some tbl =>
    let idx := (tget tbl k).getD 0
    { m with dense := swapRemoveAt m.dense idx,
             sparse := some (tbl.set (m.dense.getD (m.dense.length - 1) ⟨0, 0⟩).key (some idx)) }

/-- `clear()`: just `sz = 0`; buffers and mode are kept. -/
def clear (m : AdaptSMap) : AdaptSMap := { m with dense := [] }

/-- Whether reading `sparse[k]` in `elem`/`lookup` is a well-defined read:
within the allocation and of an initialized cell.  In dense mode no sparse
read happens. -/
def readSafe (m : AdaptSMap) (k : Nat) : Bool :=
  match m.sparse with
  | none => true
  | some tbl => decide (k < tbl.length) && (tget tbl k).isSome

/-- `elem(k)`, with the value produced by an undefined sparse read given
explicitly as `junk`.  In sparse mode: `int idx = sparse[k];
return (idx < sz) && dense[idx].key == k;`. -/
def elemWith (m : AdaptSMap) (k junk : Nat) : Bool :=
  match m.sparse with
  | none => m.dense.any (fun e => e.key == k)
  | some tbl =>
    let idx := (tget tbl k).getD junk
    decide (idx < m.dense.length) && ((m.dense.getD idx ⟨0, 0⟩).key == k)

/-- `elem(k)` as executed (the canonical choice 0 for the indeterminate
read; lemma `elemWith_eq_mem` shows the result does not depend on it). -/
def elemFun (m : AdaptSMap) (k : Nat) : Bool := elemWith m k 0

/-- `lookup(k, v_out)` with explicit junk value for an undefined read. -/
def lookupWith (m : AdaptSMap) (k junk : Nat) : Option Nat :=
  match m.sparse with
  | none => (m.dense.find? (fun e => e.key == k)).map (fun e => e.val)
  | some tbl =>
    let idx := (tget tbl k).getD junk
    if idx < m.dense.length ∧ (m.dense.getD idx ⟨0, 0⟩).key = k
    then some (m.dense.getD idx ⟨0, 0⟩).val
    else none

/-- `lookup(k)` as executed. -/
def lookupFun (m : AdaptSMap) (k : Nat) : Option Nat := lookupWith m k 0

/-- The abstract content of the map: the association of keys to values
held in the live dense prefix. -/
def mapFun (m : AdaptSMap) (k : Nat) : Option Nat :=
  (m.dense.find? (fun e => e.key == k)).map (fun e => e.val)

/-- Representation invariant of `AdaptSMap`, maintained by every
operation under its documented precondition. -/
structure SInv (m : AdaptSMap) : Prop where
  nodup : (m.dense.map Elt.key).Nodup
  len_le : m.dense.length ≤ m.dense_maxsz
  maxsz8 : 8 ≤ m.dense_maxsz
  ub1 : 1 ≤ m.sparse_ub
  dense_mode : m.sparse = none → m.dense_maxsz = 8
  sparse_mode : ∀ tbl, m.sparse = some tbl → tbl.length = m.sparse_ub ∧
    ∀ i, i < m.dense.length →
      (m.dense.getD i ⟨0, 0⟩).key < m.sparse_ub ∧
      tget tbl (m.dense.getD i ⟨0, 0⟩).key = some i

/-! ### Reachable maps and their abstract content

The abstract state is the association list of live bindings, one binding
per key, in insertion order: a key is in the abstract list exactly when
it was `add`ed and not later removed (or cleared away), and it maps to
the value of that (most recent) `add`. -/
/-- Lookup in the abstract association list. -/
def modelFun (model : List (Nat × Nat)) (k : Nat) : Option Nat :=
  (model.find? (fun p => p.1 == k)).map (fun p => p.2)

/-- States reachable by the documented operations under their documented
preconditions (`add` needs the key absent, `remove` needs it present);
keys are `uint16_t` values.  The second component is the abstract list of
live bindings. -/
inductive SMReach : AdaptSMap → List (Nat × Nat) → Prop where
  | init : SMReach init []
  | add : ∀ m model k v, SMReach m model → k < 65536 → modelFun model k = none →
      SMReach (AdaptSMap.add m k v) (model ++ [(k, v)])
  | remove : ∀ m model k w, SMReach m model → modelFun model k = some w →
      SMReach (AdaptSMap.remove m k) (model.filter (fun p => ¬p.1 = k))
  | clear : ∀ m model, SMReach m model → SMReach (AdaptSMap.clear m) []
end AdaptSMap

open AdaptSMap

/-! ## Claims C4, C5, C6 (AdaptSMap level) -/
/-- Concrete reachable map used by witnesses: add keys 1 and 2, remove 1. -/
def c4m : AdaptSMap := AdaptSMap.remove ((AdaptSMap.init.add 1 5).add 2 6) 1

/-- Abstract content of `c4m`. -/
def c4model : List (Nat × Nat) := [(2, 6)]

/-- Concrete reachable map in sparse mode: keys 0..8 inserted, which
crosses the dense threshold at the ninth insertion. -/
def m9 : AdaptSMap :=
  ((((((((AdaptSMap.init.add 0 100).add 1 101).add 2 102).add 3 103).add 4 104).add
      5 105).add 6 106).add 7 107).add 8 108

/-- Abstract content of `m9`. -/
def model9 : List (Nat × Nat) :=
  [(0, 100), (1, 101), (2, 102), (3, 103), (4, 104), (5, 105), (6, 106), (7, 107), (8, 108)]

/-! ## AdaptGraph (src/crab/adapt_sgraph.hpp, lines 283-614) -/
/-- Shallow state of `AdaptGraph`.  Edge weights are `crab::safe_i64`
(src/crab/safeint.hpp is not among this repository's sources); modelled
from the spec as integers with the usual order and `min`, which is all the
graph operations use.  `edge_count` is a C++ `int`; `is_free` is a
`std::vector<int>` holding booleans. -/
structure AdaptGraph where
  _preds : List AdaptSMap
  _succs : List AdaptSMap
  _ws : List Int
  edge_count : Int
  is_free : List Bool
  free_id : List Nat
  free_widx : List Nat
deriving Repr, DecidableEq

namespace AdaptGraph

/-- The default-constructed graph: `edge_count = 0`, all containers empty. -/
def empty : AdaptGraph := ⟨[], [], [], 0, [], [], []⟩

/-- `size()` — the number of vertex slots (`_succs.size()`). -/
def gsize (g : AdaptGraph) : Nat := g._succs.length

/-- `_succs[v]`; the default is never reached on indices `< gsize`. -/
def getS (g : AdaptGraph) (v : Nat) : AdaptSMap := g._succs.getD v AdaptSMap.init

/-- `_preds[v]`. -/
def getP (g : AdaptGraph) (v : Nat) : AdaptSMap := g._preds.getD v AdaptSMap.init

/-- `new_vertex()`: pop the free list if possible, else extend every
per-vertex array; returns the new state and the vertex id. -/
def new_vertex (g : AdaptGraph) : AdaptGraph × Nat :=
  match g.free_id.getLast? with
  | some v =>
    ({ g with free_id := g.free_id.dropLast, is_free := g.is_free.set v false }, v)
  | none =>
    ({ g with is_free := g.is_free ++ [false],
              _succs := g._succs ++ [AdaptSMap.init],
              _preds := g._preds ++ [AdaptSMap.init] }, g._succs.length)

/-- Iterated `new_vertex` (used by `growTo` and by concrete scenarios). -/
def newVertices (g : AdaptGraph) : Nat → AdaptGraph
  | 0 => g
  | n + 1 => newVertices (new_vertex g).1 n

/-- `elem(s, d)`: `_succs[s].elem(d)`.  Vertex ids are narrowed to
`key_t` (`uint16_t`) by the C++ call; the reachability relation keeps all
ids below 2^16, where the narrowing is the identity. -/
def elem (g : AdaptGraph) (s d : Nat) : Bool := (getS g s).elemFun d

/-- The weight-slot index of edge `s → d`, if present
(`_succs[s].lookup(d, &idx)`). -/
def lookupIdx (g : AdaptGraph) (s d : Nat) : Option Nat := (getS g s).lookupFun d

/-- `edge_val(s, d)` (precondition: the edge exists): `size_t idx{};
_succs[s].lookup(d, &idx); return _ws[idx];` — on a missing edge the C++
reads `_ws[0]` (`idx` stays value-initialized), modelled by the same
default. -/
def edge_val (g : AdaptGraph) (s d : Nat) : Int := g._ws.getD ((lookupIdx g s d).getD 0) 0

/-- Common tail of `add_edge` after the weight slot `idx` has been
filled: record the slot in both maps and bump the edge count. -/
def addEdgeIdx (g : AdaptGraph) (s : Nat) (idx : Nat) (d : Nat) : AdaptGraph :=
  { g with _succs := g._succs.set s ((getS g s).add d idx),
           _preds := g._preds.set d ((getP g d).add s idx),
           edge_count := g.edge_count + 1 }

/-- `add_edge(s, w, d)` (precondition: no existing edge `s → d`):
allocate a weight slot from the free list if possible, else push onto the
weight vector. -/
def add_edge (g : AdaptGraph) (s : Nat) (w : Int) (d : Nat) : AdaptGraph :=
  match g.free_widx.getLast? with
  | some idx =>
    addEdgeIdx { g with free_widx := g.free_widx.dropLast, _ws := g._ws.set idx w } s idx d
  | none =>
    addEdgeIdx { g with _ws := g._ws ++ [w] } s g._ws.length d

/-- `update_edge(s, w, d)`: relax an existing edge to
`min(existing, w)`, else `add_edge`. -/
def update_edge (g : AdaptGraph) (s : Nat) (w : Int) (d : Nat) : AdaptGraph :=
  match lookupIdx g s d with
  | some idx => { g with _ws := g._ws.set idx (min (g._ws.getD idx 0) w) }
  | none => add_edge g s w d

/-- `set_edge(s, w, d)`: unconditional assign (or insert). -/
def set_edge (g : AdaptGraph) (s : Nat) (w : Int) (d : Nat) : AdaptGraph :=
  match lookupIdx g s d with
  | some idx => { g with _ws := g._ws.set idx w }
  | none => add_edge g s w d

/-- The successor loop of `forget(v)`:
`for (elt_t& e : _succs[v].elts()) { free_widx.push_back(e.val);
_preds[e.key].remove(v); }` — the loop only mutates `_preds` and
`free_widx`, so iterating over the initial element list is faithful. -/
def succFold (v : Nat) : List Elt → AdaptGraph → AdaptGraph
  | [], g => g
  | e :: es, g => succFold v es
      { g with free_widx := g.free_widx ++ [e.val],
               _preds := g._preds.set e.key ((getP g e.key).remove v) }

/-- The predecessor loop of `forget(v)`:
`for (key_t k : _preds[v].keys()) _succs[k].remove(v);`. -/
def predFold (v : Nat) : List Elt → AdaptGraph → AdaptGraph
  | [], g => g
  | e :: es, g => predFold v es
      { g with _succs := g._succs.set e.key ((getS g e.key).remove v) }

/-- Last statements of `forget(v)`: `edge_count -= _preds[v].size();
_preds[v].clear(); is_free[v] = true; free_id.push_back(v);`
(`pv` is `_preds[v]` at the start of the predecessor loop). -/
def forgetD (g3 : AdaptGraph) (v : Nat) (pv : AdaptSMap) : AdaptGraph :=
  { g3 with edge_count := g3.edge_count - (pv.size : Int),
            _preds := g3._preds.set v (AdaptSMap.clear pv),
            is_free := g3.is_free.set v true,
            free_id := g3.free_id ++ [v] }

/-- The predecessor loop and what follows. -/
def forgetC (g2 : AdaptGraph) (v : Nat) : AdaptGraph :=
  forgetD (predFold v (getP g2 v).dense g2) v (getP g2 v)

/-- `edge_count -= _succs[v].size(); _succs[v].clear();` and the rest
(`sv` is `_succs[v]`, untouched by the successor loop). -/
def forgetB (g1 : AdaptGraph) (v : Nat) (sv : AdaptSMap) : AdaptGraph :=
  forgetC { g1 with edge_count := g1.edge_count - (sv.size : Int),
                    _succs := g1._succs.set v (AdaptSMap.clear sv) } v

/-- `forget(v)`: early return on a free vertex, else detach every
incident edge (freeing only the weight slots of the *outgoing* edges),
clear both maps, mark the vertex free and push it on the free list. -/
def forget (g : AdaptGraph) (v : Nat) : AdaptGraph :=
  if g.is_free.getD v false then g
  else forgetB (succFold v (getS g v).dense g) v (getS g v)

/-- `_preds[v]` as it stands after the successor loop of `forget`
(a self-loop's entry has been removed). -/
def predsAfter (g : AdaptGraph) (v : Nat) : AdaptSMap :=
  if (getS g v).elemFun v then (getP g v).remove v else getP g v

/-- The number of incident edges of `v` as `forget` counts them
(a self-loop counted once). -/
def numIncident (g : AdaptGraph) (v : Nat) : Int :=
  ((getS g v).size : Int) + ((predsAfter g v).size : Int)

/-- Graphs reachable from the empty graph by the operations named in the
claims, under their documented preconditions.  `new_vertex` keeps every
vertex id representable in the `uint16_t` key domain (the C++ narrows
`vert_id` to `key_t` at every adjacency-map call); edge operations take
valid vertex slots, and `add_edge` requires the edge to be absent. -/
inductive GReach : AdaptGraph → Prop where
  | empty : GReach empty
  | new_vertex : ∀ g, GReach g → (g.free_id ≠ [] ∨ gsize g < 65536) →
      GReach (new_vertex g).1
  | add_edge : ∀ g s w d, GReach g → s < gsize g → d < gsize g →
      elem g s d = false → GReach (add_edge g s w d)
  | update_edge : ∀ g s w d, GReach g → s < gsize g → d < gsize g →
      GReach (update_edge g s w d)
  | set_edge : ∀ g s w d, GReach g → s < gsize g → d < gsize g →
      GReach (set_edge g s w d)
  | forget : ∀ g v, GReach g → v < gsize g → GReach (forget g v)

/-- Well-formedness of an `AdaptGraph`: the invariant maintained by every
reachable graph (proved in `greach_wf`). -/
structure GWf (g : AdaptGraph) : Prop where
  len_p : g._preds.length = g._succs.length
  len_f : g.is_free.length = g._succs.length
  size_le : g._succs.length ≤ 65536
  sinv_s : ∀ v, v < g._succs.length → AdaptSMap.SInv (getS g v)
  sinv_p : ∀ v, v < g._succs.length → AdaptSMap.SInv (getP g v)
  succ_edges : ∀ s, s < g._succs.length → ∀ d i, mapFun (getS g s) d = some i →
      d < g._succs.length ∧ i < g._ws.length ∧ mapFun (getP g d) s = some i
  pred_edges : ∀ d, d < g._succs.length → ∀ s i, mapFun (getP g d) s = some i →
      s < g._succs.length ∧ i < g._ws.length ∧ mapFun (getS g s) d = some i
  free_ids : ∀ v ∈ g.free_id, v < g._succs.length ∧ g.is_free.getD v false = true
  free_nodup : g.free_id.Nodup
  widx_lt : ∀ i ∈ g.free_widx, i < g._ws.length

/-! ### Concrete graph scenarios -/
/-- Insert one outgoing edge `0 → d` with weight `d` per list entry. -/
def addOut : AdaptGraph → List Nat → AdaptGraph
  | g, [] => g
  | g, d :: ds => addOut (add_edge g 0 (d : Int) d) ds

/-- Churn scenario: 21 vertices and 20 outgoing edges `0 → d`, `d = 1..20`. -/
def g21 : AdaptGraph := addOut (newVertices empty 21) (List.range' 1 20)

/-- The churn scenario after `forget 0`. -/
def g21f : AdaptGraph := forget g21 0

/-- The churn scenario after re-acquiring the vertex with `new_vertex` and
re-adding the 20 edges. -/
def g21b : AdaptGraph := addOut (new_vertex g21f).1 (List.range' 1 20)

/-- Two fresh vertices and the single *incoming* edge `1 → 0` of vertex 0,
with weight 7. -/
def gc0 : AdaptGraph := add_edge (newVertices empty 2) 1 7 0

/-- Two fresh vertices and the single edge `0 → 1` with weight 5. -/
def g2 : AdaptGraph := add_edge (newVertices empty 2) 0 5 1
end AdaptGraph

open AdaptGraph

/-! ## The analysis CFG (src/crab/cfg.hpp)

`basic_block_label_t` values are modelled as naturals and the statements of
a block (`new_statement_t`) as opaque tokens, also naturals: the operations
of the claims never inspect a statement, they only move whole statement
lists around (`move_back`). -/
/-- `basic_block_t` (src/crab/cfg.hpp, lines 326-556): label, statement
list, predecessor and successor label vectors. -/
structure BasicBlock where
  m_bb_id : Nat
  m_ts : List Nat
  m_prev : List Nat
  m_next : List Nat
deriving Repr, DecidableEq

namespace BasicBlock

/-- `insert_adjacent` (line 357): push only if not present. -/
def insert_adjacent (c : List Nat) (e : Nat) : List Nat :=
  if e ∈ c then c else c ++ [e]

/-- `remove_adjacent` (line 363): erase-remove of every occurrence (the
initial find-check does not change the result). -/
def remove_adjacent (c : List Nat) (e : Nat) : List Nat :=
  c.filter (fun x => !(x == e))
end BasicBlock

/-- `cfg_t` (src/crab/cfg.hpp, lines 628-941): entry label, optional exit
label, and the label-keyed block map (`std::unordered_map`, modelled as an
association list with unique keys). -/
structure CfgT where
  m_entry : Nat
  m_exit : Option Nat
  m_blocks : List (Nat × BasicBlock)
deriving Repr, DecidableEq

namespace CfgT

/-- The labels present in the block map. -/
def keys (c : CfgT) : List Nat := c.m_blocks.map Prod.fst

/-- `m_blocks.find(l)`. -/
def lookup (c : CfgT) (l : Nat) : Option BasicBlock :=
  (c.m_blocks.find? (fun p => p.1 == l)).map Prod.snd

/-- Apply `f` to the block stored under `l` (no-op if absent). -/
def updBlock (c : CfgT) (l : Nat) (f : BasicBlock → BasicBlock) : CfgT :=
  { c with m_blocks := c.m_blocks.map (fun p => if p.1 = l then (p.1, f p.2) else p) }

/-- `m_blocks.erase(l)`. -/
def eraseKey (c : CfgT) (l : Nat) : CfgT :=
  { c with m_blocks := c.m_blocks.filter (fun p => !(p.1 == l)) }

/-- `cfg_t(entry)`: one empty block under the entry label. -/
def init (entry : Nat) : CfgT := ⟨entry, none, [(entry, ⟨entry, [], [], []⟩)]⟩

/-- One dead-edge update of `remove`: the pair `(&get_node(p), &bb)` —
`p`'s successor list loses `bb_id`. -/
def detachPred (bb_id : Nat) (c : CfgT) (p : Nat) : CfgT :=
  updBlock c p (fun blk => { blk with m_next := BasicBlock.remove_adjacent blk.m_next bb_id })

/-- One dead-edge update of `remove`: the pair `(&bb, &get_node(s))` —
`s`'s predecessor list loses `bb_id`. -/
def detachSucc (bb_id : Nat) (c : CfgT) (s : Nat) : CfgT :=
  updBlock c s (fun blk => { blk with m_prev := BasicBlock.remove_adjacent blk.m_prev bb_id })

/-- The dead-edge collection and application of `remove` once the block
has been found: collecting `dead_edges` dereferences every non-self
neighbor with `get_node` (fatal when absent); then each pair detaches, and
the block is erased. -/
def removeCore (c : CfgT) (bb_id : Nat) (bb : BasicBlock) : Except String CfgT :=
  if (bb.m_prev.filter (fun x => !(x == bb_id))).all (fun x => (lookup c x).isSome) &&
     (bb.m_next.filter (fun x => !(x == bb_id))).all (fun x => (lookup c x).isSome) then
    .ok (eraseKey
      ((bb.m_next.filter (fun x => !(x == bb_id))).foldl (detachSucc bb_id)
        ((bb.m_prev.filter (fun x => !(x == bb_id))).foldl (detachPred bb_id) c)) bb_id)
  else .error "Basic block not found in the CFG"

/-- `remove(bb_id)` (lines 769-798): fatal on the entry and on the declared
exit; `get_node` is fatal when the label (or, while collecting
`dead_edges`, a non-self neighbor) is absent; otherwise detach the block
from every non-self neighbor and erase it.  Fatal `CRAB_ERROR` paths are
`Except.error`. -/
def remove (c : CfgT) (bb_id : Nat) : Except String CfgT :=
  if bb_id = c.m_entry then .error "Cannot remove entry block"
  else if c.m_exit = some bb_id then .error "Cannot remove exit block"
  else match lookup c bb_id with
  | none => .error "Basic block not found in the CFG"
  | some bb => removeCore c bb_id bb

/-- `parent >> child` as `merge_blocks_rec` performs it: both block
references were obtained by `get_node`, so a missing endpoint is a
use-after-free of the erased block (the merged block was its only other
name); that undefined execution is modelled as an error. -/
def addEdgeE (c : CfgT) (a b : Nat) : Except String CfgT :=
  match lookup c a with
  | none => .error "dangling block reference"
  | some _ =>
    match lookup c b with
    | none => .error "dangling block reference"
    | some _ => .ok (updBlock
        (updBlock c a (fun blk => { blk with m_next := BasicBlock.insert_adjacent blk.m_next b }))
        b (fun blk => { blk with m_prev := BasicBlock.insert_adjacent blk.m_prev a }))

/-- Iterate a traversal step over a snapshot of a successor list, threading
the graph and the visited set. -/
def mergeList (f : CfgT → List Nat → Nat → Except String (CfgT × List Nat)) :
    CfgT → List Nat → List Nat → Except String (CfgT × List Nat)
  | c, visited, [] => .ok (c, visited)
  | c, visited, n :: ns =>
    match f c visited n with
    | .error e => .error e
    | .ok (c', v') => mergeList f c' v' ns

/-- One merge of `merge_blocks_rec`: `parent.move_back(cur)` (the
statement move), `remove(curId)`, `parent >> child`. -/
def mergeStep (c : CfgT) (cur : Nat) (bb : BasicBlock) : Except String CfgT :=
  match remove (updBlock c (bb.m_prev.headD 0)
      (fun blk => { blk with m_ts := blk.m_ts ++ bb.m_ts })) cur with
  | .error e => .error e
  | .ok c2 => addEdgeE c2 (bb.m_prev.headD 0) (bb.m_next.headD 0)

/-- `merge_blocks_rec(curId, visited)` (lines 879-904), with fuel for the
recursion.  On a merge the source inserts `curId` into `visited` and
erases it again, so the visited set is passed on unchanged; the successor
loop iterates over the snapshot of `cur`'s successor list (a recursive
call mutates that list only when `cur` is the merged node's unique parent,
in which case the list was the singleton already consumed). -/
def mergeRec : Nat → CfgT → List Nat → Nat → Except String (CfgT × List Nat)
  | 0, _, _, _ => .error "merge fuel exhausted"
  | fuel + 1, c, visited, cur =>
    if cur ∈ visited then .ok (c, visited)
    else match lookup c cur with
    | none => .error "Basic block not found in the CFG"
    | some bb =>
      if bb.m_next.length = 1 && bb.m_prev.length = 1 then
        match lookup c (bb.m_prev.headD 0) with
        | none => .error "Basic block not found in the CFG"
        | some pb =>
          match lookup c (bb.m_next.headD 0) with
          | none => .error "Basic block not found in the CFG"
          | some _ =>
            if pb.m_next.length = 1 then
              match mergeStep c cur bb with
              | .error e => .error e
              | .ok c3 => mergeRec fuel c3 visited (bb.m_next.headD 0)
            else mergeList (mergeRec fuel) c (cur :: visited) bb.m_next
      else mergeList (mergeRec fuel) c (cur :: visited) bb.m_next

/-- `merge_blocks()` (lines 908-911). -/
def mergeBlocks (fuel : Nat) (c : CfgT) : Except String CfgT :=
  match mergeRec fuel c [] c.m_entry with
  | .error e => .error e
  | .ok (c', _) => .ok c'

/-- Iterate a marking step over a successor-list snapshot, threading the
visited set. -/
def markAliveList (f : CfgT → List Nat → Nat → Except String (List Nat)) :
    CfgT → List Nat → List Nat → Except String (List Nat)
  | _, visited, [] => .ok visited
  | c, visited, n :: ns =>
    match f c visited n with
    | .error e => .error e
    | .ok v' => markAliveList f c v' ns

/-- `mark_alive_blocks` (lines 914-922), with fuel: depth-first marking
over the successor lists. -/
def markAlive : Nat → CfgT → List Nat → Nat → Except String (List Nat)
  | 0, _, _, _ => .error "mark fuel exhausted"
  | fuel + 1, c, visited, cur =>
    if cur ∈ visited then .ok visited
    else match lookup c cur with
    | none => .error "Basic block not found in the CFG"
    | some bb => markAliveList (markAlive fuel) c (cur :: visited) bb.m_next

/-- The same marking over the predecessor lists (backward reachability). -/
def markCoAlive : Nat → CfgT → List Nat → Nat → Except String (List Nat)
  | 0, _, _, _ => .error "mark fuel exhausted"
  | fuel + 1, c, visited, cur =>
    if cur ∈ visited then .ok visited
    else match lookup c cur with
    | none => .error "Basic block not found in the CFG"
    | some bb => markAliveList (markCoAlive fuel) c (cur :: visited) bb.m_prev

/-- `remove` each label of a list in turn. -/
def removeList : CfgT → List Nat → Except String CfgT
  | c, [] => .ok c
  | c, d :: ds =>
    match remove c d with
    | .error e => .error e
    | .ok c' => removeList c' ds

/-- `remove_unreachable_blocks()` (lines 925-938): mark from the entry,
collect the unmarked labels, remove them. -/
def removeUnreachable (fuel : Nat) (c : CfgT) : Except String CfgT :=
  match markAlive fuel c [] c.m_entry with
  | .error e => .error e
  | .ok alive => removeList c ((keys c).filter (fun l => !(alive.contains l)))

/-- Modelled from the spec: `remove_useless_blocks()` is only declared in
src/crab/cfg.hpp (line 941); the spec describes it as removing the blocks
that cannot reach the exit block.  Modelled as backward marking from the
declared exit followed by removal of the unmarked labels; without a
declared exit nothing is removed. -/
def removeUseless (fuel : Nat) (c : CfgT) : Except String CfgT :=
  match c.m_exit with
  | none => .ok c
  | some e =>
    match markCoAlive fuel c [] e with
    | .error er => .error er
    | .ok coalive => removeList c ((keys c).filter (fun l => !(coalive.contains l)))

/-- `simplify()` (lines 840-848). -/
def simplifyF (fuel : Nat) (c : CfgT) : Except String CfgT :=
  match mergeBlocks fuel c with
  | .error e => .error e
  | .ok c1 =>
    match removeUnreachable fuel c1 with
    | .error e => .error e
    | .ok c2 =>
      match removeUseless fuel c2 with
      | .error e => .error e
      | .ok c3 =>
        match mergeBlocks fuel c3 with
        | .error e => .error e
        | .ok c4 => mergeBlocks fuel c4

/-- Forward reachability along successor lists. -/
inductive ReachFrom (c : CfgT) (src : Nat) : Nat → Prop where
  | refl : ReachFrom c src src
  | step (x y : Nat) (bx : BasicBlock) : ReachFrom c src x → lookup c x = some bx →
      y ∈ bx.m_next → ReachFrom c src y

/-- Backward reachability along predecessor lists (under well-formedness,
`ReachBack c e x` says `x` reaches `e` forward). -/
inductive ReachBack (c : CfgT) (e : Nat) : Nat → Prop where
  | refl : ReachBack c e e
  | step (x y : Nat) (bx : BasicBlock) : ReachBack c e x → lookup c x = some bx →
      y ∈ bx.m_prev → ReachBack c e y

/-- Every block is reachable from the entry. -/
def AllReach (c : CfgT) : Prop := ∀ l ∈ keys c, ReachFrom c c.m_entry l

/-- Every block reaches `e`. -/
def AllReachExit (c : CfgT) (e : Nat) : Prop := ∀ l ∈ keys c, ReachFrom c l e

/-- The merge condition of `merge_blocks_rec`: one child, one parent, and
the sole parent itself has one child. -/
def Mergeable (c : CfgT) (l : Nat) : Prop :=
  ∃ bl pb, lookup c l = some bl ∧ bl.m_next.length = 1 ∧ bl.m_prev.length = 1 ∧
    lookup c (bl.m_prev.headD 0) = some pb ∧ pb.m_next.length = 1

/-- The condition claimed to be eliminated by the spec: in-degree 1, the
sole predecessor has out-degree 1, and every successor (if any) is
reachable from the entry. -/
def SpecMergeable (c : CfgT) (l : Nat) : Prop :=
  ∃ bl pb, lookup c l = some bl ∧ bl.m_prev.length = 1 ∧
    lookup c (bl.m_prev.headD 0) = some pb ∧ pb.m_next.length = 1 ∧
    (∀ s ∈ bl.m_next, ReachFrom c c.m_entry s)

/-- The two-block chain `0 → 1` with entry 0, no declared exit, and no
statements. -/
def cfg01 : CfgT := ⟨0, none, [(0, ⟨0, [], [], [1]⟩), (1, ⟨1, [], [0], []⟩)]⟩

/-- Structural well-formedness of a `cfg_t`: unique keys, each block
labelled by its key, entry present, adjacency lists closed under the key
set and duplicate-free, and predecessor/successor symmetry. -/
structure CfgWf (c : CfgT) : Prop where
  keys_nodup : (c.m_blocks.map Prod.fst).Nodup
  label_eq : ∀ p ∈ c.m_blocks, p.2.m_bb_id = p.1
  entry_mem : c.m_entry ∈ c.m_blocks.map Prod.fst
  closed : ∀ p ∈ c.m_blocks, ∀ x ∈ p.2.m_prev ++ p.2.m_next, x ∈ c.m_blocks.map Prod.fst
  symm : ∀ p ∈ c.m_blocks, ∀ q ∈ c.m_blocks, (q.1 ∈ p.2.m_next ↔ p.1 ∈ q.2.m_prev)
  adj_nodup : ∀ p ∈ c.m_blocks, p.2.m_prev.Nodup ∧ p.2.m_next.Nodup

/-! ### Characterization of `remove` -/
/-- The block transformation applied by `remove l` to every surviving
block under the well-formedness invariant: both adjacency lists lose `l`,
nothing else changes. -/
def dropNeighbor (l : Nat) (b : BasicBlock) : BasicBlock :=
  { b with m_prev := BasicBlock.remove_adjacent b.m_prev l,
           m_next := BasicBlock.remove_adjacent b.m_next l }

/-- The block transformation applied by removing every label of `ds`. -/
def dropAll (ds : List Nat) (b : BasicBlock) : BasicBlock :=
  { b with m_prev := b.m_prev.filter (fun z => !(ds.contains z)),
           m_next := b.m_next.filter (fun z => !(ds.contains z)) }

/-- Situation in which `merge_blocks_rec` performs a merge: `cur` has the
single parent `p` and single child `ch`, and `p` has a single child
(necessarily `cur`). -/
structure MergeIn (c : CfgT) (cur p ch : Nat) (bb pb : BasicBlock) : Prop where
  hw : CfgWf c
  hbb : lookup c cur = some bb
  hprev : bb.m_prev = [p]
  hnext : bb.m_next = [ch]
  hpb : lookup c p = some pb
  hpnext : pb.m_next = [cur]

/-- The merged-block transformation: `p` gets `cur`'s statements and the
single successor `ch`; `ch`'s predecessor `cur` is replaced by `p` (at the
end of the list); everything else is untouched. -/
def mergeXform (cur p ch : Nat) (bb : BasicBlock) (x : Nat) (b : BasicBlock) : BasicBlock :=
  ⟨b.m_bb_id,
   if x = p then b.m_ts ++ bb.m_ts else b.m_ts,
   if x = ch then BasicBlock.remove_adjacent b.m_prev cur ++ [p] else b.m_prev,
   if x = p then [ch] else b.m_next⟩

/-- What one successful merge produces. -/
structure MergeOut (c : CfgT) (cur p ch : Nat) (bb : BasicBlock) (c3 : CfgT) : Prop where
  hp_ne : p ≠ cur
  hch_ne : ch ≠ cur
  hentry_ne : cur ≠ c.m_entry
  hexit_ne : c.m_exit ≠ some cur
  hen : c3.m_entry = c.m_entry
  hex : c3.m_exit = c.m_exit
  hkeys : keys c3 = (keys c).filter (fun x => !(x == cur))
  hchar : ∀ x, x ≠ cur → lookup c3 x = (lookup c x).map (mergeXform cur p ch bb x)
  hcur : lookup c3 cur = none

/-- Invariant carried by the merge traversal: the graph is well-formed,
every visited label survives, no visited label is mergeable, and the
successors of visited labels are visited or excused. -/
def MPre (c : CfgT) (visited E : List Nat) : Prop :=
  CfgWf c ∧ (∀ x ∈ visited, x ∈ keys c) ∧ (∀ x ∈ visited, ¬ Mergeable c x) ∧
  (∀ x ∈ visited, ∀ bx, lookup c x = some bx → ∀ y ∈ bx.m_next, y ∈ visited ∨ y ∈ E)

/-- The three-block chain `0 → 1 → 2` with entry 0 and declared exit 2. -/
def cfg012 : CfgT :=
  ⟨0, some 2, [(0, ⟨0, [], [], [1]⟩), (1, ⟨1, [], [0], [2]⟩), (2, ⟨2, [], [1], []⟩)]⟩

/-- The result of simplifying `cfg012`: block 1 merged into block 0. -/
def cfg012s : CfgT :=
  ⟨0, some 2, [(0, ⟨0, [], [], [2]⟩), (2, ⟨2, [], [0], []⟩)]⟩
end CfgT

/-! ### src/asm_cfg.hpp: the ASM-level `Cfg` -/
/-- A `BasicBlock` of src/asm_cfg.hpp; instructions and assertion strings
are opaque. -/
structure AsmBasicBlock where
  insts : List Nat
  nextlist : List Nat
  prevlist : List Nat
  pres : List String
  posts : List String
deriving Repr, DecidableEq

/-- The `Cfg` of src/asm_cfg.hpp: the unordered block map (modelled as an
association list) and the label list `ordered_labels`, which only the
private `encountered` appends to. -/
structure AsmCfg where
  graph : List (Nat × AsmBasicBlock)
  ordered_labels : List Nat
deriving Repr, DecidableEq

namespace AsmCfg

/-- The value-initialized `BasicBlock{}` that `operator[]` default-inserts. -/
def emptyBlock : AsmBasicBlock := ⟨[], [], [], [], []⟩

/-- Lookup in the unordered block map. -/
def mapLookup : List (Nat × AsmBasicBlock) → Nat → Option AsmBasicBlock
  | [], _ => none
  | (k, v) :: g, l => if k = l then some v else mapLookup g l

/-- `operator[](l)` (line 34): `graph[l]` default-inserts an empty block
when `l` is absent; `encountered` is not called, so `ordered_labels` is
untouched. -/
def opIndex (c : AsmCfg) (l : Nat) : AsmCfg :=
  if (mapLookup c.graph l).isSome then c
  else { c with graph := c.graph ++ [(l, emptyBlock)] }

/-- `at(l)` (line 35): `graph.at(l)`, which throws (`none`) when absent. -/
def atLabel (c : AsmCfg) (l : Nat) : Option AsmBasicBlock := mapLookup c.graph l

/-- `keys()` (line 37): the ordered label list. -/
def keysF (c : AsmCfg) : List Nat := c.ordered_labels

/-- A one-block graph whose label 0 was encountered during construction. -/
def asmc : AsmCfg := ⟨[(0, ⟨[], [], [], [], []⟩)], [0]⟩
end AsmCfg


namespace AdaptSMap

theorem tget_replicate : ∀ n k, tget (List.replicate n (none : Option Nat)) k = none
  | 0, _ => rfl
  | _ + 1, 0 => rfl
  | n + 1, k + 1 => tget_replicate n k

theorem tget_set_self : ∀ (tbl : List (Option Nat)) (k : Nat) (v : Option Nat),
    k < tbl.length → tget (tbl.set k v) k = v
  | _ :: _, 0, _, _ => rfl
  | _ :: tbl, k + 1, v, h => tget_set_self tbl k v (by simpa using h)

theorem tget_set_ne : ∀ (tbl : List (Option Nat)) (j k : Nat) (v : Option Nat),
    j ≠ k → tget (tbl.set j v) k = tget tbl k := by
  intro tbl
  induction tbl with
  | nil => intro j k v _; rfl
  | cons x tbl ih =>
    intro j k v hjk
    match j, k with
    | 0, 0 => exact absurd rfl hjk
    | 0, k + 1 => rfl
    | j + 1, 0 => rfl
    | j + 1, k + 1 => exact ih j k v (by omega)

theorem tget_of_ge : ∀ (tbl : List (Option Nat)) (k : Nat), tbl.length ≤ k → tget tbl k = none
  | [], _, _ => rfl
  | _ :: tbl, k + 1, h => tget_of_ge tbl k (by simpa using h)

theorem tget_isSome_lt (tbl : List (Option Nat)) (k : Nat) (h : (tget tbl k).isSome) :
    k < tbl.length := by
  by_contra hk
  rw [tget_of_ge tbl k (by omega)] at h
  simp at h

theorem writeIdx_length (es : List Elt) (tbl : List (Option Nat)) (i : Nat) :
    (writeIdx tbl es i).length = tbl.length := by
  induction es generalizing tbl i with
  | nil => rfl
  | cons e es ih => simp [writeIdx, ih]

theorem writeIdx_tget_of_not_mem (es : List Elt) (tbl : List (Option Nat)) (i k : Nat)
    (h : k ∉ es.map Elt.key) : tget (writeIdx tbl es i) k = tget tbl k := by
  induction es generalizing tbl i with
  | nil => rfl
  | cons e es ih =>
    simp only [List.map_cons, List.mem_cons, not_or] at h
    rw [writeIdx, ih _ _ h.2, tget_set_ne _ _ _ _ (fun he => h.1 he.symm)]

theorem writeIdx_tget (es : List Elt) (tbl : List (Option Nat)) (i : Nat)
    (hnd : (es.map Elt.key).Nodup) (hlt : ∀ e ∈ es, e.key < tbl.length) :
    ∀ j, j < es.length → tget (writeIdx tbl es i) (es.getD j ⟨0, 0⟩).key = some (i + j) := by
  induction es generalizing tbl i with
  | nil => intro j h; exact absurd h (by simp)
  | cons e es ih =>
    intro j h
    simp only [List.map_cons, List.nodup_cons] at hnd
    match j with
    | 0 =>
      have hg : ((e :: es).getD 0 ⟨0, 0⟩) = e := rfl
      rw [writeIdx, hg, writeIdx_tget_of_not_mem _ _ _ _ hnd.1,
          tget_set_self _ _ _ (hlt e (by simp))]
      simp
    | j + 1 =>
      have hj : j < es.length := by simpa using h
      have hg : ((e :: es).getD (j + 1) ⟨0, 0⟩) = es.getD j ⟨0, 0⟩ := rfl
      rw [writeIdx, hg,
          ih _ _ hnd.2
            (fun e' he' => by rw [List.length_set]; exact hlt e' (by simp [he'])) j hj]
      congr 1
      omega

theorem growLoopAux_ge_self : ∀ (fuel cap t : Nat), cap ≤ growLoopAux fuel cap t := by
  intro fuel
  induction fuel with
  | zero => intro cap t; exact Nat.le_refl cap
  | succ fuel ih =>
    intro cap t
    rw [growLoopAux]
    split
    · calc cap ≤ 2 * cap := by omega
        _ ≤ _ := ih (2 * cap) t
    · exact Nat.le_refl cap

theorem growLoopAux_ge : ∀ (fuel cap t : Nat), 1 ≤ cap → t ≤ 2 ^ fuel * cap →
    t ≤ growLoopAux fuel cap t := by
  intro fuel
  induction fuel with
  | zero =>
    intro cap t _ hb
    simpa using hb
  | succ fuel ih =>
    intro cap t hc hb
    rw [growLoopAux]
    split
    · refine ih (2 * cap) t (by omega) ?_
      rw [pow_succ] at hb
      calc t ≤ 2 ^ fuel * 2 * cap := hb
        _ = 2 ^ fuel * (2 * cap) := by ring
    · omega

theorem growLoop_ge_self (cap t : Nat) : cap ≤ growLoop cap t := by
  unfold growLoop
  by_cases h0 : cap = 0
  · rw [if_pos h0]; omega
  · rw [if_neg h0]; exact growLoopAux_ge_self t cap t

theorem growLoop_ge (cap t : Nat) (h0 : cap ≠ 0) : t ≤ growLoop cap t := by
  unfold growLoop
  rw [if_neg h0]
  refine growLoopAux_ge t cap t (by omega) ?_
  have h1 : t < 2 ^ t := Nat.lt_two_pow t
  calc t ≤ 2 ^ t := by omega
    _ = 2 ^ t * 1 := by ring
    _ ≤ 2 ^ t * cap := Nat.mul_le_mul_left _ (by omega)

theorem le_keyMax_aux (l : List Elt) (acc : Nat) :
    acc ≤ l.foldl (fun acc e => max acc e.key) acc ∧
    ∀ e ∈ l, e.key ≤ l.foldl (fun acc e => max acc e.key) acc := by
  induction l generalizing acc with
  | nil => simp
  | cons x l ih =>
    constructor
    · calc acc ≤ max acc x.key := Nat.le_max_left _ _
        _ ≤ _ := (ih (max acc x.key)).1
    · intro e he
      rcases List.mem_cons.mp he with rfl | he
      · calc e.key ≤ max acc e.key := Nat.le_max_right _ _
          _ ≤ _ := (ih (max acc e.key)).1
      · exact (ih (max acc x.key)).2 e he

theorem le_keyMax (l : List Elt) (e : Elt) (he : e ∈ l) : e.key ≤ keyMax l :=
  (le_keyMax_aux l 0).2 e he
end AdaptSMap

/-! ### Generic list access helpers -/
theorem getD_set_self {α : Type} : ∀ (l : List α) (i : Nat) (d v : α),
    i < l.length → (l.set i v).getD i d = v
  | _ :: _, 0, _, _, _ => rfl
  | _ :: l, i + 1, d, v, h => getD_set_self l i d v (by simpa using h)

theorem getD_set_ne {α : Type} : ∀ (l : List α) (i j : Nat) (d v : α),
    i ≠ j → (l.set i v).getD j d = l.getD j d := by
  intro l
  induction l with
  | nil => intro i j d v _; rfl
  | cons x l ih =>
    intro i j d v hij
    match i, j with
    | 0, 0 => exact absurd rfl hij
    | 0, j + 1 => rfl
    | i + 1, 0 => rfl
    | i + 1, j + 1 => exact ih i j d v (by omega)

theorem getD_of_ge {α : Type} : ∀ (l : List α) (i : Nat) (d : α),
    l.length ≤ i → l.getD i d = d
  | [], _, _, _ => rfl
  | _ :: l, i + 1, d, h => getD_of_ge l i d (by simpa using h)

theorem getD_take {α : Type} : ∀ (l : List α) (n i : Nat) (d : α),
    i < n → (l.take n).getD i d = l.getD i d
  | [], _, _, _, _ => by simp
  | _ :: _, _ + 1, 0, _, _ => rfl
  | _ :: l, n + 1, i + 1, d, h => getD_take l n i d (by omega)

theorem getD_mem {α : Type} : ∀ (l : List α) (i : Nat) (d : α),
    i < l.length → l.getD i d ∈ l
  | x :: _, 0, _, _ => List.mem_cons_self x _
  | x :: l, i + 1, d, h => List.mem_cons_of_mem x (getD_mem l i d (by simpa using h))

theorem exists_getD_of_mem {α : Type} : ∀ (l : List α) (e : α) (d : α),
    e ∈ l → ∃ i, i < l.length ∧ l.getD i d = e := by
  intro l
  induction l with
  | nil => intro e d h; simp at h
  | cons x l ih =>
    intro e d h
    rcases List.mem_cons.mp h with rfl | h
    · exact ⟨0, by simp, rfl⟩
    · obtain ⟨i, hi, hg⟩ := ih e d h
      exact ⟨i + 1, by simpa using hi, hg⟩

theorem getD_append_lt {α : Type} : ∀ (l l2 : List α) (i : Nat) (d : α),
    i < l.length → (l ++ l2).getD i d = l.getD i d
  | _ :: _, _, 0, _, _ => rfl
  | _ :: l, l2, i + 1, d, h => getD_append_lt l l2 i d (by simpa using h)

theorem getD_append_self {α : Type} : ∀ (l : List α) (a d : α),
    (l ++ [a]).getD l.length d = a
  | [], _, _ => rfl
  | _ :: l, a, d => getD_append_self l a d

namespace AdaptSMap

/-- Distinct positions have distinct keys, given `Nodup` of the keys. -/
theorem key_ne_of_nodup : ∀ (l : List Elt), (l.map Elt.key).Nodup →
    ∀ i j, i < l.length → j < l.length → i ≠ j →
      (l.getD i ⟨0, 0⟩).key ≠ (l.getD j ⟨0, 0⟩).key := by
  intro l
  induction l with
  | nil => intro _ i j hi; simp at hi
  | cons x l ih =>
    intro hnd i j hi hj hij
    simp only [List.map_cons, List.nodup_cons] at hnd
    match i, j with
    | 0, 0 => exact absurd rfl hij
    | 0, j + 1 =>
      intro hxy
      exact hnd.1 (hxy ▸ List.mem_map_of_mem Elt.key (getD_mem l j _ (by simpa using hj)))
    | i + 1, 0 =>
      intro hxy
      exact hnd.1 (hxy ▸ List.mem_map_of_mem Elt.key (getD_mem l i _ (by simpa using hi)))
    | i + 1, j + 1 =>
      exact ih hnd.2 i j (by simpa using hi) (by simpa using hj) (by omega)

/-- Converse: positionwise distinct keys give `Nodup` keys. -/
theorem nodup_of_key_ne : ∀ (l : List Elt),
    (∀ i j, i < l.length → j < l.length → i ≠ j →
      (l.getD i ⟨0, 0⟩).key ≠ (l.getD j ⟨0, 0⟩).key) →
    (l.map Elt.key).Nodup := by
  intro l
  induction l with
  | nil => intro _; simp
  | cons x l ih =>
    intro h
    simp only [List.map_cons, List.nodup_cons]
    refine ⟨?_, ih (fun i j hi hj hij => h (i + 1) (j + 1) (by simpa using hi)
      (by simpa using hj) (by omega))⟩
    intro hmem
    obtain ⟨e, he, hek⟩ := List.mem_map.mp hmem
    obtain ⟨i, hi, hg⟩ := exists_getD_of_mem l e ⟨0, 0⟩ he
    refine h 0 (i + 1) (by simp) (by simpa using hi) (by omega) ?_
    show x.key = (l.getD i ⟨0, 0⟩).key
    rw [hg, hek]

/-- With `Nodup` keys, `find?` at the key of a member returns exactly
that member. -/
theorem find?_key_of_mem : ∀ (l : List Elt), (l.map Elt.key).Nodup →
    ∀ e ∈ l, l.find? (fun x => x.key == e.key) = some e := by
  intro l
  induction l with
  | nil => intro _ e he; simp at he
  | cons x l ih =>
    intro hnd e he
    simp only [List.map_cons, List.nodup_cons] at hnd
    rcases List.mem_cons.mp he with rfl | he
    · rw [List.find?_cons]
      simp
    · have hxk : (x.key == e.key) = false := by
        simp only [beq_eq_false_iff_ne, ne_eq]
        intro hxy
        exact hnd.1 (hxy ▸ List.mem_map_of_mem Elt.key he)
      rw [List.find?_cons, hxk]
      exact ih hnd.2 e he

theorem find?_append_of_some {α : Type} {p : α → Bool} {l : List α} {e : α} (l2 : List α)
    (h : l.find? p = some e) : (l ++ l2).find? p = some e := by
  induction l with
  | nil => simp at h
  | cons x l ih =>
    cases hx : p x with
    | true =>
      rw [List.find?_cons, hx] at h
      rw [List.cons_append, List.find?_cons, hx]
      exact h
    | false =>
      rw [List.find?_cons, hx] at h
      rw [List.cons_append, List.find?_cons, hx]
      exact ih h

theorem find?_append_of_none {α : Type} {p : α → Bool} {l : List α} (l2 : List α)
    (h : l.find? p = none) : (l ++ l2).find? p = l2.find? p := by
  induction l with
  | nil => rfl
  | cons x l ih =>
    cases hx : p x with
    | true =>
      rw [List.find?_cons, hx] at h
      simp at h
    | false =>
      rw [List.find?_cons, hx] at h
      rw [List.cons_append, List.find?_cons, hx]
      exact ih h

/-! ### Relating `elem` / `lookup` to the abstract content -/
theorem mapFun_eq_none_iff (m : AdaptSMap) (k : Nat) :
    mapFun m k = none ↔ ∀ e ∈ m.dense, e.key ≠ k := by
  unfold mapFun
  rw [Option.map_eq_none', List.find?_eq_none]
  simp

theorem mapFun_of_mem (m : AdaptSMap) (e : Elt) (hnd : (m.dense.map Elt.key).Nodup)
    (he : e ∈ m.dense) : mapFun m e.key = some e.val := by
  unfold mapFun
  rw [find?_key_of_mem m.dense hnd e he]
  rfl

theorem mapFun_eq_some_iff (m : AdaptSMap) (k w : Nat) (hnd : (m.dense.map Elt.key).Nodup) :
    mapFun m k = some w ↔ (⟨k, w⟩ : Elt) ∈ m.dense := by
  constructor
  · intro h
    unfold mapFun at h
    cases hf : m.dense.find? (fun e => e.key == k) with
    | none => rw [hf] at h; simp at h
    | some e =>
      rw [hf] at h
      have hm := List.mem_of_find?_eq_some hf
      have hp := List.find?_some hf
      simp only [beq_iff_eq] at hp
      simp only [Option.map_some'] at h
      have : e = ⟨k, w⟩ := by
        cases e
        simp only [Option.some.injEq] at h
        simp_all
      exact this ▸ hm
  · intro h
    have := mapFun_of_mem m ⟨k, w⟩ hnd h
    exact this

theorem mapFun_isSome_iff (m : AdaptSMap) (k : Nat) :
    (mapFun m k).isSome = true ↔ ∃ e ∈ m.dense, e.key = k := by
  unfold mapFun
  cases hf : m.dense.find? (fun e => e.key == k) with
  | none =>
    have := List.find?_eq_none.mp hf
    simp only [Option.map_none', Option.isSome_none]
    constructor
    · intro h; cases h
    · rintro ⟨e, he, hk⟩
      exact absurd (by simpa using hk) (this e he)
  | some e =>
    have hm := List.mem_of_find?_eq_some hf
    have hp := List.find?_some hf
    simp only [beq_iff_eq] at hp
    simp only [Option.map_some', Option.isSome_some, true_iff]
    exact ⟨e, hm, hp⟩

/-- Under the invariant, `elem` computes membership regardless of the
value an undefined sparse read may produce. -/
theorem elemWith_eq_mem (m : AdaptSMap) (k junk : Nat) (hm : SInv m) :
    elemWith m k junk = (mapFun m k).isSome := by
  cases hsp : m.sparse with
  | none =>
    simp only [elemWith, hsp]
    cases hf : m.dense.find? (fun e => e.key == k) with
    | none =>
      have hall := List.find?_eq_none.mp hf
      simp only [mapFun, hf, Option.map_none', Option.isSome_none]
      rw [List.any_eq_false]
      exact hall
    | some e =>
      simp only [mapFun, hf, Option.map_some', Option.isSome_some]
      have hp : (e.key == k) = true := by
        have := List.find?_some hf
        exact this
      exact List.any_eq_true.mpr ⟨e, List.mem_of_find?_eq_some hf, hp⟩
  | some tbl =>
    obtain ⟨hlen, hinv⟩ := hm.sparse_mode tbl hsp
    simp only [elemWith, hsp]
    by_cases hex : ∃ e ∈ m.dense, e.key = k
    · obtain ⟨e, he, rfl⟩ := hex
      obtain ⟨i, hi, hg⟩ := exists_getD_of_mem m.dense e ⟨0, 0⟩ he
      have h2 := (hinv i hi).2
      rw [hg] at h2
      rw [h2]
      simp only [Option.getD_some]
      rw [hg]
      simp [hi, (mapFun_isSome_iff m e.key).mpr ⟨e, he, rfl⟩]
    · have hall : ∀ e ∈ m.dense, e.key ≠ k := by
        intro e he hek
        exact hex ⟨e, he, hek⟩
      have hrhs : (mapFun m k).isSome = false := by
        rw [(mapFun_eq_none_iff m k).mpr hall]
        rfl
      rw [hrhs]
      rcases Nat.lt_or_ge ((tget tbl k).getD junk) m.dense.length with hlt | hge
      · have hne := hall _ (getD_mem m.dense _ ⟨0, 0⟩ hlt)
        have hb : ((m.dense.getD ((tget tbl k).getD junk) ⟨0, 0⟩).key == k) = false := by
          simpa using hne
        rw [hb, Bool.and_false]
      · rw [decide_eq_false (by omega), Bool.false_and]

/-- Under the invariant, `lookup` computes the abstract content regardless
of the value an undefined sparse read may produce. -/
theorem lookupWith_eq_mapFun (m : AdaptSMap) (k junk : Nat) (hm : SInv m) :
    lookupWith m k junk = mapFun m k := by
  cases hsp : m.sparse with
  | none => simp only [lookupWith, hsp, mapFun]
  | some tbl =>
    obtain ⟨hlen, hinv⟩ := hm.sparse_mode tbl hsp
    simp only [lookupWith, hsp]
    by_cases hex : ∃ e ∈ m.dense, e.key = k
    · obtain ⟨e, he, rfl⟩ := hex
      obtain ⟨i, hi, hg⟩ := exists_getD_of_mem m.dense e ⟨0, 0⟩ he
      have h2 := (hinv i hi).2
      rw [hg] at h2
      rw [h2]
      simp only [Option.getD_some]
      rw [if_pos (by rw [hg]; exact ⟨hi, rfl⟩), hg,
          mapFun_of_mem m e hm.nodup he]
    · have hall : ∀ e ∈ m.dense, e.key ≠ k := by
        intro e he hek
        exact hex ⟨e, he, hek⟩
      rw [(mapFun_eq_none_iff m k).mpr hall]
      rcases Nat.lt_or_ge ((tget tbl k).getD junk) m.dense.length with hlt | hge
      · have hne := hall _ (getD_mem m.dense _ ⟨0, 0⟩ hlt)
        rw [if_neg (by intro hc; exact hne hc.2)]
      · rw [if_neg (by intro hc; omega)]

/-! ### Invariant preservation by the operations -/
theorem rebuild_inv (es : List Elt) (ub : Nat) (hnd : (es.map Elt.key).Nodup)
    (hlt : ∀ e ∈ es, e.key < ub) :
    (writeIdx (List.replicate ub none) es 0).length = ub ∧
    (∀ i, i < es.length →
      tget (writeIdx (List.replicate ub none) es 0) (es.getD i ⟨0, 0⟩).key = some i) ∧
    (∀ k, k ∉ es.map Elt.key → tget (writeIdx (List.replicate ub none) es 0) k = none) := by
  refine ⟨?_, ?_, ?_⟩
  · rw [writeIdx_length]; simp
  · intro i hi
    have := writeIdx_tget es (List.replicate ub none) 0 hnd
      (fun e he => by simpa using hlt e he) i hi
    simpa using this
  · intro k hk
    rw [writeIdx_tget_of_not_mem es _ 0 k hk, tget_replicate]

theorem growDense_spec (m : AdaptSMap) (new_max : Nat) (hm : SInv m) :
    (growDense m new_max).dense = m.dense ∧
    (growDense m new_max).sparse.isSome = true ∧
    new_max ≤ (growDense m new_max).dense_maxsz ∧
    SInv (growDense m new_max) := by
  have hcap0 : m.dense_maxsz ≠ 0 := by have := hm.maxsz8; omega
  have hge1 : new_max ≤ growLoop m.dense_maxsz new_max := growLoop_ge _ _ hcap0
  have hge2 : m.dense_maxsz ≤ growLoop m.dense_maxsz new_max := growLoop_ge_self _ _
  cases hsp : m.sparse with
  | some tbl =>
    obtain ⟨hlen, hinv⟩ := hm.sparse_mode tbl hsp
    refine ⟨by simp [growDense, hsp], by simp [growDense, hsp], by simp [growDense, hsp]; omega, ?_⟩
    constructor <;> simp only [growDense, hsp]
    · exact hm.nodup
    · have := hm.len_le; omega
    · have := hm.maxsz8; omega
    · exact hm.ub1
    · intro h; simp at h
    · intro tbl' h
      simp only [Option.some.injEq] at h
      subst h
      exact ⟨hlen, hinv⟩
  | none =>
    have hltk : ∀ e ∈ m.dense, e.key < keyMax m.dense + 1 :=
      fun e he => Nat.lt_succ_of_le (le_keyMax m.dense e he)
    obtain ⟨hrl, hri, _⟩ := rebuild_inv m.dense (keyMax m.dense + 1) hm.nodup hltk
    refine ⟨by simp [growDense, hsp], by simp [growDense, hsp], by simp [growDense, hsp]; omega, ?_⟩
    constructor <;> simp only [growDense, hsp]
    · exact hm.nodup
    · have := hm.len_le; omega
    · have := hm.maxsz8; omega
    · omega
    · intro h; simp at h
    · intro tbl' h
      simp only [Option.some.injEq] at h
      subst h
      refine ⟨hrl, fun i hi => ⟨hltk _ (getD_mem m.dense i ⟨0, 0⟩ hi), hri i hi⟩⟩

theorem growSparse_spec (m : AdaptSMap) (new_ub : Nat) (tbl0 : List (Option Nat))
    (hm : SInv m) (hsp : m.sparse = some tbl0) :
    (growSparse m new_ub).dense = m.dense ∧
    (growSparse m new_ub).dense_maxsz = m.dense_maxsz ∧
    new_ub ≤ (growSparse m new_ub).sparse_ub ∧
    (growSparse m new_ub).sparse.isSome = true ∧
    SInv (growSparse m new_ub) := by
  have hcap0 : m.sparse_ub ≠ 0 := by have := hm.ub1; omega
  have hge1 : new_ub ≤ growLoop m.sparse_ub new_ub := growLoop_ge _ _ hcap0
  have hge2 : m.sparse_ub ≤ growLoop m.sparse_ub new_ub := growLoop_ge_self _ _
  obtain ⟨hlen, hinv⟩ := hm.sparse_mode tbl0 hsp
  have hltk : ∀ e ∈ m.dense, e.key < growLoop m.sparse_ub new_ub := by
    intro e he
    obtain ⟨i, hi, hg⟩ := exists_getD_of_mem m.dense e ⟨0, 0⟩ he
    have := (hinv i hi).1
    rw [hg] at this
    omega
  obtain ⟨hrl, hri, _⟩ := rebuild_inv m.dense (growLoop m.sparse_ub new_ub) hm.nodup hltk
  refine ⟨rfl, rfl, hge1, rfl, ?_⟩
  constructor <;> simp only [growSparse]
  · exact hm.nodup
  · exact hm.len_le
  · exact hm.maxsz8
  · omega
  · intro h; simp at h
  · intro tbl' h
    simp only [Option.some.injEq] at h
    subst h
    exact ⟨hrl, fun i hi => ⟨hltk _ (getD_mem m.dense i ⟨0, 0⟩ hi), hri i hi⟩⟩

theorem growDense_dense_eq (m : AdaptSMap) (n : Nat) : (growDense m n).dense = m.dense := by
  cases hsp : m.sparse <;> simp [growDense, hsp]

theorem growDense_sparse_isSome (m : AdaptSMap) (n : Nat) :
    (growDense m n).sparse.isSome = true := by
  cases hsp : m.sparse <;> simp [growDense, hsp]

theorem growSparse_dense_eq (m : AdaptSMap) (n : Nat) : (growSparse m n).dense = m.dense := rfl

theorem growSparse_sparse_isSome (m : AdaptSMap) (n : Nat) :
    (growSparse m n).sparse.isSome = true := rfl

theorem addWrite_dense_eq (m : AdaptSMap) (k v : Nat) :
    (addWrite m k v).dense = m.dense ++ [⟨k, v⟩] := rfl

theorem addWrite_sparse_isSome (m : AdaptSMap) (k v : Nat) :
    (addWrite m k v).sparse.isSome = m.sparse.isSome := by
  simp [addWrite]

theorem addSparse_dense_eq (m : AdaptSMap) (k v : Nat) :
    (addSparse m k v).dense = m.dense ++ [⟨k, v⟩] := by
  unfold addSparse
  split
  · rw [addWrite_dense_eq, growSparse_dense_eq]
  · rw [addWrite_dense_eq]

theorem addSparse_sparse_isSome (m : AdaptSMap) (k v : Nat) (h : m.sparse.isSome = true) :
    (addSparse m k v).sparse.isSome = true := by
  unfold addSparse
  split
  · rw [addWrite_sparse_isSome, growSparse_sparse_isSome]
  · rw [addWrite_sparse_isSome, h]

theorem addDispatch_dense_eq (m : AdaptSMap) (k v : Nat) :
    (addDispatch m k v).dense = m.dense ++ [⟨k, v⟩] := by
  unfold addDispatch
  cases hsp : m.sparse with
  | none => rfl
  | some tbl => exact addSparse_dense_eq m k v

theorem addDispatch_sparse_isSome (m : AdaptSMap) (k v : Nat) :
    (addDispatch m k v).sparse.isSome = m.sparse.isSome := by
  unfold addDispatch
  cases hsp : m.sparse with
  | none => rfl
  | some tbl => rw [addSparse_sparse_isSome _ _ _ (by rw [hsp]; rfl)]; rfl

theorem add_dense_eq (m : AdaptSMap) (k v : Nat) :
    (add m k v).dense = m.dense ++ [⟨k, v⟩] := by
  unfold add
  by_cases hg : m.dense_maxsz ≤ m.dense.length
  · rw [if_pos hg, addDispatch_dense_eq, growDense_dense_eq]
  · rw [if_neg hg, addDispatch_dense_eq]

theorem add_size (m : AdaptSMap) (k v : Nat) : (add m k v).size = m.size + 1 := by
  unfold size
  rw [add_dense_eq]
  simp

theorem add_sparse_isSome (m : AdaptSMap) (k v : Nat) :
    (add m k v).sparse.isSome =
      (m.sparse.isSome || decide (m.dense_maxsz ≤ m.dense.length)) := by
  unfold add
  by_cases hg : m.dense_maxsz ≤ m.dense.length
  · rw [if_pos hg, addDispatch_sparse_isSome, growDense_sparse_isSome]
    simp [hg]
  · rw [if_neg hg, addDispatch_sparse_isSome]
    simp [hg]

theorem mapFun_add (m : AdaptSMap) (k v : Nat) (hk : ∀ e ∈ m.dense, e.key ≠ k) (k' : Nat) :
    mapFun (add m k v) k' = if k' = k then some v else mapFun m k' := by
  unfold mapFun
  rw [add_dense_eq]
  by_cases hkk : k' = k
  · subst hkk
    rw [if_pos rfl]
    have hnone : m.dense.find? (fun e => e.key == k') = none :=
      List.find?_eq_none.mpr (fun e he => by simpa using hk e he)
    have hke : ((⟨k', v⟩ : Elt).key == k') = true := by simp
    rw [find?_append_of_none _ hnone, List.find?_cons, hke]
    rfl
  · rw [if_neg hkk]
    have hke : ((⟨k, v⟩ : Elt).key == k') = false := by
      simp only [beq_eq_false_iff_ne, ne_eq]
      exact fun h => hkk h.symm
    cases hf : m.dense.find? (fun e => e.key == k') with
    | none =>
      rw [find?_append_of_none _ hf, List.find?_cons, hke]
      rfl
    | some e => rw [find?_append_of_some _ hf]

theorem addWrite_sinv (m : AdaptSMap) (k v : Nat) (hm : SInv m)
    (hk : ∀ e ∈ m.dense, e.key ≠ k) (hroom : m.dense.length < m.dense_maxsz)
    (hkub : m.sparse.isSome = true → k < m.sparse_ub) : SInv (addWrite m k v) := by
  constructor <;> simp only [addWrite]
  · rw [List.map_append]
    refine List.Nodup.append hm.nodup (by simp) ?_
    intro a ha ha'
    simp only [List.map_cons, List.map_nil, List.mem_singleton] at ha'
    subst ha'
    obtain ⟨e, he, hek⟩ := List.mem_map.mp ha
    exact hk e he hek
  · simp only [List.length_append, List.length_cons, List.length_nil]
    omega
  · exact hm.maxsz8
  · exact hm.ub1
  · intro h
    rw [Option.map_eq_none'] at h
    exact hm.dense_mode h
  · intro tbl' h
    obtain ⟨tbl, hsp, htbl⟩ := Option.map_eq_some'.mp h
    subst htbl
    obtain ⟨hlen, hinv⟩ := hm.sparse_mode tbl hsp
    have hkub' : k < m.sparse_ub := hkub (by rw [hsp]; rfl)
    refine ⟨by simpa using hlen, ?_⟩
    intro i hi
    simp only [List.length_append, List.length_cons, List.length_nil] at hi
    rcases Nat.lt_or_ge i m.dense.length with hlt | hge
    · rw [getD_append_lt _ _ _ _ hlt]
      have hne : (m.dense.getD i ⟨0, 0⟩).key ≠ k := hk _ (getD_mem m.dense i ⟨0, 0⟩ hlt)
      rw [tget_set_ne _ _ _ _ (fun hc => hne hc.symm)]
      exact hinv i hlt
    · have hieq : i = m.dense.length := by omega
      subst hieq
      rw [getD_append_self]
      exact ⟨hkub', tget_set_self _ _ _ (by omega)⟩

theorem addSparse_sinv (m : AdaptSMap) (k v : Nat) (hm : SInv m) (tbl0 : List (Option Nat))
    (hsp : m.sparse = some tbl0) (hk : ∀ e ∈ m.dense, e.key ≠ k)
    (hroom : m.dense.length < m.dense_maxsz) : SInv (addSparse m k v) := by
  unfold addSparse
  by_cases hub : m.sparse_ub ≤ k
  · rw [if_pos hub]
    obtain ⟨hd2, hmax2, hub2, hs2, hm2⟩ := growSparse_spec m (k + 1) tbl0 hm hsp
    refine addWrite_sinv _ _ _ hm2 (by rw [hd2]; exact hk) (by rw [hd2, hmax2]; exact hroom) ?_
    intro _
    omega
  · rw [if_neg hub]
    refine addWrite_sinv _ _ _ hm hk hroom ?_
    intro _
    omega

theorem addDispatch_sinv (m : AdaptSMap) (k v : Nat) (hm : SInv m)
    (hk : ∀ e ∈ m.dense, e.key ≠ k) (hroom : m.dense.length < m.dense_maxsz) :
    SInv (addDispatch m k v) := by
  unfold addDispatch
  cases hsp1 : m.sparse with
  | none =>
    show SInv ⟨m.dense ++ [⟨k, v⟩], m.dense_maxsz, m.sparse_ub, none⟩
    constructor
    · show ((m.dense ++ [(⟨k, v⟩ : Elt)]).map Elt.key).Nodup
      rw [List.map_append]
      refine List.Nodup.append hm.nodup (by simp) ?_
      intro a ha ha'
      simp only [List.map_cons, List.map_nil, List.mem_singleton] at ha'
      subst ha'
      obtain ⟨e, he, hek⟩ := List.mem_map.mp ha
      exact hk e he hek
    · show (m.dense ++ [(⟨k, v⟩ : Elt)]).length ≤ m.dense_maxsz
      simp only [List.length_append, List.length_cons, List.length_nil]
      omega
    · exact hm.maxsz8
    · exact hm.ub1
    · intro _; exact hm.dense_mode hsp1
    · intro tbl' h
      exact Option.noConfusion h
  | some tbl1 => exact addSparse_sinv _ _ _ hm tbl1 hsp1 hk hroom

theorem add_sinv (m : AdaptSMap) (k v : Nat) (hm : SInv m)
    (hk : ∀ e ∈ m.dense, e.key ≠ k) : SInv (add m k v) := by
  unfold add
  by_cases hg : m.dense_maxsz ≤ m.dense.length
  · rw [if_pos hg]
    obtain ⟨hd1, hs1, hmax1, hm1⟩ := growDense_spec m (m.dense.length + 1) hm
    exact addDispatch_sinv _ _ _ hm1 (by rw [hd1]; exact hk) (by rw [hd1]; omega)
  · rw [if_neg hg]
    exact addDispatch_sinv _ _ _ hm hk (by omega)

/-! ### `remove`, `clear`, `init` -/
theorem findIdx_spec (p : Elt → Bool) : ∀ (l : List Elt), (∃ e ∈ l, p e) →
    l.findIdx p < l.length ∧ p (l.getD (l.findIdx p) ⟨0, 0⟩) = true := by
  intro l
  induction l with
  | nil => intro h; simp at h
  | cons x l ih =>
    intro hex
    rw [List.findIdx_cons]
    cases hx : p x with
    | true => simpa using hx
    | false =>
      have hex' : ∃ e ∈ l, p e := by
        obtain ⟨e, he, hpe⟩ := hex
        rcases List.mem_cons.mp he with rfl | he
        · rw [hx] at hpe; cases hpe
        · exact ⟨e, he, hpe⟩
      obtain ⟨h1, h2⟩ := ih hex'
      exact ⟨by simpa using h1, h2⟩

theorem swapRemoveAt_length (l : List Elt) (ik : Nat) :
    (swapRemoveAt l ik).length = l.length - 1 := by
  unfold swapRemoveAt
  rw [List.length_set, List.length_take]
  omega

theorem swapRemoveAt_getD (l : List Elt) (ik j : Nat) (hj : j < l.length - 1) :
    (swapRemoveAt l ik).getD j ⟨0, 0⟩ =
      if j = ik then l.getD (l.length - 1) ⟨0, 0⟩ else l.getD j ⟨0, 0⟩ := by
  unfold swapRemoveAt
  by_cases hij : j = ik
  · subst hij
    rw [if_pos rfl, getD_set_self]
    rw [List.length_take]
    omega
  · rw [if_neg hij, getD_set_ne _ _ _ _ _ (fun h => hij h.symm), getD_take _ _ _ _ hj]

theorem swapRemoveAt_nodup (l : List Elt) (ik : Nat) (hnd : (l.map Elt.key).Nodup)
    (hik : ik < l.length) : ((swapRemoveAt l ik).map Elt.key).Nodup := by
  apply nodup_of_key_ne
  intro i j hi hj hij
  rw [swapRemoveAt_length] at hi hj
  rw [swapRemoveAt_getD l ik i hi, swapRemoveAt_getD l ik j hj]
  by_cases hi' : i = ik <;> by_cases hj' : j = ik
  · omega
  · rw [if_pos hi', if_neg hj']
    exact key_ne_of_nodup l hnd _ _ (by omega) (by omega) (by omega)
  · rw [if_neg hi', if_pos hj']
    exact key_ne_of_nodup l hnd _ _ (by omega) (by omega) (by omega)
  · rw [if_neg hi', if_neg hj']
    exact key_ne_of_nodup l hnd _ _ (by omega) (by omega) (by omega)

theorem swapRemoveAt_mem (l : List Elt) (ik : Nat) (hnd : (l.map Elt.key).Nodup)
    (hik : ik < l.length) (e : Elt) :
    e ∈ swapRemoveAt l ik ↔ (e ∈ l ∧ e.key ≠ (l.getD ik ⟨0, 0⟩).key) := by
  constructor
  · intro he
    obtain ⟨j, hj, hg⟩ := exists_getD_of_mem _ e ⟨0, 0⟩ he
    rw [swapRemoveAt_length] at hj
    rw [swapRemoveAt_getD l ik j hj] at hg
    by_cases hj' : j = ik
    · rw [if_pos hj'] at hg
      refine ⟨hg ▸ getD_mem l (l.length - 1) ⟨0, 0⟩ (by omega), ?_⟩
      rw [← hg]
      exact key_ne_of_nodup l hnd (l.length - 1) ik (by omega) hik (by omega)
    · rw [if_neg hj'] at hg
      refine ⟨hg ▸ getD_mem l j ⟨0, 0⟩ (by omega), ?_⟩
      rw [← hg]
      exact key_ne_of_nodup l hnd j ik (by omega) hik hj'
  · rintro ⟨he, hke⟩
    obtain ⟨j, hj, hg⟩ := exists_getD_of_mem l e ⟨0, 0⟩ he
    have hjik : j ≠ ik := by
      intro h
      subst h
      exact hke (by rw [hg])
    by_cases hlast : j = l.length - 1
    · subst hlast
      have hik' : ik < l.length - 1 := by omega
      have := swapRemoveAt_getD l ik ik hik'
      rw [if_pos rfl, hg] at this
      rw [← this]
      exact getD_mem (swapRemoveAt l ik) ik ⟨0, 0⟩ (by rw [swapRemoveAt_length l ik]; omega)
    · have hj' : j < l.length - 1 := by omega
      have := swapRemoveAt_getD l ik j hj'
      rw [if_neg hjik, hg] at this
      rw [← this]
      exact getD_mem (swapRemoveAt l ik) j ⟨0, 0⟩ (by rw [swapRemoveAt_length l ik]; omega)

/-- Full description of `remove` under its precondition. -/
theorem remove_spec (m : AdaptSMap) (k w : Nat) (hm : SInv m)
    (hk : mapFun m k = some w) :
    SInv (remove m k) ∧
    (remove m k).size = m.size - 1 ∧
    (∀ k', mapFun (remove m k) k' = if k' = k then none else mapFun m k') ∧
    (remove m k).sparse.isSome = m.sparse.isSome ∧
    (remove m k).sparse_ub = m.sparse_ub ∧
    (remove m k).dense_maxsz = m.dense_maxsz := by
  have hmem : (⟨k, w⟩ : Elt) ∈ m.dense := (mapFun_eq_some_iff m k w hm.nodup).mp hk
  obtain ⟨ik, hik, hgik⟩ := exists_getD_of_mem m.dense ⟨k, w⟩ ⟨0, 0⟩ hmem
  have hkey : (m.dense.getD ik ⟨0, 0⟩).key = k := by rw [hgik]
  -- the slot index used by both branches of remove is ik
  have main : ∀ (mr : AdaptSMap), mr.dense = swapRemoveAt m.dense ik →
      ((mr.dense.map Elt.key).Nodup ∧ mr.size = m.size - 1 ∧
        (∀ k', mapFun mr k' = if k' = k then none else mapFun m k')) := by
    intro mr hmr
    have hnd' : ((swapRemoveAt m.dense ik).map Elt.key).Nodup :=
      swapRemoveAt_nodup m.dense ik hm.nodup hik
    refine ⟨by rw [hmr]; exact hnd', by unfold size; rw [hmr, swapRemoveAt_length], ?_⟩
    intro k'
    by_cases hkk : k' = k
    · subst hkk
      rw [if_pos rfl]
      apply (mapFun_eq_none_iff mr k').mpr
      intro e he
      rw [hmr] at he
      have := (swapRemoveAt_mem m.dense ik hm.nodup hik e).mp he
      rw [hkey] at this
      exact this.2
    · rw [if_neg hkk]
      cases hf : mapFun m k' with
      | none =>
        apply (mapFun_eq_none_iff mr k').mpr
        intro e he
        rw [hmr] at he
        have hel := ((swapRemoveAt_mem m.dense ik hm.nodup hik e).mp he).1
        exact (mapFun_eq_none_iff m k').mp hf e hel
      | some w' =>
        have he : (⟨k', w'⟩ : Elt) ∈ m.dense := (mapFun_eq_some_iff m k' w' hm.nodup).mp hf
        apply (mapFun_eq_some_iff mr k' w' (by rw [hmr]; exact hnd')).mpr
        rw [hmr]
        exact (swapRemoveAt_mem m.dense ik hm.nodup hik _).mpr ⟨he, by rw [hkey]; exact hkk⟩
  cases hsp : m.sparse with
  | none =>
    have hidx : m.dense.findIdx (fun e => e.key == k) = ik := by
      obtain ⟨h1, h2⟩ := findIdx_spec (fun e => e.key == k) m.dense ⟨⟨k, w⟩, hmem, by simp⟩
      have hkf : (m.dense.getD (m.dense.findIdx fun e => e.key == k) ⟨0, 0⟩).key = k := by
        simpa using h2
      by_contra hne
      exact key_ne_of_nodup m.dense hm.nodup _ _ h1 hik hne (hkf.trans hkey.symm)
    have hmr : (remove m k).dense = swapRemoveAt m.dense ik := by
      simp only [remove, hsp, hidx]
    obtain ⟨hnd', hsz', hmf'⟩ := main (remove m k) hmr
    have hfields : (remove m k).sparse = none ∧ (remove m k).sparse_ub = m.sparse_ub ∧
        (remove m k).dense_maxsz = m.dense_maxsz :=
      ⟨by simp only [remove, hsp], by simp only [remove, hsp], by simp only [remove, hsp]⟩
    refine ⟨?_, hsz', hmf', by rw [hfields.1], hfields.2.1, hfields.2.2⟩
    constructor
    · exact hnd'
    · rw [hfields.2.2]
      have : (remove m k).dense.length ≤ m.dense.length := by
        rw [hmr, swapRemoveAt_length]; omega
      have := hm.len_le
      omega
    · rw [hfields.2.2]; exact hm.maxsz8
    · rw [hfields.2.1]; exact hm.ub1
    · intro _; rw [hfields.2.2]; exact hm.dense_mode hsp
    · intro tbl' h
      rw [hfields.1] at h
      cases h
  | some tbl =>
    obtain ⟨hlen, hinv⟩ := hm.sparse_mode tbl hsp
    have htg : tget tbl k = some ik := by
      have := (hinv ik hik).2
      rw [hkey] at this
      exact this
    have hidx : (tget tbl k).getD 0 = ik := by rw [htg]; rfl
    have hmr : (remove m k).dense = swapRemoveAt m.dense ik := by
      simp only [remove, hsp, hidx]
    have hspr : (remove m k).sparse =
        some (tbl.set (m.dense.getD (m.dense.length - 1) ⟨0, 0⟩).key (some ik)) := by
      simp only [remove, hsp, hidx]
    have hfields : (remove m k).sparse_ub = m.sparse_ub ∧
        (remove m k).dense_maxsz = m.dense_maxsz :=
      ⟨by simp only [remove, hsp], by simp only [remove, hsp]⟩
    obtain ⟨hnd', hsz', hmf'⟩ := main (remove m k) hmr
    refine ⟨?_, hsz', hmf', by rw [hspr]; rfl, hfields.1, hfields.2⟩
    constructor
    · exact hnd'
    · rw [hfields.2]
      have h1 : (remove m k).dense.length ≤ m.dense.length := by
        rw [hmr, swapRemoveAt_length]; omega
      have := hm.len_le
      omega
    · rw [hfields.2]; exact hm.maxsz8
    · rw [hfields.1]; exact hm.ub1
    · intro h; rw [hspr] at h; cases h
    · intro tbl' h
      rw [hspr] at h
      injection h with h
      subst h
      rw [hfields.1]
      have hreplkey : (m.dense.getD (m.dense.length - 1) ⟨0, 0⟩).key < m.sparse_ub :=
        (hinv (m.dense.length - 1) (by omega)).1
      refine ⟨by rw [List.length_set]; exact hlen, ?_⟩
      intro j hj
      rw [hmr, swapRemoveAt_length] at hj
      rw [hmr, swapRemoveAt_getD m.dense ik j hj]
      by_cases hij : j = ik
      · rw [if_pos hij]
        subst hij
        refine ⟨hreplkey, ?_⟩
        rw [tget_set_self _ _ _ (by omega)]
      · rw [if_neg hij]
        have hkeyne : (m.dense.getD (m.dense.length - 1) ⟨0, 0⟩).key ≠
            (m.dense.getD j ⟨0, 0⟩).key :=
          key_ne_of_nodup m.dense hm.nodup _ _ (by omega) (by omega) (by omega)
        refine ⟨(hinv j (by omega)).1, ?_⟩
        rw [tget_set_ne _ _ _ _ hkeyne]
        exact (hinv j (by omega)).2

theorem clear_sinv (m : AdaptSMap) (hm : SInv m) : SInv (clear m) := by
  constructor <;> simp only [clear]
  · simp
  · simp
  · exact hm.maxsz8
  · exact hm.ub1
  · exact hm.dense_mode
  · intro tbl h
    obtain ⟨hlen, _⟩ := hm.sparse_mode tbl h
    exact ⟨hlen, fun i hi => by simp at hi⟩

theorem clear_mapFun (m : AdaptSMap) (k : Nat) : mapFun (clear m) k = none := rfl

theorem init_sinv : SInv init := by
  constructor <;> simp [init]

theorem remove_sparse_isSome (m : AdaptSMap) (k : Nat) :
    (remove m k).sparse.isSome = m.sparse.isSome := by
  cases hsp : m.sparse <;> simp [remove, hsp]

theorem clear_sparse_eq (m : AdaptSMap) : (clear m).sparse = m.sparse := rfl

theorem modelFun_eq_none_iff (model : List (Nat × Nat)) (k : Nat) :
    modelFun model k = none ↔ ∀ p ∈ model, p.1 ≠ k := by
  unfold modelFun
  rw [Option.map_eq_none', List.find?_eq_none]
  simp

theorem modelFun_snoc (model : List (Nat × Nat)) (k v : Nat)
    (hk : modelFun model k = none) (k' : Nat) :
    modelFun (model ++ [(k, v)]) k' = if k' = k then some v else modelFun model k' := by
  unfold modelFun
  by_cases hkk : k' = k
  · subst hkk
    rw [if_pos rfl]
    have hnone : model.find? (fun p => p.1 == k') = none := by
      rw [List.find?_eq_none]
      intro p hp
      simpa using (modelFun_eq_none_iff model k').mp hk p hp
    rw [find?_append_of_none _ hnone, List.find?_cons, (by simp : (((k', v) : Nat × Nat).1 == k') = true)]
    rfl
  · rw [if_neg hkk]
    have hke : (((k, v) : Nat × Nat).1 == k') = false := by
      simp only [beq_eq_false_iff_ne, ne_eq]
      exact fun h => hkk h.symm
    cases hf : model.find? (fun p => p.1 == k') with
    | none =>
      rw [find?_append_of_none _ hf, List.find?_cons, hke]
      rfl
    | some e => rw [find?_append_of_some _ hf]

theorem modelFun_filter (model : List (Nat × Nat)) (k k' : Nat) :
    modelFun (model.filter (fun p => ¬p.1 = k)) k' =
      if k' = k then none else modelFun model k' := by
  induction model with
  | nil => by_cases hkk : k' = k <;> simp [modelFun, hkk]
  | cons p model ih =>
    rw [List.filter_cons]
    by_cases hpk : p.1 = k
    · rw [if_neg (by simpa using hpk)]
      rw [ih]
      by_cases hkk : k' = k
      · rw [if_pos hkk, if_pos hkk]
      · rw [if_neg hkk, if_neg hkk]
        unfold modelFun
        have hb : (p.1 == k') = false := by
          simp only [beq_eq_false_iff_ne, ne_eq]
          exact fun h => hkk (h.symm.trans hpk)
        rw [List.find?_cons, hb]
    · rw [if_pos (by simpa using hpk)]
      by_cases hpk' : p.1 = k'
      · unfold modelFun
        rw [List.find?_cons, List.find?_cons,
            (by simpa using hpk' : (p.1 == k') = true)]
        rw [if_neg (by intro h; exact hpk (hpk'.trans h))]
      · unfold modelFun
        rw [List.find?_cons, List.find?_cons,
            (by simpa using hpk' : (p.1 == k') = false)]
        exact ih

theorem modelFun_some_nonempty (model : List (Nat × Nat)) (k w : Nat)
    (h : modelFun model k = some w) : 1 ≤ model.length := by
  cases model with
  | nil => simp [modelFun] at h
  | cons p model => simp

theorem length_filter_remove (model : List (Nat × Nat)) (k w : Nat)
    (hnd : (model.map Prod.fst).Nodup) (hm : modelFun model k = some w) :
    (model.filter (fun p => ¬p.1 = k)).length = model.length - 1 := by
  induction model with
  | nil => simp [modelFun] at hm
  | cons p model ih =>
    simp only [List.map_cons, List.nodup_cons] at hnd
    rw [List.filter_cons]
    by_cases hpk : p.1 = k
    · rw [if_neg (by simpa using hpk)]
      have : model.filter (fun p => ¬p.1 = k) = model := by
        apply List.filter_eq_self.mpr
        intro q hq
        simp only [decide_eq_true_eq]
        intro hqk
        exact hnd.1 (by rw [← hpk] at hqk; exact hqk ▸ List.mem_map_of_mem Prod.fst hq)
      rw [this]
      simp
    · rw [if_pos (by simpa using hpk)]
      have hm' : modelFun model k = some w := by
        unfold modelFun at hm
        rw [List.find?_cons, (by simpa using hpk : (p.1 == k) = false)] at hm
        exact hm
      rw [List.length_cons, ih hnd.2 hm', List.length_cons]
      have := modelFun_some_nonempty model k w hm'
      omega

/-- The central refinement invariant: every reachable map satisfies the
representation invariant, realizes its abstract content, and has size
equal to the number of live bindings. -/
theorem smreach_inv (m : AdaptSMap) (model : List (Nat × Nat)) (h : SMReach m model) :
    SInv m ∧ (∀ k, mapFun m k = modelFun model k) ∧ m.size = model.length ∧
    (model.map Prod.fst).Nodup := by
  induction h with
  | init => exact ⟨init_sinv, fun k => rfl, rfl, by simp⟩
  | add m model k v hr hk hnone ih =>
    obtain ⟨hsi, hmf, hsz, hnd⟩ := ih
    have hfresh : ∀ e ∈ m.dense, e.key ≠ k := by
      intro e he
      have := (mapFun_eq_none_iff m k).mp (by rw [hmf]; exact hnone)
      exact this e he
    refine ⟨add_sinv m k v hsi hfresh, ?_, ?_, ?_⟩
    · intro k'
      rw [mapFun_add m k v hfresh k', modelFun_snoc model k v hnone k']
      by_cases hkk : k' = k
      · rw [if_pos hkk, if_pos hkk]
      · rw [if_neg hkk, if_neg hkk, hmf]
    · rw [add_size, hsz]
      simp
    · rw [List.map_append]
      refine List.Nodup.append hnd (by simp) ?_
      intro a ha ha'
      simp only [List.map_cons, List.map_nil, List.mem_singleton] at ha'
      obtain ⟨p, hp, hpk⟩ := List.mem_map.mp ha
      exact (modelFun_eq_none_iff model k).mp hnone p hp (hpk.trans ha')
  | remove m model k w hr hsome ih =>
    obtain ⟨hsi, hmf, hsz, hnd⟩ := ih
    have hm : mapFun m k = some w := by rw [hmf]; exact hsome
    obtain ⟨hsi', hsz', hmf', _, _, _⟩ := remove_spec m k w hsi hm
    refine ⟨hsi', ?_, ?_, ?_⟩
    · intro k'
      rw [hmf' k', modelFun_filter model k k']
      by_cases hkk : k' = k
      · rw [if_pos hkk, if_pos hkk]
      · rw [if_neg hkk, if_neg hkk, hmf]
    · rw [hsz', hsz, length_filter_remove model k w hnd hsome]
    · exact List.Nodup.sublist (List.Sublist.map Prod.fst (List.filter_sublist model)) hnd
  | clear m model hr ih =>
    obtain ⟨hsi, _, _, _⟩ := ih
    exact ⟨clear_sinv m hsi, fun k => rfl, rfl, by simp⟩
end AdaptSMap

open AdaptSMap

theorem c4_reach : SMReach c4m c4model := by
  have h0 : SMReach AdaptSMap.init [] := SMReach.init
  have h1 := SMReach.add _ _ 1 5 h0 (by decide) (by decide)
  have h2 := SMReach.add _ _ 2 6 h1 (by decide) (by decide)
  have h3 := SMReach.remove _ _ 1 5 h2 (by decide)
  exact h3

theorem m9_reach : SMReach m9 model9 := by
  have h0 : SMReach AdaptSMap.init [] := SMReach.init
  have h1 := SMReach.add _ _ 0 100 h0 (by decide) (by decide)
  have h2 := SMReach.add _ _ 1 101 h1 (by decide) (by decide)
  have h3 := SMReach.add _ _ 2 102 h2 (by decide) (by decide)
  have h4 := SMReach.add _ _ 3 103 h3 (by decide) (by decide)
  have h5 := SMReach.add _ _ 4 104 h4 (by decide) (by decide)
  have h6 := SMReach.add _ _ 5 105 h5 (by decide) (by decide)
  have h7 := SMReach.add _ _ 6 106 h6 (by decide) (by decide)
  have h8 := SMReach.add _ _ 7 107 h7 (by decide) (by decide)
  have h9 := SMReach.add _ _ 8 108 h8 (by decide) (by decide)
  exact h9

/-- C4: for every AdaptSMap built by a sequence of `add` (key absent) and
`remove` (key present) calls — `clear` also allowed — and every key `k`,
`lookup` returns some value iff `k` is live (added and not since removed),
and then the value of the most recent `add` of `k`; and `size` equals the
number of live keys.  `modelFun model` is exactly that abstract history:
the bindings added and not yet removed, each carrying the value of its
(unique, by the precondition) live `add`. -/
theorem claim_C4 (m : AdaptSMap) (model : List (Nat × Nat)) (h : SMReach m model) :
    (∀ k, lookupFun m k = modelFun model k) ∧ m.size = model.length := by
  obtain ⟨hsi, hmf, hsz, _⟩ := smreach_inv m model h
  exact ⟨fun k => by rw [lookupFun, lookupWith_eq_mapFun m k 0 hsi, hmf], hsz⟩

theorem claim_C4_witness :
    (∀ k, lookupFun c4m k = modelFun c4model k) ∧ c4m.size = c4model.length :=
  claim_C4 c4m c4model c4_reach

/-- C5: the map switches from dense to sparse mode exactly on the first
growth past the threshold of 8 (an `add` at size 8), never returns to
dense mode under `add`, `remove`, or `clear`, and in sparse mode the table
satisfies `sparse[dense[i].key] = i` for every live index `i`. -/
theorem claim_C5 (m : AdaptSMap) (model : List (Nat × Nat)) (h : SMReach m model) :
    (m.sparse = none → m.size ≤ 8) ∧
    (∀ k v, ((AdaptSMap.add m k v).sparse.isSome = true ↔
      (m.sparse.isSome = true ∨ m.size = 8))) ∧
    (∀ k, (AdaptSMap.remove m k).sparse.isSome = m.sparse.isSome) ∧
    ((AdaptSMap.clear m).sparse = m.sparse) ∧
    (∀ tbl, m.sparse = some tbl → ∀ i, i < m.size →
      tget tbl (m.dense.getD i ⟨0, 0⟩).key = some i) := by
  obtain ⟨hsi, _, _, _⟩ := smreach_inv m model h
  refine ⟨?_, ?_, fun k => remove_sparse_isSome m k, clear_sparse_eq m, ?_⟩
  · intro hsp
    have h8 := hsi.dense_mode hsp
    have hle := hsi.len_le
    unfold size
    omega
  · intro k v
    rw [add_sparse_isSome]
    simp only [Bool.or_eq_true, decide_eq_true_eq]
    cases hsp : m.sparse with
    | none =>
      have h8 : m.dense_maxsz = 8 := hsi.dense_mode hsp
      have hle := hsi.len_le
      simp only [Option.isSome_none]
      unfold size
      constructor
      · rintro (hf | hd)
        · cases hf
        · exact Or.inr (by omega)
      · rintro (hf | hs)
        · cases hf
        · exact Or.inr (by omega)
    | some tbl => simp
  · exact fun tbl hsp i hi => ((hsi.sparse_mode tbl hsp).2 i hi).2

theorem claim_C5_witness :
    (m9.sparse = none → m9.size ≤ 8) ∧
    (∀ k v, ((AdaptSMap.add m9 k v).sparse.isSome = true ↔
      (m9.sparse.isSome = true ∨ m9.size = 8))) ∧
    (∀ k, (AdaptSMap.remove m9 k).sparse.isSome = m9.sparse.isSome) ∧
    ((AdaptSMap.clear m9).sparse = m9.sparse) ∧
    (∀ tbl, m9.sparse = some tbl → ∀ i, i < m9.size →
      tget tbl (m9.dense.getD i ⟨0, 0⟩).key = some i) :=
  claim_C5 m9 model9 m9_reach

/-- C6 (counterexample to the claim as stated): `m9` is reachable and in
sparse mode, yet `elem`/`lookup` at key 100 read past the sparse table's
allocation (`sparse_ub = 16`), and at key 12 read an allocated but
uninitialized cell — the sparse-table read is not well-defined for every
key, contrary to the claim. -/
theorem claim_C6_counterexample :
    SMReach m9 model9 ∧ m9.sparse.isSome = true ∧
    (100 < 65536 ∧ readSafe m9 100 = false) ∧
    (12 < 65536 ∧ readSafe m9 12 = false) :=
  ⟨m9_reach, by decide, ⟨by decide, by decide⟩, ⟨by decide, by decide⟩⟩

/-- C6 (amended): in sparse mode `elem`/`lookup` may read the sparse table
out of bounds or at an uninitialized cell; whatever value `junk` such a
read yields, they still correctly report membership and value: absence is
recognized exactly when the (possibly arbitrary) index does not point to a
live dense entry with key `k`. -/
theorem claim_C6_amended (m : AdaptSMap) (model : List (Nat × Nat)) (h : SMReach m model)
    (k junk : Nat) :
    elemWith m k junk = (modelFun model k).isSome ∧
    lookupWith m k junk = modelFun model k := by
  obtain ⟨hsi, hmf, _, _⟩ := smreach_inv m model h
  exact ⟨by rw [elemWith_eq_mem m k junk hsi, hmf],
         by rw [lookupWith_eq_mapFun m k junk hsi, hmf]⟩

theorem claim_C6_witness :
    elemWith m9 100 7 = (modelFun model9 100).isSome ∧
    lookupWith m9 100 7 = modelFun model9 100 :=
  claim_C6_amended m9 model9 m9_reach 100 7

namespace AdaptGraph

theorem mem_of_getLast? {α : Type} : ∀ {l : List α} {x : α}, l.getLast? = some x → x ∈ l := by
  intro l
  induction l with
  | nil => intro x h; cases h
  | cons a l ih =>
    intro x h
    cases l with
    | nil =>
      simp only [List.getLast?_singleton, Option.some.injEq] at h
      simp [h]
    | cons b l =>
      rw [List.getLast?_cons_cons] at h
      exact List.mem_cons_of_mem a (ih h)

theorem dropLast_subset {α : Type} (l : List α) : ∀ x ∈ l.dropLast, x ∈ l := by
  intro x hx
  exact List.mem_of_mem_dropLast hx

theorem dropLast_append_last {α : Type} : ∀ (l : List α) (x : α),
    l.getLast? = some x → l.dropLast ++ [x] = l := by
  intro l
  induction l with
  | nil => intro x h; cases h
  | cons a l ih =>
    intro x h
    cases l with
    | nil =>
      simp only [List.getLast?_singleton, Option.some.injEq] at h
      simp [h]
    | cons b l =>
      rw [List.getLast?_cons_cons] at h
      rw [List.dropLast_cons₂, List.cons_append, ih x h]

theorem getLast_not_mem_dropLast {α : Type} (l : List α) (x : α) (hnd : l.Nodup)
    (h : l.getLast? = some x) : x ∉ l.dropLast := by
  intro hx
  have hdecomp : l.dropLast ++ [x] = l := dropLast_append_last l x h
  rw [← hdecomp] at hnd
  obtain ⟨-, -, hdisj⟩ := List.nodup_append.mp hnd
  exact hdisj hx (by simp)

theorem getLast?_none_eq_nil {α : Type} : ∀ (l : List α), l.getLast? = none → l = [] := by
  intro l
  induction l with
  | nil => intro _; rfl
  | cons a l ih =>
    intro h
    cases hl : l with
    | nil =>
      subst hl
      simp at h
    | cons b t =>
      subst hl
      rw [List.getLast?_cons_cons] at h
      cases ih h

/-- Reading a per-vertex list after a single in-bounds `set`. -/
theorem getD_set_smap (l : List AdaptSMap) (m : AdaptSMap) (s x : Nat)
    (hs : s < l.length) :
    (l.set s m).getD x AdaptSMap.init =
      if x = s then m else l.getD x AdaptSMap.init := by
  by_cases hxs : x = s
  · subst hxs
    rw [if_pos rfl, getD_set_self l x AdaptSMap.init m hs]
  · rw [if_neg hxs, getD_set_ne l s x AdaptSMap.init m (fun h => hxs h.symm)]

/-! ### Shape of `add_edge` -/
theorem addEdgeIdx_getS (g : AdaptGraph) (s idx d x : Nat) (hs : s < g._succs.length) :
    getS (addEdgeIdx g s idx d) x = if x = s then (getS g s).add d idx else getS g x := by
  unfold addEdgeIdx getS
  exact getD_set_smap g._succs _ s x hs

theorem addEdgeIdx_getP (g : AdaptGraph) (s idx d x : Nat) (hd : d < g._preds.length) :
    getP (addEdgeIdx g s idx d) x = if x = d then (getP g d).add s idx else getP g x := by
  unfold addEdgeIdx getP
  exact getD_set_smap g._preds _ d x hd

/-- Everything `add_edge` does, as one bundle (requires well-formedness
for the bound on a recycled weight index). -/
theorem add_edge_spec (g : AdaptGraph) (s : Nat) (w : Int) (d : Nat) (hw : GWf g)
    (hs : s < gsize g) (hd : d < gsize g) :
    ∃ idx, idx < (add_edge g s w d)._ws.length ∧
      g._ws.length ≤ (add_edge g s w d)._ws.length ∧
      (∀ j, j < g._ws.length → j ≠ idx →
        (add_edge g s w d)._ws.getD j 0 = g._ws.getD j 0) ∧
      (add_edge g s w d)._ws.getD idx 0 = w ∧
      (∀ x, getS (add_edge g s w d) x = if x = s then (getS g s).add d idx else getS g x) ∧
      (∀ x, getP (add_edge g s w d) x = if x = d then (getP g d).add s idx else getP g x) ∧
      (add_edge g s w d).is_free = g.is_free ∧
      (add_edge g s w d).free_id = g.free_id ∧
      (∀ i ∈ (add_edge g s w d).free_widx, i ∈ g.free_widx) ∧
      (add_edge g s w d).edge_count = g.edge_count + 1 ∧
      gsize (add_edge g s w d) = gsize g ∧
      (add_edge g s w d)._preds.length = g._preds.length := by
  unfold add_edge
  cases hlast : g.free_widx.getLast? with
  | some idx =>
    have hidx : idx < g._ws.length := hw.widx_lt idx (mem_of_getLast? hlast)
    refine ⟨idx, ?_, ?_, ?_, ?_, ?_, ?_, rfl, rfl, ?_, rfl, by simp [addEdgeIdx, gsize], by simp [addEdgeIdx]⟩
    · show idx < (g._ws.set idx w).length
      rw [List.length_set]; exact hidx
    · show g._ws.length ≤ (g._ws.set idx w).length
      rw [List.length_set]
    · intro j hj hij
      show (g._ws.set idx w).getD j 0 = g._ws.getD j 0
      exact getD_set_ne g._ws idx j 0 w (fun h => hij h.symm)
    · show (g._ws.set idx w).getD idx 0 = w
      exact getD_set_self g._ws idx 0 w hidx
    · intro x
      exact addEdgeIdx_getS _ s idx d x hs
    · intro x
      exact addEdgeIdx_getP _ s idx d x (by rw [hw.len_p]; exact hd)
    · intro i hi
      exact dropLast_subset g.free_widx i hi
  | none =>
    refine ⟨g._ws.length, ?_, ?_, ?_, ?_, ?_, ?_, rfl, rfl, ?_, rfl, by simp [addEdgeIdx, gsize], by simp [addEdgeIdx]⟩
    · show g._ws.length < (g._ws ++ [w]).length
      simp
    · show g._ws.length ≤ (g._ws ++ [w]).length
      simp
    · intro j hj hij
      show (g._ws ++ [w]).getD j 0 = g._ws.getD j 0
      exact getD_append_lt g._ws [w] j 0 hj
    · show (g._ws ++ [w]).getD g._ws.length 0 = w
      exact getD_append_self g._ws w 0
    · intro x
      exact addEdgeIdx_getS _ s _ d x hs
    · intro x
      exact addEdgeIdx_getP _ s _ d x (by rw [hw.len_p]; exact hd)
    · intro i hi
      exact hi

/-! ### Shape of the two `forget` loops -/
theorem succFold_fields (v : Nat) : ∀ (es : List Elt) (g : AdaptGraph),
    (succFold v es g)._succs = g._succs ∧ (succFold v es g)._ws = g._ws ∧
    (succFold v es g).edge_count = g.edge_count ∧
    (succFold v es g).is_free = g.is_free ∧
    (succFold v es g).free_id = g.free_id ∧
    (succFold v es g).free_widx = g.free_widx ++ es.map Elt.val ∧
    (succFold v es g)._preds.length = g._preds.length := by
  intro es
  induction es with
  | nil => intro g; exact ⟨rfl, rfl, rfl, rfl, rfl, by simp [succFold], rfl⟩
  | cons e es ih =>
    intro g
    rw [succFold]
    obtain ⟨h1, h2, h3, h4, h5, h6, h7⟩ := ih
      { g with free_widx := g.free_widx ++ [e.val],
               _preds := g._preds.set e.key ((getP g e.key).remove v) }
    refine ⟨h1, h2, h3, h4, h5, ?_, by rw [h7]; simp⟩
    rw [h6]
    simp

theorem succFold_getP (v : Nat) : ∀ (es : List Elt) (g : AdaptGraph) (x : Nat),
    (es.map Elt.key).Nodup → (∀ e ∈ es, e.key < g._preds.length) →
    getP (succFold v es g) x =
      if x ∈ es.map Elt.key then (getP g x).remove v else getP g x := by
  intro es
  induction es with
  | nil => intro g x _ _; simp [succFold]
  | cons e es ih =>
    intro g x hnd hbd
    simp only [List.map_cons, List.nodup_cons] at hnd
    rw [succFold, ih _ x hnd.2 (fun e' he' => by
      show e'.key < (g._preds.set e.key _).length
      rw [List.length_set]
      exact hbd e' (List.mem_cons_of_mem e he'))]
    by_cases hx : x = e.key
    · rw [if_neg (fun h => hnd.1 (hx ▸ h)), if_pos (by simp [hx])]
      have hset : (g._preds.set e.key ((getP g e.key).remove v)).getD x AdaptSMap.init
          = (getP g x).remove v := by
        rw [hx]
        exact getD_set_self g._preds e.key AdaptSMap.init _ (hbd e (by simp))
      exact hset
    · have hgp : (g._preds.set e.key ((getP g e.key).remove v)).getD x AdaptSMap.init
          = g._preds.getD x AdaptSMap.init :=
        getD_set_ne g._preds e.key x AdaptSMap.init _ (fun h => hx h.symm)
      by_cases hxs : x ∈ es.map Elt.key
      · rw [if_pos hxs, if_pos (by simp [hxs])]
        show ((g._preds.set e.key ((getP g e.key).remove v)).getD x AdaptSMap.init).remove v
            = (getP g x).remove v
        rw [hgp]
        rfl
      · rw [if_neg hxs,
            if_neg (by simp only [List.map_cons, List.mem_cons, not_or]; exact ⟨hx, hxs⟩)]
        exact hgp

theorem predFold_fields (v : Nat) : ∀ (es : List Elt) (g : AdaptGraph),
    (predFold v es g)._preds = g._preds ∧ (predFold v es g)._ws = g._ws ∧
    (predFold v es g).edge_count = g.edge_count ∧
    (predFold v es g).is_free = g.is_free ∧
    (predFold v es g).free_id = g.free_id ∧
    (predFold v es g).free_widx = g.free_widx ∧
    (predFold v es g)._succs.length = g._succs.length := by
  intro es
  induction es with
  | nil => intro g; exact ⟨rfl, rfl, rfl, rfl, rfl, rfl, rfl⟩
  | cons e es ih =>
    intro g
    rw [predFold]
    obtain ⟨h1, h2, h3, h4, h5, h6, h7⟩ := ih
      { g with _succs := g._succs.set e.key ((getS g e.key).remove v) }
    exact ⟨h1, h2, h3, h4, h5, h6, by rw [h7]; simp⟩

theorem predFold_getS (v : Nat) : ∀ (es : List Elt) (g : AdaptGraph) (x : Nat),
    (es.map Elt.key).Nodup → (∀ e ∈ es, e.key < g._succs.length) →
    getS (predFold v es g) x =
      if x ∈ es.map Elt.key then (getS g x).remove v else getS g x := by
  intro es
  induction es with
  | nil => intro g x _ _; simp [predFold]
  | cons e es ih =>
    intro g x hnd hbd
    simp only [List.map_cons, List.nodup_cons] at hnd
    rw [predFold, ih _ x hnd.2 (fun e' he' => by
      show e'.key < (g._succs.set e.key _).length
      rw [List.length_set]
      exact hbd e' (List.mem_cons_of_mem e he'))]
    by_cases hx : x = e.key
    · rw [if_neg (fun h => hnd.1 (hx ▸ h)), if_pos (by simp [hx])]
      have hset : (g._succs.set e.key ((getS g e.key).remove v)).getD x AdaptSMap.init
          = (getS g x).remove v := by
        rw [hx]
        exact getD_set_self g._succs e.key AdaptSMap.init _ (hbd e (by simp))
      exact hset
    · have hgp : (g._succs.set e.key ((getS g e.key).remove v)).getD x AdaptSMap.init
          = g._succs.getD x AdaptSMap.init :=
        getD_set_ne g._succs e.key x AdaptSMap.init _ (fun h => hx h.symm)
      by_cases hxs : x ∈ es.map Elt.key
      · rw [if_pos hxs, if_pos (by simp [hxs])]
        show ((g._succs.set e.key ((getS g e.key).remove v)).getD x AdaptSMap.init).remove v
            = (getS g x).remove v
        rw [hgp]
        rfl
      · rw [if_neg hxs,
            if_neg (by simp only [List.map_cons, List.mem_cons, not_or]; exact ⟨hx, hxs⟩)]
        exact hgp

theorem mem_keys_iff (m : AdaptSMap) (x : Nat) :
    x ∈ m.dense.map Elt.key ↔ (mapFun m x).isSome = true := by
  rw [mapFun_isSome_iff]
  constructor
  · intro h
    obtain ⟨e, he, hek⟩ := List.mem_map.mp h
    exact ⟨e, he, hek⟩
  · rintro ⟨e, he, hek⟩
    exact List.mem_map.mpr ⟨e, he, hek⟩

/-- Full description of `forget` on a non-free vertex of a well-formed
graph, together with preservation of well-formedness.  Only the weight
slots of *outgoing* edges are pushed onto `free_widx` (the predecessor
loop of the source frees nothing); both adjacency maps of `v` are
cleared, `v` is marked free and pushed, every neighbor's map loses its
`v` entry, and the edge count drops by the number of incident edges
(a self-loop counted once). -/
theorem forget_spec (g : AdaptGraph) (v : Nat) (hw : GWf g) (hv : v < gsize g)
    (hnf : g.is_free.getD v false = false) :
    (forget g v)._ws = g._ws ∧
    (forget g v).free_widx = g.free_widx ++ (getS g v).dense.map Elt.val ∧
    (getS (forget g v) v).size = 0 ∧
    (getP (forget g v) v).size = 0 ∧
    (forget g v).is_free = g.is_free.set v true ∧
    (forget g v).free_id = g.free_id ++ [v] ∧
    (∀ d, d ≠ v → ∀ x,
      mapFun (getP (forget g v) d) x = if x = v then none else mapFun (getP g d) x) ∧
    (∀ s, s < gsize g → s ≠ v → ∀ x,
      mapFun (getS (forget g v) s) x = if x = v then none else mapFun (getS g s) x) ∧
    (forget g v).edge_count = g.edge_count - numIncident g v ∧
    gsize (forget g v) = gsize g ∧
    GWf (forget g v) := by
  have hsv : AdaptSMap.SInv (getS g v) := hw.sinv_s v hv
  have hpv : AdaptSMap.SInv (getP g v) := hw.sinv_p v hv
  -- membership of an element of succs[v] gives a symmetric pred entry
  have hsucc_elt : ∀ e ∈ (getS g v).dense,
      e.key < gsize g ∧ e.val < g._ws.length ∧ mapFun (getP g e.key) v = some e.val := by
    intro e he
    have := mapFun_of_mem (getS g v) e hsv.nodup he
    exact hw.succ_edges v hv e.key e.val this
  have hbound1 : ∀ e ∈ (getS g v).dense, e.key < g._preds.length := by
    intro e he
    rw [hw.len_p]
    exact (hsucc_elt e he).1
  -- phase 1
  obtain ⟨e1succ, e1ws, e1ec, e1if, e1fid, e1fw, e1plen⟩ :=
    succFold_fields v (getS g v).dense g
  have hgp1 : ∀ x, getP (succFold v (getS g v).dense g) x =
      if x ∈ (getS g v).dense.map Elt.key then (getP g x).remove v else getP g x :=
    fun x => succFold_getP v _ g x hsv.nodup hbound1
  -- reduce `forget` to its tail
  rw [forget, if_neg (by rw [hnf]; exact Bool.false_ne_true)]
  rw [forgetB, forgetC]
  -- name the intermediate states
  generalize hG1 : succFold v (getS g v).dense g = G1 at *
  generalize hG2 : ({ G1 with
      edge_count := G1.edge_count - ((getS g v).size : Int),
      _succs := G1._succs.set v (AdaptSMap.clear (getS g v)) } : AdaptGraph) = G2 at *
  have hG2p : G2._preds = G1._preds := by rw [← hG2]
  have hG2ws : G2._ws = G1._ws := by rw [← hG2]
  have hG2if : G2.is_free = G1.is_free := by rw [← hG2]
  have hG2fid : G2.free_id = G1.free_id := by rw [← hG2]
  have hG2fw : G2.free_widx = G1.free_widx := by rw [← hG2]
  have hG2ec : G2.edge_count = G1.edge_count - ((getS g v).size : Int) := by rw [← hG2]
  have hG2succ : G2._succs = G1._succs.set v (AdaptSMap.clear (getS g v)) := by rw [← hG2]
  have hG2slen : G2._succs.length = g._succs.length := by
    rw [hG2succ, List.length_set, e1succ]
  have hgetP2 : ∀ x, getP G2 x = getP G1 x := by
    intro x
    unfold getP
    rw [hG2p]
  have hgetS2 : ∀ x, getS G2 x = if x = v then AdaptSMap.clear (getS g v) else getS g x := by
    intro x
    unfold getS
    rw [hG2succ, e1succ]
    exact getD_set_smap g._succs _ v x hv
  -- the pred map of v after phase 1
  have hpv1 : getP G2 v = predsAfter g v := by
    rw [hgetP2 v, hgp1 v]
    unfold predsAfter
    by_cases hvm : v ∈ (getS g v).dense.map Elt.key
    · rw [if_pos hvm,
          if_pos (by rw [AdaptSMap.elemFun, AdaptSMap.elemWith_eq_mem _ _ 0 hsv]; exact (mem_keys_iff _ v).mp hvm)]
    · rw [if_neg hvm,
          if_neg (by rw [AdaptSMap.elemFun, AdaptSMap.elemWith_eq_mem _ _ 0 hsv]; exact fun hc => hvm ((mem_keys_iff _ v).mpr hc))]
  -- characterize predsAfter
  have hpv1_char : AdaptSMap.SInv (predsAfter g v) ∧
      (∀ x, mapFun (predsAfter g v) x = if x = v then none else mapFun (getP g v) x) := by
    unfold predsAfter
    by_cases hvm : (getS g v).elemFun v = true
    · rw [if_pos hvm]
      have hvsome : (mapFun (getS g v) v).isSome = true := by
        rw [AdaptSMap.elemFun, AdaptSMap.elemWith_eq_mem _ _ 0 hsv] at hvm
        exact hvm
      obtain ⟨i0, hi0⟩ := Option.isSome_iff_exists.mp hvsome
      have hpvv : mapFun (getP g v) v = some i0 := (hw.succ_edges v hv v i0 hi0).2.2
      obtain ⟨hsi', _, hchar, _, _, _⟩ := AdaptSMap.remove_spec (getP g v) v i0 hpv hpvv
      exact ⟨hsi', hchar⟩
    · rw [if_neg hvm]
      refine ⟨hpv, ?_⟩
      intro x
      by_cases hx : x = v
      · subst hx
        rw [if_pos rfl]
        cases hc : mapFun (getP g x) x with
        | none => rfl
        | some i0 =>
          have := (hw.pred_edges x hv x i0 hc).2.2
          have hs : (mapFun (getS g x) x).isSome = true := by rw [this]; rfl
          rw [AdaptSMap.elemFun, AdaptSMap.elemWith_eq_mem _ _ 0 hsv, hs] at hvm
          exact absurd rfl hvm
      · rw [if_neg hx]
  have hpv1_sinv : AdaptSMap.SInv (getP G2 v) := by rw [hpv1]; exact hpv1_char.1
  have hpv1_mapFun : ∀ x, mapFun (getP G2 v) x =
      if x = v then none else mapFun (getP g v) x := by
    rw [hpv1]; exact hpv1_char.2
  -- bounds for phase 2
  have hbound2 : ∀ e ∈ (getP G2 v).dense, e.key < G2._succs.length := by
    intro e he
    have hsome := mapFun_of_mem (getP G2 v) e hpv1_sinv.nodup he
    rw [hpv1_mapFun e.key] at hsome
    by_cases hek : e.key = v
    · rw [if_pos hek] at hsome; cases hsome
    · rw [if_neg hek] at hsome
      rw [hG2slen]
      exact (hw.pred_edges v hv e.key e.val hsome).1
  have hnotv2 : v ∉ (getP G2 v).dense.map Elt.key := by
    intro hc
    have := (mem_keys_iff _ v).mp hc
    rw [hpv1_mapFun v, if_pos rfl] at this
    cases this
  -- phase 2
  obtain ⟨e3pred, e3ws, e3ec, e3if, e3fid, e3fw, e3slen⟩ :=
    predFold_fields v (getP G2 v).dense G2
  have hgs3 : ∀ x, getS (predFold v (getP G2 v).dense G2) x =
      if x ∈ (getP G2 v).dense.map Elt.key then (getS G2 x).remove v else getS G2 x :=
    fun x => predFold_getS v _ G2 x hpv1_sinv.nodup hbound2
  generalize hG3 : predFold v (getP G2 v).dense G2 = G3 at *
  -- the final state
  rw [forgetD]
  have hfpreds : (({ G3 with
      edge_count := G3.edge_count - ((getP G2 v).size : Int),
      _preds := G3._preds.set v (AdaptSMap.clear (getP G2 v)),
      is_free := G3.is_free.set v true,
      free_id := G3.free_id ++ [v] } : AdaptGraph))._preds
      = G3._preds.set v (AdaptSMap.clear (getP G2 v)) := rfl
  generalize hGF : ({ G3 with
      edge_count := G3.edge_count - ((getP G2 v).size : Int),
      _preds := G3._preds.set v (AdaptSMap.clear (getP G2 v)),
      is_free := G3.is_free.set v true,
      free_id := G3.free_id ++ [v] } : AdaptGraph) = GF at *
  have hFsucc : GF._succs = G3._succs := by rw [← hGF]
  have hFpred : GF._preds = G3._preds.set v (AdaptSMap.clear (getP G2 v)) := by rw [← hGF]
  have hFws : GF._ws = g._ws := by rw [← hGF]; rw [e3ws, hG2ws, e1ws]
  have hFif : GF.is_free = g.is_free.set v true := by
    rw [← hGF]
    show G3.is_free.set v true = g.is_free.set v true
    rw [e3if, hG2if, e1if]
  have hFfid : GF.free_id = g.free_id ++ [v] := by
    rw [← hGF]
    show G3.free_id ++ [v] = g.free_id ++ [v]
    rw [e3fid, hG2fid, e1fid]
  have hFfw : GF.free_widx = g.free_widx ++ (getS g v).dense.map Elt.val := by
    rw [← hGF]
    show G3.free_widx = _
    rw [e3fw, hG2fw, e1fw]
  have hFec : GF.edge_count = g.edge_count - numIncident g v := by
    rw [← hGF]
    show G3.edge_count - ((getP G2 v).size : Int) = _
    rw [e3ec, hG2ec, e1ec, hpv1]
    unfold numIncident
    ring
  have hFslen : GF._succs.length = g._succs.length := by
    rw [hFsucc, e3slen, hG2slen]
  have hFplen : GF._preds.length = g._succs.length := by
    rw [hFpred, List.length_set, e3pred, hG2p, e1plen, hw.len_p]
  have hplen1 : v < G3._preds.length := by
    rw [e3pred, hG2p, e1plen, hw.len_p]
    exact hv
  have hFgetP : ∀ x, getP GF x =
      if x = v then AdaptSMap.clear (getP G2 v)
      else if x ∈ (getS g v).dense.map Elt.key then (getP g x).remove v else getP g x := by
    intro x
    by_cases hx : x = v
    · rw [if_pos hx]
      have h1 : getP GF x = (G3._preds.set v (AdaptSMap.clear (getP G2 v))).getD x
          AdaptSMap.init := by
        unfold getP
        rw [hFpred]
        rfl
      rw [h1, hx]
      exact getD_set_self G3._preds v AdaptSMap.init _ hplen1
    · rw [if_neg hx]
      have h1 : getP GF x = G3._preds.getD x AdaptSMap.init := by
        unfold getP
        rw [hFpred]
        exact getD_set_ne G3._preds v x AdaptSMap.init _ (fun h => hx h.symm)
      have h2 : G3._preds.getD x AdaptSMap.init = getP G2 x := by
        unfold getP
        rw [e3pred]
      rw [h1, h2, hgetP2 x, hgp1 x]
  have hFgetS : ∀ x, getS GF x =
      if x ∈ (getP G2 v).dense.map Elt.key then (getS G2 x).remove v else getS G2 x := by
    intro x
    unfold getS
    rw [hFsucc]
    exact hgs3 x
  have hFgetSv : getS GF v = AdaptSMap.clear (getS g v) := by
    rw [hFgetS v, if_neg hnotv2, hgetS2 v, if_pos rfl]
  -- characterization of the final succ maps away from v
  have hskeys : ∀ s, s ≠ v → (s ∈ (getP G2 v).dense.map Elt.key ↔
      (mapFun (getS g s) v).isSome = true) := by
    intro s hs
    rw [mem_keys_iff, hpv1_mapFun s, if_neg hs]
    constructor
    · intro h
      obtain ⟨i0, hi0⟩ := Option.isSome_iff_exists.mp h
      rw [(hw.pred_edges v hv s i0 hi0).2.2]
      rfl
    · intro h
      obtain ⟨i0, hi0⟩ := Option.isSome_iff_exists.mp h
      have hslt : s < g._succs.length := by
        by_contra hns
        have hinit : getS g s = AdaptSMap.init := by
          unfold getS
          exact getD_of_ge _ _ _ (by omega)
        rw [hinit] at hi0
        simp [AdaptSMap.mapFun, AdaptSMap.init] at hi0
      rw [(hw.succ_edges s hslt v i0 hi0).2.2]
      rfl
  -- final succ maps away from v
  have hFgetS_char : ∀ s, s < gsize g → s ≠ v → ∀ x,
      mapFun (getS GF s) x = if x = v then none else mapFun (getS g s) x := by
    intro s hslt hs x
    rw [hFgetS s]
    by_cases hmem : s ∈ (getP G2 v).dense.map Elt.key
    · rw [if_pos hmem, hgetS2 s, if_neg hs]
      obtain ⟨i0, hi0⟩ := Option.isSome_iff_exists.mp ((hskeys s hs).mp hmem)
      obtain ⟨_, _, hchar, _, _, _⟩ :=
        AdaptSMap.remove_spec (getS g s) v i0 (hw.sinv_s s hslt) hi0
      exact hchar x
    · rw [if_neg hmem, hgetS2 s, if_neg hs]
      by_cases hx : x = v
      · rw [if_pos hx, hx]
        cases hc : mapFun (getS g s) v with
        | none => rfl
        | some i0 =>
          exact absurd ((hskeys s hs).mpr (by rw [hc]; rfl)) hmem
      · rw [if_neg hx]
  -- final pred maps away from v
  have hsvk_lt : ∀ d ∈ (getS g v).dense.map Elt.key, d < gsize g := by
    intro d hd
    obtain ⟨e, he, hek⟩ := List.mem_map.mp hd
    exact hek ▸ (hsucc_elt e he).1
  have hFgetP_char : ∀ d, d ≠ v → ∀ x,
      mapFun (getP GF d) x = if x = v then none else mapFun (getP g d) x := by
    intro d hd x
    rw [hFgetP d, if_neg hd]
    by_cases hmem : d ∈ (getS g v).dense.map Elt.key
    · rw [if_pos hmem]
      obtain ⟨i0, hi0⟩ := Option.isSome_iff_exists.mp ((mem_keys_iff _ d).mp hmem)
      have hpd : mapFun (getP g d) v = some i0 := (hw.succ_edges v hv d i0 hi0).2.2
      obtain ⟨_, _, hchar, _, _, _⟩ :=
        AdaptSMap.remove_spec (getP g d) v i0 (hw.sinv_p d (hsvk_lt d hmem)) hpd
      exact hchar x
    · rw [if_neg hmem]
      by_cases hx : x = v
      · rw [if_pos hx, hx]
        cases hc : mapFun (getP g d) v with
        | none => rfl
        | some i0 =>
          by_cases hdn : d < gsize g
          · have := (hw.pred_edges d hdn v i0 hc).2.2
            exact absurd ((mem_keys_iff _ d).mpr (by rw [this]; rfl)) hmem
          · have hinit : getP g d = AdaptSMap.init := by
              unfold getP
              refine getD_of_ge _ _ _ ?_
              rw [hw.len_p]
              unfold gsize at hdn
              omega
            rw [hinit] at hc
            simp [AdaptSMap.mapFun, AdaptSMap.init] at hc
      · rw [if_neg hx]
  have hFgetPv : getP GF v = AdaptSMap.clear (getP G2 v) := by
    rw [hFgetP v, if_pos rfl]
  -- sizes of the cleared maps
  have hsizeS : (getS GF v).size = 0 := by rw [hFgetSv]; rfl
  have hsizeP : (getP GF v).size = 0 := by rw [hFgetPv]; rfl
  -- well-formedness of the result
  have hwf : GWf GF := by
    constructor
    · rw [hFplen, hFslen]
    · rw [hFif, List.length_set, hw.len_f, hFslen]
    · rw [hFslen]; exact hw.size_le
    · intro x hx
      by_cases hxv : x = v
      · rw [hxv, hFgetSv]
        exact AdaptSMap.clear_sinv _ hsv
      · rw [hFslen] at hx
        rw [hFgetS x]
        by_cases hmem : x ∈ (getP G2 v).dense.map Elt.key
        · rw [if_pos hmem, hgetS2 x, if_neg hxv]
          obtain ⟨i0, hi0⟩ := Option.isSome_iff_exists.mp ((hskeys x hxv).mp hmem)
          obtain ⟨hsi', _, _, _, _, _⟩ :=
            AdaptSMap.remove_spec (getS g x) v i0 (hw.sinv_s x hx) hi0
          exact hsi'
        · rw [if_neg hmem, hgetS2 x, if_neg hxv]
          exact hw.sinv_s x hx
    · intro x hx
      by_cases hxv : x = v
      · rw [hxv, hFgetPv]
        exact AdaptSMap.clear_sinv _ hpv1_sinv
      · rw [hFslen] at hx
        rw [hFgetP x, if_neg hxv]
        by_cases hmem : x ∈ (getS g v).dense.map Elt.key
        · rw [if_pos hmem]
          obtain ⟨i0, hi0⟩ := Option.isSome_iff_exists.mp ((mem_keys_iff _ x).mp hmem)
          have hpd : mapFun (getP g x) v = some i0 := (hw.succ_edges v hv x i0 hi0).2.2
          obtain ⟨hsi', _, _, _, _, _⟩ :=
            AdaptSMap.remove_spec (getP g x) v i0 (hw.sinv_p x hx) hpd
          exact hsi'
        · rw [if_neg hmem]
          exact hw.sinv_p x hx
    · intro s hs d i hmap
      rw [hFslen] at hs
      by_cases hsv' : s = v
      · rw [hsv', hFgetSv] at hmap
        simp [AdaptSMap.mapFun, AdaptSMap.clear] at hmap
      · rw [hFgetS_char s hs hsv' d] at hmap
        by_cases hdv : d = v
        · rw [if_pos hdv] at hmap; cases hmap
        · rw [if_neg hdv] at hmap
          obtain ⟨hd1, hd2, hd3⟩ := hw.succ_edges s hs d i hmap
          refine ⟨by rw [hFslen]; exact hd1, by rw [hFws]; exact hd2, ?_⟩
          rw [hFgetP_char d hdv s, if_neg hsv']
          exact hd3
    · intro d hd s i hmap
      rw [hFslen] at hd
      by_cases hdv : d = v
      · rw [hdv, hFgetPv] at hmap
        simp [AdaptSMap.mapFun, AdaptSMap.clear] at hmap
      · rw [hFgetP_char d hdv s] at hmap
        by_cases hsv' : s = v
        · rw [if_pos hsv'] at hmap; cases hmap
        · rw [if_neg hsv'] at hmap
          obtain ⟨hd1, hd2, hd3⟩ := hw.pred_edges d hd s i hmap
          refine ⟨by rw [hFslen]; exact hd1, by rw [hFws]; exact hd2, ?_⟩
          rw [hFgetS_char s hd1 hsv' d, if_neg hdv]
          exact hd3
    · intro u hu
      rw [hFfid] at hu
      have hvlen : v < g.is_free.length := by rw [hw.len_f]; exact hv
      rcases List.mem_append.mp hu with hu | hu
      · obtain ⟨hu1, hu2⟩ := hw.free_ids u hu
        have huv : u ≠ v := by
          intro h
          rw [h, hnf] at hu2
          cases hu2
        refine ⟨by rw [hFslen]; exact hu1, ?_⟩
        rw [hFif, getD_set_ne g.is_free v u false true (fun h => huv h.symm)]
        exact hu2
      · have huv : u = v := by simpa using hu
        refine ⟨by rw [hFslen, huv]; exact hv, ?_⟩
        rw [hFif, huv]
        exact getD_set_self g.is_free v false true hvlen
    · rw [hFfid]
      refine List.Nodup.append hw.free_nodup (by simp) ?_
      intro u hu hu'
      have huv : u = v := by simpa using hu'
      obtain ⟨_, hu2⟩ := hw.free_ids u hu
      rw [huv, hnf] at hu2
      cases hu2
    · intro i hi
      rw [hFfw] at hi
      rw [hFws]
      rcases List.mem_append.mp hi with hi | hi
      · exact hw.widx_lt i hi
      · obtain ⟨e, he, hev⟩ := List.mem_map.mp hi
        exact hev ▸ (hsucc_elt e he).2.1
  exact ⟨hFws, hFfw, hsizeS, hsizeP, hFif, hFfid, hFgetP_char,
    hFgetS_char, hFec, by unfold gsize; exact hFslen, hwf⟩

/-! ### The invariant holds on every reachable graph -/
theorem wf_empty : GWf empty := by
  refine ⟨rfl, rfl, by decide, ?_, ?_, ?_, ?_, ?_, ?_, ?_⟩
  · intro x hx
    simp [empty] at hx
  · intro x hx
    simp [empty] at hx
  · intro s hs
    simp [empty] at hs
  · intro d hd
    simp [empty] at hd
  · intro u hu
    simp [empty] at hu
  · exact List.nodup_nil
  · intro i hi
    simp [empty] at hi

theorem wf_new_vertex (g : AdaptGraph) (hw : GWf g)
    (h : g.free_id ≠ [] ∨ gsize g < 65536) : GWf (new_vertex g).1 := by
  unfold new_vertex
  cases hlast : g.free_id.getLast? with
  | some v =>
    constructor
    · exact hw.len_p
    · show (g.is_free.set v false).length = g._succs.length
      rw [List.length_set]
      exact hw.len_f
    · exact hw.size_le
    · exact hw.sinv_s
    · exact hw.sinv_p
    · exact hw.succ_edges
    · exact hw.pred_edges
    · intro u hu
      have hmem : u ∈ g.free_id := dropLast_subset _ u hu
      obtain ⟨h1, h2⟩ := hw.free_ids u hmem
      have huv : u ≠ v := fun he =>
        getLast_not_mem_dropLast g.free_id v hw.free_nodup hlast (he ▸ hu)
      refine ⟨h1, ?_⟩
      show (g.is_free.set v false).getD u false = true
      rw [getD_set_ne g.is_free v u false false (fun hc => huv hc.symm)]
      exact h2
    · exact List.Nodup.sublist (List.dropLast_sublist g.free_id) hw.free_nodup
    · exact hw.widx_lt
  | none =>
    have hfid : g.free_id = [] := getLast?_none_eq_nil _ hlast
    have hsz : gsize g < 65536 := by
      rcases h with h | h
      · exact absurd hfid h
      · exact h
    unfold gsize at hsz
    constructor
    · show (g._preds ++ [AdaptSMap.init]).length = (g._succs ++ [AdaptSMap.init]).length
      simp [hw.len_p]
    · show (g.is_free ++ [false]).length = (g._succs ++ [AdaptSMap.init]).length
      simp [hw.len_f]
    · show (g._succs ++ [AdaptSMap.init]).length ≤ 65536
      simp only [List.length_append, List.length_cons, List.length_nil]
      omega
    · intro x hx
      simp only [List.length_append, List.length_cons, List.length_nil] at hx
      show AdaptSMap.SInv ((g._succs ++ [AdaptSMap.init]).getD x AdaptSMap.init)
      rcases Nat.lt_or_ge x g._succs.length with hlt | hge
      · rw [getD_append_lt _ _ _ _ hlt]
        exact hw.sinv_s x hlt
      · have hx' : x = g._succs.length := by omega
        rw [hx', getD_append_self]
        exact init_sinv
    · intro x hx
      simp only [List.length_append, List.length_cons, List.length_nil] at hx
      show AdaptSMap.SInv ((g._preds ++ [AdaptSMap.init]).getD x AdaptSMap.init)
      rcases Nat.lt_or_ge x g._preds.length with hlt | hge
      · rw [getD_append_lt _ _ _ _ hlt]
        exact hw.sinv_p x (by rw [← hw.len_p]; exact hlt)
      · have hx' : x = g._preds.length := by
          have hlp := hw.len_p
          omega
        rw [hx', getD_append_self]
        exact init_sinv
    · intro s hs d i hmap
      simp only [List.length_append, List.length_cons, List.length_nil] at hs
      have hgetS' : ∀ y, ((g._succs ++ [AdaptSMap.init]).getD y AdaptSMap.init) =
          if y < g._succs.length then g._succs.getD y AdaptSMap.init else AdaptSMap.init := by
        intro y
        by_cases hy : y < g._succs.length
        · rw [if_pos hy, getD_append_lt _ _ _ _ hy]
        · rw [if_neg hy]
          rcases Nat.lt_or_ge y (g._succs.length + 1) with hy1 | hy1
          · have : y = g._succs.length := by omega
            rw [this, getD_append_self]
          · refine getD_of_ge _ _ _ ?_
            simp only [List.length_append, List.length_cons, List.length_nil]
            omega
      have hgetP' : ∀ y, ((g._preds ++ [AdaptSMap.init]).getD y AdaptSMap.init) =
          if y < g._preds.length then g._preds.getD y AdaptSMap.init else AdaptSMap.init := by
        intro y
        by_cases hy : y < g._preds.length
        · rw [if_pos hy, getD_append_lt _ _ _ _ hy]
        · rw [if_neg hy]
          rcases Nat.lt_or_ge y (g._preds.length + 1) with hy1 | hy1
          · have : y = g._preds.length := by omega
            rw [this, getD_append_self]
          · refine getD_of_ge _ _ _ ?_
            simp only [List.length_append, List.length_cons, List.length_nil]
            omega
      have hmap' : mapFun ((g._succs ++ [AdaptSMap.init]).getD s AdaptSMap.init) d = some i := hmap
      rw [hgetS' s] at hmap'
      by_cases hslt : s < g._succs.length
      · rw [if_pos hslt] at hmap'
        obtain ⟨h1, h2, h3⟩ := hw.succ_edges s hslt d i hmap'
        refine ⟨?_, h2, ?_⟩
        · simp only [List.length_append, List.length_cons, List.length_nil]
          omega
        · show mapFun ((g._preds ++ [AdaptSMap.init]).getD d AdaptSMap.init) s = some i
          rw [hgetP' d, if_pos (by rw [hw.len_p]; exact h1)]
          exact h3
      · rw [if_neg hslt] at hmap'
        simp [mapFun, AdaptSMap.init] at hmap'
    · intro d hd s i hmap
      simp only [List.length_append, List.length_cons, List.length_nil] at hd
      have hgetS' : ∀ y, ((g._succs ++ [AdaptSMap.init]).getD y AdaptSMap.init) =
          if y < g._succs.length then g._succs.getD y AdaptSMap.init else AdaptSMap.init := by
        intro y
        by_cases hy : y < g._succs.length
        · rw [if_pos hy, getD_append_lt _ _ _ _ hy]
        · rw [if_neg hy]
          rcases Nat.lt_or_ge y (g._succs.length + 1) with hy1 | hy1
          · have : y = g._succs.length := by omega
            rw [this, getD_append_self]
          · refine getD_of_ge _ _ _ ?_
            simp only [List.length_append, List.length_cons, List.length_nil]
            omega
      have hgetP' : ∀ y, ((g._preds ++ [AdaptSMap.init]).getD y AdaptSMap.init) =
          if y < g._preds.length then g._preds.getD y AdaptSMap.init else AdaptSMap.init := by
        intro y
        by_cases hy : y < g._preds.length
        · rw [if_pos hy, getD_append_lt _ _ _ _ hy]
        · rw [if_neg hy]
          rcases Nat.lt_or_ge y (g._preds.length + 1) with hy1 | hy1
          · have : y = g._preds.length := by omega
            rw [this, getD_append_self]
          · refine getD_of_ge _ _ _ ?_
            simp only [List.length_append, List.length_cons, List.length_nil]
            omega
      have hmap' : mapFun ((g._preds ++ [AdaptSMap.init]).getD d AdaptSMap.init) s = some i := hmap
      rw [hgetP' d] at hmap'
      by_cases hdlt : d < g._preds.length
      · rw [if_pos hdlt] at hmap'
        obtain ⟨h1, h2, h3⟩ := hw.pred_edges d (by rw [← hw.len_p]; exact hdlt) s i hmap'
        refine ⟨?_, h2, ?_⟩
        · simp only [List.length_append, List.length_cons, List.length_nil]
          omega
        · show mapFun ((g._succs ++ [AdaptSMap.init]).getD s AdaptSMap.init) d = some i
          rw [hgetS' s, if_pos h1]
          exact h3
      · rw [if_neg hdlt] at hmap'
        simp [mapFun, AdaptSMap.init] at hmap'
    · intro u hu
      rw [hfid] at hu
      cases hu
    · exact hw.free_nodup
    · exact hw.widx_lt

/-- `elem` is membership of the abstract content on a well-formed graph. -/
theorem elem_eq_isSome (g : AdaptGraph) (s d : Nat) (hw : GWf g) (hs : s < gsize g) :
    elem g s d = (mapFun (getS g s) d).isSome := by
  unfold elem AdaptSMap.elemFun
  exact elemWith_eq_mem _ d 0 (hw.sinv_s s hs)

/-- `lookup` returns the abstract weight-slot index on a well-formed graph. -/
theorem lookupIdx_eq_mapFun (g : AdaptGraph) (s d : Nat) (hw : GWf g) (hs : s < gsize g) :
    lookupIdx g s d = mapFun (getS g s) d := by
  unfold lookupIdx AdaptSMap.lookupFun
  exact lookupWith_eq_mapFun _ d 0 (hw.sinv_s s hs)

theorem wf_add_edge (g : AdaptGraph) (s : Nat) (w : Int) (d : Nat) (hw : GWf g)
    (hs : s < gsize g) (hd : d < gsize g) (he : elem g s d = false) :
    GWf (add_edge g s w d) := by
  have hsd : mapFun (getS g s) d = none := by
    have h1 := elem_eq_isSome g s d hw hs
    rw [he] at h1
    cases hc : mapFun (getS g s) d with
    | none => rfl
    | some i =>
      rw [hc] at h1
      simp at h1
  have hds : mapFun (getP g d) s = none := by
    cases hc : mapFun (getP g d) s with
    | none => rfl
    | some i =>
      have h3 := (hw.pred_edges d hd s i hc).2.2
      rw [hsd] at h3
      cases h3
  have hkS : ∀ e ∈ (getS g s).dense, e.key ≠ d := (mapFun_eq_none_iff _ _).mp hsd
  have hkP : ∀ e ∈ (getP g d).dense, e.key ≠ s := (mapFun_eq_none_iff _ _).mp hds
  obtain ⟨idx, hidx, hle, hframe, hwval, hgetS, hgetP, hif, hfid, hfw, hec, hgs, hplen⟩ :=
    add_edge_spec g s w d hw hs hd
  have hslen : (add_edge g s w d)._succs.length = g._succs.length := by
    unfold gsize at hgs
    exact hgs
  constructor
  · rw [hplen, hslen]
    exact hw.len_p
  · rw [hif, hslen]
    exact hw.len_f
  · rw [hslen]
    exact hw.size_le
  · intro x hx
    rw [hslen] at hx
    rw [hgetS x]
    by_cases hxs : x = s
    · rw [if_pos hxs]
      exact add_sinv _ d idx (hw.sinv_s s hs) hkS
    · rw [if_neg hxs]
      exact hw.sinv_s x hx
  · intro x hx
    rw [hslen] at hx
    rw [hgetP x]
    by_cases hxd : x = d
    · rw [if_pos hxd]
      exact add_sinv _ s idx (hw.sinv_p d hd) hkP
    · rw [if_neg hxd]
      exact hw.sinv_p x hx
  · intro a ha b i hmap
    rw [hslen] at ha
    rw [hgetS a] at hmap
    by_cases has : a = s
    · rw [if_pos has, mapFun_add _ d idx hkS b] at hmap
      by_cases hbd : b = d
      · rw [if_pos hbd] at hmap
        have hi : idx = i := by simpa using hmap
        refine ⟨by rw [hslen, hbd]; exact hd, hi ▸ hidx, ?_⟩
        rw [hgetP b, if_pos hbd, mapFun_add _ s idx hkP a, if_pos has, hi]
      · rw [if_neg hbd] at hmap
        obtain ⟨h1, h2, h3⟩ := hw.succ_edges s hs b i hmap
        refine ⟨by rw [hslen]; exact h1, lt_of_lt_of_le h2 hle, ?_⟩
        rw [hgetP b, if_neg hbd, has]
        exact h3
    · rw [if_neg has] at hmap
      obtain ⟨h1, h2, h3⟩ := hw.succ_edges a ha b i hmap
      refine ⟨by rw [hslen]; exact h1, lt_of_lt_of_le h2 hle, ?_⟩
      rw [hgetP b]
      by_cases hbd : b = d
      · rw [if_pos hbd, mapFun_add _ s idx hkP a, if_neg has, ← hbd]
        exact h3
      · rw [if_neg hbd]
        exact h3
  · intro b hb a i hmap
    rw [hslen] at hb
    rw [hgetP b] at hmap
    by_cases hbd : b = d
    · rw [if_pos hbd, mapFun_add _ s idx hkP a] at hmap
      by_cases has : a = s
      · rw [if_pos has] at hmap
        have hi : idx = i := by simpa using hmap
        refine ⟨by rw [hslen, has]; exact hs, hi ▸ hidx, ?_⟩
        rw [hgetS a, if_pos has, mapFun_add _ d idx hkS b, if_pos hbd, hi]
      · rw [if_neg has] at hmap
        obtain ⟨h1, h2, h3⟩ := hw.pred_edges d hd a i hmap
        refine ⟨by rw [hslen]; exact h1, lt_of_lt_of_le h2 hle, ?_⟩
        rw [hgetS a, if_neg has, hbd]
        exact h3
    · rw [if_neg hbd] at hmap
      obtain ⟨h1, h2, h3⟩ := hw.pred_edges b hb a i hmap
      refine ⟨by rw [hslen]; exact h1, lt_of_lt_of_le h2 hle, ?_⟩
      rw [hgetS a]
      by_cases has : a = s
      · rw [if_pos has, mapFun_add _ d idx hkS b, if_neg hbd, ← has]
        exact h3
      · rw [if_neg has]
        exact h3
  · intro u hu
    rw [hfid] at hu
    obtain ⟨h1, h2⟩ := hw.free_ids u hu
    exact ⟨by rw [hslen]; exact h1, by rw [hif]; exact h2⟩
  · rw [hfid]
    exact hw.free_nodup
  · intro i hi
    exact lt_of_lt_of_le (hw.widx_lt i (hfw i hi)) hle

/-- Overwriting one weight slot preserves well-formedness. -/
theorem wf_ws_set (g : AdaptGraph) (idx : Nat) (w : Int) (hw : GWf g) :
    GWf { g with _ws := g._ws.set idx w } := by
  constructor
  · exact hw.len_p
  · exact hw.len_f
  · exact hw.size_le
  · exact hw.sinv_s
  · exact hw.sinv_p
  · intro s hs d i hmap
    obtain ⟨h1, h2, h3⟩ := hw.succ_edges s hs d i hmap
    refine ⟨h1, ?_, h3⟩
    show i < (g._ws.set idx w).length
    rw [List.length_set]
    exact h2
  · intro d hd s i hmap
    obtain ⟨h1, h2, h3⟩ := hw.pred_edges d hd s i hmap
    refine ⟨h1, ?_, h3⟩
    show i < (g._ws.set idx w).length
    rw [List.length_set]
    exact h2
  · exact hw.free_ids
  · exact hw.free_nodup
  · intro i hi
    show i < (g._ws.set idx w).length
    rw [List.length_set]
    exact hw.widx_lt i hi

theorem wf_update_edge (g : AdaptGraph) (s : Nat) (w : Int) (d : Nat) (hw : GWf g)
    (hs : s < gsize g) (hd : d < gsize g) : GWf (update_edge g s w d) := by
  unfold update_edge
  cases hl : lookupIdx g s d with
  | some idx => exact wf_ws_set g idx _ hw
  | none =>
    refine wf_add_edge g s w d hw hs hd ?_
    rw [lookupIdx_eq_mapFun g s d hw hs] at hl
    rw [elem_eq_isSome g s d hw hs, hl]
    rfl

theorem wf_set_edge (g : AdaptGraph) (s : Nat) (w : Int) (d : Nat) (hw : GWf g)
    (hs : s < gsize g) (hd : d < gsize g) : GWf (set_edge g s w d) := by
  unfold set_edge
  cases hl : lookupIdx g s d with
  | some idx => exact wf_ws_set g idx _ hw
  | none =>
    refine wf_add_edge g s w d hw hs hd ?_
    rw [lookupIdx_eq_mapFun g s d hw hs] at hl
    rw [elem_eq_isSome g s d hw hs, hl]
    rfl

theorem wf_forget (g : AdaptGraph) (v : Nat) (hw : GWf g) (hv : v < gsize g) :
    GWf (forget g v) := by
  cases hnf : g.is_free.getD v false with
  | true =>
    have hfg : forget g v = g := by
      unfold forget
      rw [hnf]
      rfl
    rw [hfg]
    exact hw
  | false =>
    obtain ⟨-, -, -, -, -, -, -, -, -, -, hwf⟩ := forget_spec g v hw hv hnf
    exact hwf

/-- Every reachable graph is well-formed. -/
theorem greach_wf (g : AdaptGraph) (h : GReach g) : GWf g := by
  induction h with
  | empty => exact wf_empty
  | new_vertex g' _ hside ih => exact wf_new_vertex g' ih hside
  | add_edge g' s w d _ hs hd he ih => exact wf_add_edge g' s w d ih hs hd he
  | update_edge g' s w d _ hs hd ih => exact wf_update_edge g' s w d ih hs hd
  | set_edge g' s w d _ hs hd ih => exact wf_set_edge g' s w d ih hs hd
  | forget g' v _ hv ih => exact wf_forget g' v ih hv
end AdaptGraph

open AdaptGraph

theorem nv2_reach : GReach (newVertices empty 2) := by
  show GReach (new_vertex (new_vertex empty).1).1
  exact GReach.new_vertex _
    (GReach.new_vertex _ GReach.empty (Or.inr (by decide))) (Or.inr (by decide))

theorem gc0_reach : GReach gc0 :=
  GReach.add_edge _ 1 7 0 nv2_reach (by decide) (by decide) (by decide)

theorem g2_reach : GReach g2 :=
  GReach.add_edge _ 0 5 1 nv2_reach (by decide) (by decide) (by decide)

/-- C1 (confirmed): on every reachable graph and valid vertices `s`, `d`,
the successor map of `s` contains `d` iff the predecessor map of `d`
contains `s`; both lookups agree, the common index is a valid weight slot
and `edge_val` reads exactly that slot; and every id on the free list is
marked free. -/
theorem claim_C1 (g : AdaptGraph) (h : GReach g) (s d : Nat)
    (hs : s < gsize g) (hd : d < gsize g) :
    (elem g s d = (getP g d).elemFun s) ∧
    (lookupIdx g s d = (getP g d).lookupFun s) ∧
    (∀ i, lookupIdx g s d = some i →
      i < g._ws.length ∧ edge_val g s d = g._ws.getD i 0) ∧
    (∀ v ∈ g.free_id, g.is_free.getD v false = true) := by
  have hw := greach_wf g h
  have hsymm : mapFun (getS g s) d = mapFun (getP g d) s := by
    cases hc : mapFun (getS g s) d with
    | some i => exact ((hw.succ_edges s hs d i hc).2.2).symm
    | none =>
      cases hc2 : mapFun (getP g d) s with
      | none => rfl
      | some i =>
        have h3 := (hw.pred_edges d hd s i hc2).2.2
        rw [hc] at h3
        cases h3
  have hpelem : (getP g d).elemFun s = (mapFun (getP g d) s).isSome :=
    elemWith_eq_mem _ s 0 (hw.sinv_p d hd)
  have hplook : (getP g d).lookupFun s = mapFun (getP g d) s :=
    lookupWith_eq_mapFun _ s 0 (hw.sinv_p d hd)
  refine ⟨?_, ?_, ?_, ?_⟩
  · rw [elem_eq_isSome g s d hw hs, hpelem, hsymm]
  · rw [lookupIdx_eq_mapFun g s d hw hs, hplook, hsymm]
  · intro i hi
    have hmap : mapFun (getS g s) d = some i := by
      rw [← lookupIdx_eq_mapFun g s d hw hs]
      exact hi
    refine ⟨(hw.succ_edges s hs d i hmap).2.1, ?_⟩
    unfold edge_val
    rw [hi]
    rfl
  · intro v hv
    exact (hw.free_ids v hv).2

theorem claim_C1_witness :
    (elem g2 0 1 = (getP g2 1).elemFun 0) ∧
    (lookupIdx g2 0 1 = (getP g2 1).lookupFun 0) ∧
    (∀ i, lookupIdx g2 0 1 = some i →
      i < g2._ws.length ∧ edge_val g2 0 1 = g2._ws.getD i 0) ∧
    (∀ v ∈ g2.free_id, g2.is_free.getD v false = true) :=
  claim_C1 g2 g2_reach 0 1 (by decide) (by decide)

/-- C3 (confirmed): `update_edge(s, w, d)` relaxes the edge weight to
`min(prior, w)` when the edge exists, and freshly adds the edge with
weight `w` when it does not. -/
theorem claim_C3 (g : AdaptGraph) (h : GReach g) (s d : Nat)
    (hs : s < gsize g) (hd : d < gsize g) (w : Int) :
    (∀ i, lookupIdx g s d = some i →
      edge_val (update_edge g s w d) s d = min (edge_val g s d) w) ∧
    (lookupIdx g s d = none →
      edge_val (update_edge g s w d) s d = w ∧
      elem (update_edge g s w d) s d = true) := by
  have hw := greach_wf g h
  constructor
  · intro i hi
    have hmap : mapFun (getS g s) d = some i := by
      rw [← lookupIdx_eq_mapFun g s d hw hs]
      exact hi
    have hiws : i < g._ws.length := (hw.succ_edges s hs d i hmap).2.1
    unfold update_edge
    rw [hi]
    show edge_val { g with _ws := g._ws.set i (min (g._ws.getD i 0) w) } s d
        = min (edge_val g s d) w
    have hlk : lookupIdx { g with _ws := g._ws.set i (min (g._ws.getD i 0) w) } s d
        = lookupIdx g s d := rfl
    unfold edge_val
    rw [hlk, hi]
    show (g._ws.set i (min (g._ws.getD i 0) w)).getD i 0 = min (g._ws.getD i 0) w
    exact getD_set_self g._ws i 0 _ hiws
  · intro hnone
    have hmapn : mapFun (getS g s) d = none := by
      rw [← lookupIdx_eq_mapFun g s d hw hs]
      exact hnone
    have hkS : ∀ e ∈ (getS g s).dense, e.key ≠ d := (mapFun_eq_none_iff _ _).mp hmapn
    obtain ⟨idx, hidx, hle, hframe, hwval, hgetS, hgetP, hif, hfid, hfw, hec, hgs, hplen⟩ :=
      add_edge_spec g s w d hw hs hd
    have hupd : update_edge g s w d = add_edge g s w d := by
      unfold update_edge
      rw [hnone]
    have hsinv' : AdaptSMap.SInv ((getS g s).add d idx) :=
      add_sinv _ d idx (hw.sinv_s s hs) hkS
    have hlk' : lookupIdx (add_edge g s w d) s d = some idx := by
      unfold lookupIdx AdaptSMap.lookupFun
      rw [hgetS s, if_pos rfl,
          lookupWith_eq_mapFun _ d 0 hsinv', mapFun_add _ d idx hkS d, if_pos rfl]
    constructor
    · rw [hupd]
      unfold edge_val
      rw [hlk']
      exact hwval
    · rw [hupd]
      unfold elem AdaptSMap.elemFun
      rw [hgetS s, if_pos rfl,
          elemWith_eq_mem _ d 0 hsinv', mapFun_add _ d idx hkS d, if_pos rfl]
      rfl

theorem claim_C3_witness :
    (∀ i, lookupIdx g2 0 1 = some i →
      edge_val (update_edge g2 0 3 1) 0 1 = min (edge_val g2 0 1) 3) ∧
    (lookupIdx g2 0 1 = none →
      edge_val (update_edge g2 0 3 1) 0 1 = 3 ∧
      elem (update_edge g2 0 3 1) 0 1 = true) :=
  claim_C3 g2 g2_reach 0 1 (by decide) (by decide) 3

/-- C9 (confirmed): `forget` on a vertex already marked free is a
no-op — the early `return` leaves the whole graph state unchanged, so
the vertex is in particular not pushed onto the free list again. -/
theorem claim_C9 (g : AdaptGraph) (v : Nat) (h : g.is_free.getD v false = true) :
    forget g v = g := by
  unfold forget
  rw [h]
  rfl

theorem claim_C9_witness : forget g21f 0 = g21f :=
  claim_C9 g21f 0 (by decide)

/-- C2 (counterexample to the claim as stated): in the reachable graph
`gc0` the edge `1 → 0` is incident to vertex 0 (an incoming edge, weight
slot 0), vertex 0 is not free, yet `forget 0` pushes no weight slot onto
`free_widx` — the predecessor loop of the source frees nothing, so the
slot of the incoming edge leaks, contrary to the claim that every
incident edge's slot is freed. -/
theorem claim_C2_counterexample :
    GReach gc0 ∧
    elem gc0 1 0 = true ∧
    lookupIdx gc0 1 0 = some 0 ∧
    gc0.is_free.getD 0 false = false ∧
    (forget gc0 0).free_widx = [] ∧
    (forget gc0 0).edge_count = 0 :=
  ⟨gc0_reach, by decide, by decide, by decide, by decide, by decide⟩

/-- C2 (amended): `forget v` pushes exactly the weight slots of the
*outgoing* edges of `v` onto `free_widx`, clears both adjacency maps of
`v`, removes the `v` entry from every other vertex's maps, marks `v` free,
pushes it on the free list, and decreases the edge count by the number of
incident edges; the churn scenario holds for outgoing edges: after 20
edges out of vertex 0, `forget 0`, and re-adding 20 edges via `new_vertex`
and `add_edge`, the weight vector still has exactly 20 slots. -/
theorem claim_C2_amended (g : AdaptGraph) (v : Nat) (h : GReach g)
    (hv : v < gsize g) (hnf : g.is_free.getD v false = false) :
    ((forget g v).free_widx = g.free_widx ++ (getS g v).dense.map Elt.val ∧
     (forget g v)._ws = g._ws ∧
     (getS (forget g v) v).size = 0 ∧
     (getP (forget g v) v).size = 0 ∧
     (forget g v).is_free = g.is_free.set v true ∧
     (forget g v).free_id = g.free_id ++ [v] ∧
     (∀ d, d ≠ v → ∀ x, mapFun (getP (forget g v) d) x =
        if x = v then none else mapFun (getP g d) x) ∧
     (∀ s, s < gsize g → s ≠ v → ∀ x, mapFun (getS (forget g v) s) x =
        if x = v then none else mapFun (getS g s) x) ∧
     (forget g v).edge_count = g.edge_count - numIncident g v) ∧
    (g21._ws.length = 20 ∧ g21b._ws.length = 20) := by
  obtain ⟨h1, h2, h3, h4, h5, h6, h7, h8, h9, -, -⟩ :=
    forget_spec g v (greach_wf g h) hv hnf
  exact ⟨⟨h2, h1, h3, h4, h5, h6, h7, h8, h9⟩, by decide, by decide⟩

theorem claim_C2_witness :
    (((forget gc0 0).free_widx = gc0.free_widx ++ (getS gc0 0).dense.map Elt.val ∧
     (forget gc0 0)._ws = gc0._ws ∧
     (getS (forget gc0 0) 0).size = 0 ∧
     (getP (forget gc0 0) 0).size = 0 ∧
     (forget gc0 0).is_free = gc0.is_free.set 0 true ∧
     (forget gc0 0).free_id = gc0.free_id ++ [0] ∧
     (∀ d, d ≠ 0 → ∀ x, mapFun (getP (forget gc0 0) d) x =
        if x = 0 then none else mapFun (getP gc0 d) x) ∧
     (∀ s, s < gsize gc0 → s ≠ 0 → ∀ x, mapFun (getS (forget gc0 0) s) x =
        if x = 0 then none else mapFun (getS gc0 s) x) ∧
     (forget gc0 0).edge_count = gc0.edge_count - numIncident gc0 0) ∧
    (g21._ws.length = 20 ∧ g21b._ws.length = 20)) :=
  claim_C2_amended gc0 0 gc0_reach (by decide) (by decide)

namespace CfgT

/-! ### Association-list lemmas for the block map -/
theorem lookup_isSome_iff (c : CfgT) (l : Nat) :
    (lookup c l).isSome = true ↔ l ∈ keys c := by
  unfold lookup keys
  cases hf : c.m_blocks.find? (fun p => p.1 == l) with
  | none =>
    have hall := List.find?_eq_none.mp hf
    simp only [Option.map_none', Option.isSome_none]
    constructor
    · intro h
      exact absurd h (by decide)
    · intro hmem
      obtain ⟨p, hp, hpk⟩ := List.mem_map.mp hmem
      exact ((hall p hp) (by simpa using hpk)).elim
  | some p =>
    have hm := List.mem_of_find?_eq_some hf
    have hp := List.find?_some hf
    simp only [beq_iff_eq] at hp
    simp only [Option.map_some', Option.isSome_some, true_iff]
    exact List.mem_map.mpr ⟨p, hm, hp⟩

theorem lookup_none_iff (c : CfgT) (l : Nat) :
    lookup c l = none ↔ l ∉ keys c := by
  rw [← lookup_isSome_iff]
  cases lookup c l <;> simp

theorem lookup_mem (c : CfgT) (l : Nat) (b : BasicBlock) (h : lookup c l = some b) :
    (l, b) ∈ c.m_blocks := by
  unfold lookup at h
  cases hf : c.m_blocks.find? (fun p => p.1 == l) with
  | none => rw [hf] at h; cases h
  | some p =>
    rw [hf] at h
    have hm := List.mem_of_find?_eq_some hf
    have hp := List.find?_some hf
    simp only [beq_iff_eq] at hp
    simp only [Option.map_some', Option.some.injEq] at h
    have : p = (l, b) := by
      cases p
      simp only [Prod.mk.injEq]
      exact ⟨hp, h⟩
    exact this ▸ hm

theorem find?_key_unique {β : Type} (l : Nat) (b : β) :
    ∀ (bs : List (Nat × β)), ((bs.map Prod.fst).Nodup) → (l, b) ∈ bs →
    bs.find? (fun p => p.1 == l) = some (l, b) := by
  intro bs
  induction bs with
  | nil => intro _ h; cases h
  | cons q bs ih =>
    intro hnd hmem
    simp only [List.map_cons, List.nodup_cons] at hnd
    rw [List.find?_cons]
    cases hq : (q.1 == l) with
    | true =>
      simp only [beq_iff_eq] at hq
      rcases List.mem_cons.mp hmem with h | h
      · rw [← h]
      · exact absurd (List.mem_map.mpr ⟨(l, b), h, rfl⟩) (hq ▸ hnd.1)
    | false =>
      simp only [beq_eq_false_iff_ne, ne_eq] at hq
      rcases List.mem_cons.mp hmem with h | h
      · exact absurd (congrArg Prod.fst h).symm hq
      · exact ih hnd.2 h

theorem mem_lookup (c : CfgT) (l : Nat) (b : BasicBlock)
    (hnd : (c.m_blocks.map Prod.fst).Nodup) (h : (l, b) ∈ c.m_blocks) :
    lookup c l = some b := by
  unfold lookup
  rw [find?_key_unique l b c.m_blocks hnd h]
  rfl

theorem find?_map_key {β : Type} (g : Nat × β → Nat × β)
    (hg : ∀ p, (g p).1 = p.1) (x : Nat) : ∀ (bs : List (Nat × β)),
    (bs.map g).find? (fun p => p.1 == x) = (bs.find? (fun p => p.1 == x)).map g := by
  intro bs
  induction bs with
  | nil => rfl
  | cons q bs ih =>
    simp only [List.map_cons, List.find?_cons]
    have hq' : ((g q).1 == x) = (q.1 == x) := by rw [hg q]
    rw [hq']
    cases hq : (q.1 == x) with
    | true => rfl
    | false => exact ih

theorem lookup_updBlock (c : CfgT) (l : Nat) (f : BasicBlock → BasicBlock) (x : Nat) :
    lookup (updBlock c l f) x = if x = l then (lookup c l).map f else lookup c x := by
  unfold lookup updBlock
  simp only
  rw [find?_map_key (fun p => if p.1 = l then (p.1, f p.2) else p)
      (fun p => by by_cases hp : p.1 = l <;> simp [hp]) x c.m_blocks]
  by_cases hxl : x = l
  · rw [if_pos hxl]
    subst hxl
    cases hf : c.m_blocks.find? (fun p => p.1 == x) with
    | none => rfl
    | some p =>
      have hp := List.find?_some hf
      simp only [beq_iff_eq] at hp
      simp only [Option.map_some']
      rw [if_pos hp]
  · rw [if_neg hxl]
    cases hf : c.m_blocks.find? (fun p => p.1 == x) with
    | none => rfl
    | some p =>
      have hp := List.find?_some hf
      simp only [beq_iff_eq] at hp
      simp only [Option.map_some']
      rw [if_neg (by rw [hp]; exact hxl)]

theorem keys_updBlock (c : CfgT) (l : Nat) (f : BasicBlock → BasicBlock) :
    keys (updBlock c l f) = keys c := by
  unfold keys updBlock
  simp only [List.map_map]
  congr 1
  funext p
  by_cases hp : p.1 = l
  · simp [hp]
  · simp [hp]

theorem lookup_eraseKey (c : CfgT) (l : Nat) (x : Nat) :
    lookup (eraseKey c l) x = if x = l then none else lookup c x := by
  unfold lookup eraseKey
  simp only
  by_cases hxl : x = l
  · subst hxl
    rw [if_pos rfl]
    have hnone : (c.m_blocks.filter (fun p => !(p.1 == x))).find? (fun p => p.1 == x) = none := by
      rw [List.find?_eq_none]
      intro p hp
      have := List.of_mem_filter hp
      simp only [Bool.not_eq_true'] at this
      simp [this]
    rw [hnone]
    rfl
  · rw [if_neg hxl]
    induction c.m_blocks with
    | nil => rfl
    | cons p bs ih =>
      rw [List.filter_cons]
      cases hp : (!(p.1 == l)) with
      | true =>
        rw [if_pos rfl, List.find?_cons, List.find?_cons]
        cases hpx : (p.1 == x) with
        | true => rfl
        | false => exact ih
      | false =>
        rw [if_neg (by exact Bool.false_ne_true)]
        have hpl : p.1 = l := by simpa using hp
        have hpx : (p.1 == x) = false := by
          simp only [beq_eq_false_iff_ne, ne_eq, hpl]
          exact fun h => hxl h.symm
        have hstep : ((p :: bs).find? (fun q => q.1 == x)) = bs.find? (fun q => q.1 == x) := by
          rw [List.find?_cons, hpx]
        rw [hstep]
        exact ih

theorem keys_eraseKey (c : CfgT) (l : Nat) :
    keys (eraseKey c l) = (keys c).filter (fun x => !(x == l)) := by
  unfold keys eraseKey
  simp only
  induction c.m_blocks with
  | nil => rfl
  | cons p bs ih =>
    rw [List.filter_cons, List.map_cons, List.filter_cons]
    cases hp : (!(p.1 == l)) with
    | true =>
      rw [if_pos rfl, if_pos rfl, List.map_cons, ih]
    | false =>
      rw [if_neg (by exact Bool.false_ne_true), if_neg (by exact Bool.false_ne_true)]
      exact ih

theorem mem_filter_ne (l : List Nat) (e x : Nat) :
    x ∈ l.filter (fun y => !(y == e)) ↔ x ∈ l ∧ x ≠ e := by
  rw [List.mem_filter]
  simp

theorem mem_remove_adjacent (l : List Nat) (e x : Nat) :
    x ∈ BasicBlock.remove_adjacent l e ↔ x ∈ l ∧ x ≠ e :=
  mem_filter_ne l e x

theorem remove_adjacent_of_not_mem (l : List Nat) (e : Nat) (h : e ∉ l) :
    BasicBlock.remove_adjacent l e = l := by
  unfold BasicBlock.remove_adjacent
  rw [List.filter_eq_self]
  intro x hx
  simp only [Bool.not_eq_true', beq_eq_false_iff_ne, ne_eq]
  exact fun hc => h (hc ▸ hx)

theorem remove_adjacent_nodup (l : List Nat) (e : Nat) (h : l.Nodup) :
    (BasicBlock.remove_adjacent l e).Nodup := List.Nodup.filter _ h

theorem remove_adjacent_length (l : List Nat) (e : Nat) (hnd : l.Nodup) (h : e ∈ l) :
    (BasicBlock.remove_adjacent l e).length + 1 = l.length := by
  unfold BasicBlock.remove_adjacent
  have hperm : ∀ (l' : List Nat), l'.Nodup → e ∈ l' →
      (l'.filter (fun x => !(x == e))).length + 1 = l'.length := by
    intro l'
    induction l' with
    | nil => intro _ h; cases h
    | cons a t ih =>
      intro hnd' hmem
      simp only [List.nodup_cons] at hnd'
      rw [List.filter_cons]
      by_cases ha : a = e
      · rw [if_neg (by simp [ha])]
        have : e ∉ t := ha ▸ hnd'.1
        rw [List.filter_eq_self.mpr ?_]
        · simp
        · intro x hx
          simp only [Bool.not_eq_true', beq_eq_false_iff_ne, ne_eq]
          exact fun hc => this (hc ▸ hx)
      · rw [if_pos (by simp [ha])]
        have hmem' : e ∈ t := by
          rcases List.mem_cons.mp hmem with h | h
          · exact absurd h.symm ha
          · exact h
        simp only [List.length_cons]
        rw [← ih hnd'.2 hmem']
  exact hperm l hnd h

theorem mem_insert_adjacent (l : List Nat) (e x : Nat) :
    x ∈ BasicBlock.insert_adjacent l e ↔ x ∈ l ∨ x = e := by
  unfold BasicBlock.insert_adjacent
  by_cases he : e ∈ l
  · rw [if_pos he]
    constructor
    · exact Or.inl
    · rintro (h | h)
      · exact h
      · exact h ▸ he
  · rw [if_neg he]
    simp

theorem insert_adjacent_nodup (l : List Nat) (e : Nat) (h : l.Nodup) :
    (BasicBlock.insert_adjacent l e).Nodup := by
  unfold BasicBlock.insert_adjacent
  by_cases he : e ∈ l
  · rw [if_pos he]
    exact h
  · rw [if_neg he]
    refine List.Nodup.append h (by simp) ?_
    intro x hx hx'
    have : x = e := by simpa using hx'
    exact he (this ▸ hx)

theorem insert_adjacent_length_not_mem (l : List Nat) (e : Nat) (h : e ∉ l) :
    (BasicBlock.insert_adjacent l e).length = l.length + 1 := by
  unfold BasicBlock.insert_adjacent
  rw [if_neg h]
  simp

/-! ### The two detach folds of `remove` -/
theorem lookup_foldl_detachPred (bid : Nat) : ∀ (ps : List Nat) (c : CfgT) (x : Nat),
    ps.Nodup →
    lookup (ps.foldl (detachPred bid) c) x =
      if x ∈ ps then (lookup c x).map
        (fun b => { b with m_next := BasicBlock.remove_adjacent b.m_next bid })
      else lookup c x := by
  intro ps
  induction ps with
  | nil =>
    intro c x _
    rw [if_neg (by simp)]
    rfl
  | cons p ps ih =>
    intro c x hnd
    simp only [List.nodup_cons] at hnd
    rw [List.foldl_cons, ih (detachPred bid c p) x hnd.2]
    by_cases hx : x = p
    · rw [if_neg (fun h => hnd.1 (hx ▸ h)), if_pos (by simp [hx])]
      unfold detachPred
      rw [lookup_updBlock, if_pos hx, hx]
    · have hlk : lookup (detachPred bid c p) x = lookup c x := by
        unfold detachPred
        rw [lookup_updBlock, if_neg hx]
      by_cases hmem : x ∈ ps
      · rw [if_pos hmem, if_pos (by simp [hmem]), hlk]
      · rw [if_neg hmem, if_neg (by simp [hx, hmem]), hlk]

theorem lookup_foldl_detachSucc (bid : Nat) : ∀ (ss : List Nat) (c : CfgT) (x : Nat),
    ss.Nodup →
    lookup (ss.foldl (detachSucc bid) c) x =
      if x ∈ ss then (lookup c x).map
        (fun b => { b with m_prev := BasicBlock.remove_adjacent b.m_prev bid })
      else lookup c x := by
  intro ss
  induction ss with
  | nil =>
    intro c x _
    rw [if_neg (by simp)]
    rfl
  | cons p ss ih =>
    intro c x hnd
    simp only [List.nodup_cons] at hnd
    rw [List.foldl_cons, ih (detachSucc bid c p) x hnd.2]
    by_cases hx : x = p
    · rw [if_neg (fun h => hnd.1 (hx ▸ h)), if_pos (by simp [hx])]
      unfold detachSucc
      rw [lookup_updBlock, if_pos hx, hx]
    · have hlk : lookup (detachSucc bid c p) x = lookup c x := by
        unfold detachSucc
        rw [lookup_updBlock, if_neg hx]
      by_cases hmem : x ∈ ss
      · rw [if_pos hmem, if_pos (by simp [hmem]), hlk]
      · rw [if_neg hmem, if_neg (by simp [hx, hmem]), hlk]

theorem keys_foldl_detachPred (bid : Nat) : ∀ (ps : List Nat) (c : CfgT),
    keys (ps.foldl (detachPred bid) c) = keys c := by
  intro ps
  induction ps with
  | nil => intro c; rfl
  | cons p ps ih =>
    intro c
    rw [List.foldl_cons, ih]
    exact keys_updBlock c p _

theorem keys_foldl_detachSucc (bid : Nat) : ∀ (ss : List Nat) (c : CfgT),
    keys (ss.foldl (detachSucc bid) c) = keys c := by
  intro ss
  induction ss with
  | nil => intro c; rfl
  | cons p ss ih =>
    intro c
    rw [List.foldl_cons, ih]
    exact keys_updBlock c p _

theorem entry_foldl_detachPred (bid : Nat) : ∀ (ps : List Nat) (c : CfgT),
    (ps.foldl (detachPred bid) c).m_entry = c.m_entry ∧
    (ps.foldl (detachPred bid) c).m_exit = c.m_exit := by
  intro ps
  induction ps with
  | nil => intro c; exact ⟨rfl, rfl⟩
  | cons p ps ih =>
    intro c
    rw [List.foldl_cons]
    exact ih (detachPred bid c p)

theorem entry_foldl_detachSucc (bid : Nat) : ∀ (ss : List Nat) (c : CfgT),
    (ss.foldl (detachSucc bid) c).m_entry = c.m_entry ∧
    (ss.foldl (detachSucc bid) c).m_exit = c.m_exit := by
  intro ss
  induction ss with
  | nil => intro c; exact ⟨rfl, rfl⟩
  | cons p ss ih =>
    intro c
    rw [List.foldl_cons]
    exact ih (detachSucc bid c p)

theorem mem_keys_of_mem (c : CfgT) (p : Nat × BasicBlock) (hp : p ∈ c.m_blocks) :
    p.1 ∈ keys c := List.mem_map.mpr ⟨p, hp, rfl⟩

/-- Well-formedness follows from the `remove` characterization. -/
theorem wf_of_remove_char (c c' : CfgT) (hw : CfgWf c) (l : Nat)
    (hen : c'.m_entry = c.m_entry) (hne : l ≠ c.m_entry)
    (hchar : ∀ x, lookup c' x = if x = l then none else (lookup c x).map (dropNeighbor l))
    (hkeys : keys c' = (keys c).filter (fun x => !(x == l))) : CfgWf c' := by
  have hknd : (c'.m_blocks.map Prod.fst).Nodup := by
    show (keys c').Nodup
    rw [hkeys]
    exact List.Nodup.filter _ hw.keys_nodup
  have hold : ∀ p ∈ c'.m_blocks, p.1 ≠ l ∧
      ∃ b, lookup c p.1 = some b ∧ dropNeighbor l b = p.2 ∧ (p.1, b) ∈ c.m_blocks := by
    intro p hp
    have hp1 : p.1 ∈ keys c' := mem_keys_of_mem c' p hp
    have hpl : p.1 ≠ l := by
      rw [hkeys] at hp1
      have := (mem_filter_ne _ _ _).mp hp1
      exact this.2
    have hlk : lookup c' p.1 = some p.2 := mem_lookup c' p.1 p.2 hknd (by
      cases p
      exact hp)
    rw [hchar p.1, if_neg hpl] at hlk
    obtain ⟨b, hb1, hb2⟩ := Option.map_eq_some'.mp hlk
    exact ⟨hpl, b, hb1, hb2, lookup_mem c p.1 b hb1⟩
  constructor
  · exact hknd
  · intro p hp
    obtain ⟨hpl, b, hb1, hb2, hbm⟩ := hold p hp
    have := hw.label_eq (p.1, b) hbm
    rw [← hb2]
    exact this
  · show c'.m_entry ∈ keys c'
    rw [hen, hkeys]
    refine List.mem_filter.mpr ⟨hw.entry_mem, ?_⟩
    simp only [Bool.not_eq_true', beq_eq_false_iff_ne, ne_eq]
    exact fun h => hne h.symm
  · intro p hp x hx
    obtain ⟨hpl, b, hb1, hb2, hbm⟩ := hold p hp
    rw [← hb2] at hx
    show x ∈ keys c'
    rw [hkeys]
    rcases List.mem_append.mp hx with hx | hx
    · obtain ⟨hx1, hx2⟩ := (mem_remove_adjacent _ _ _).mp hx
      refine List.mem_filter.mpr ⟨hw.closed (p.1, b) hbm x (List.mem_append.mpr (Or.inl hx1)), ?_⟩
      simpa using hx2
    · obtain ⟨hx1, hx2⟩ := (mem_remove_adjacent _ _ _).mp hx
      refine List.mem_filter.mpr ⟨hw.closed (p.1, b) hbm x (List.mem_append.mpr (Or.inr hx1)), ?_⟩
      simpa using hx2
  · intro p hp q hq
    obtain ⟨hpl, bp, hbp1, hbp2, hbpm⟩ := hold p hp
    obtain ⟨hql, bq, hbq1, hbq2, hbqm⟩ := hold q hq
    rw [← hbp2, ← hbq2]
    show q.1 ∈ BasicBlock.remove_adjacent bp.m_next l ↔ p.1 ∈ BasicBlock.remove_adjacent bq.m_prev l
    rw [mem_remove_adjacent, mem_remove_adjacent]
    constructor
    · rintro ⟨h1, -⟩
      exact ⟨(hw.symm (p.1, bp) hbpm (q.1, bq) hbqm).mp h1, hpl⟩
    · rintro ⟨h1, -⟩
      exact ⟨(hw.symm (p.1, bp) hbpm (q.1, bq) hbqm).mpr h1, hql⟩
  · intro p hp
    obtain ⟨hpl, b, hb1, hb2, hbm⟩ := hold p hp
    rw [← hb2]
    obtain ⟨h1, h2⟩ := hw.adj_nodup (p.1, b) hbm
    exact ⟨remove_adjacent_nodup _ _ h1, remove_adjacent_nodup _ _ h2⟩

theorem cfg_remove_spec (c : CfgT) (l : Nat) (hw : CfgWf c) (hne : l ≠ c.m_entry)
    (hnx : c.m_exit ≠ some l) (bb : BasicBlock) (hb : lookup c l = some bb) :
    ∃ c', remove c l = .ok c' ∧
      c'.m_entry = c.m_entry ∧ c'.m_exit = c.m_exit ∧
      (∀ x, lookup c' x = if x = l then none else (lookup c x).map (dropNeighbor l)) ∧
      keys c' = (keys c).filter (fun x => !(x == l)) ∧
      CfgWf c' := by
  have hbbmem : (l, bb) ∈ c.m_blocks := lookup_mem c l bb hb
  have hadj := hw.adj_nodup (l, bb) hbbmem
  have hnd1 : (bb.m_prev.filter (fun x => !(x == l))).Nodup := List.Nodup.filter _ hadj.1
  have hnd2 : (bb.m_next.filter (fun x => !(x == l))).Nodup := List.Nodup.filter _ hadj.2
  have hall1 : (bb.m_prev.filter (fun x => !(x == l))).all
      (fun x => (lookup c x).isSome) = true := by
    rw [List.all_eq_true]
    intro x hx
    have hx' : x ∈ bb.m_prev := ((mem_filter_ne _ _ _).mp hx).1
    exact (lookup_isSome_iff c x).mpr
      (hw.closed (l, bb) hbbmem x (List.mem_append.mpr (Or.inl hx')))
  have hall2 : (bb.m_next.filter (fun x => !(x == l))).all
      (fun x => (lookup c x).isSome) = true := by
    rw [List.all_eq_true]
    intro x hx
    have hx' : x ∈ bb.m_next := ((mem_filter_ne _ _ _).mp hx).1
    exact (lookup_isSome_iff c x).mpr
      (hw.closed (l, bb) hbbmem x (List.mem_append.mpr (Or.inr hx')))
  have hguard : ((bb.m_prev.filter (fun x => !(x == l))).all (fun x => (lookup c x).isSome) &&
      (bb.m_next.filter (fun x => !(x == l))).all (fun x => (lookup c x).isSome)) = true := by
    rw [hall1, hall2]
    rfl
  have hok0 : removeCore c l bb = .ok (eraseKey
      ((bb.m_next.filter (fun x => !(x == l))).foldl (detachSucc l)
        ((bb.m_prev.filter (fun x => !(x == l))).foldl (detachPred l) c)) l) := by
    unfold removeCore
    rw [hguard]
    rfl
  generalize hC : eraseKey
      ((bb.m_next.filter (fun x => !(x == l))).foldl (detachSucc l)
        ((bb.m_prev.filter (fun x => !(x == l))).foldl (detachPred l) c)) l = C' at hok0
  have hok : remove c l = .ok C' := by
    have hstep : remove c l = removeCore c l bb := by
      unfold remove
      rw [if_neg hne, if_neg hnx, hb]
    rw [hstep, hok0]
  have hen : C'.m_entry = c.m_entry := by
    rw [← hC]
    show ((_ : List Nat).foldl (detachSucc l) _).m_entry = c.m_entry
    rw [(entry_foldl_detachSucc l _ _).1, (entry_foldl_detachPred l _ _).1]
  have hex : C'.m_exit = c.m_exit := by
    rw [← hC]
    show ((_ : List Nat).foldl (detachSucc l) _).m_exit = c.m_exit
    rw [(entry_foldl_detachSucc l _ _).2, (entry_foldl_detachPred l _ _).2]
  have hchar : ∀ x, lookup C' x = if x = l then none
      else (lookup c x).map (dropNeighbor l) := by
    intro x
    rw [← hC, lookup_eraseKey]
    by_cases hxl : x = l
    · rw [if_pos hxl, if_pos hxl]
    · rw [if_neg hxl, if_neg hxl]
      rw [lookup_foldl_detachSucc l _ _ x hnd2, lookup_foldl_detachPred l _ _ x hnd1]
      cases hcx : lookup c x with
      | none =>
        rw [if_neg ?hns, if_neg ?hnp]
        case hnp =>
          intro hmem
          have hx' : x ∈ bb.m_prev := ((mem_filter_ne _ _ _).mp hmem).1
          have hs := (lookup_isSome_iff c x).mpr
            (hw.closed (l, bb) hbbmem x (List.mem_append.mpr (Or.inl hx')))
          rw [hcx] at hs
          cases hs
        case hns =>
          intro hmem
          have hx' : x ∈ bb.m_next := ((mem_filter_ne _ _ _).mp hmem).1
          have hs := (lookup_isSome_iff c x).mpr
            (hw.closed (l, bb) hbbmem x (List.mem_append.mpr (Or.inr hx')))
          rw [hcx] at hs
          cases hs
        rfl
      | some b =>
        have hxmem : (x, b) ∈ c.m_blocks := lookup_mem c x b hcx
        have hsym1 : l ∈ b.m_next ↔ x ∈ bb.m_prev := hw.symm (x, b) hxmem (l, bb) hbbmem
        have hsym2 : x ∈ bb.m_next ↔ l ∈ b.m_prev := hw.symm (l, bb) hbbmem (x, b) hxmem
        by_cases hs : x ∈ bb.m_next
        · rw [if_pos ((mem_filter_ne _ _ _).mpr ⟨hs, hxl⟩)]
          by_cases hp : x ∈ bb.m_prev
          · rw [if_pos ((mem_filter_ne _ _ _).mpr ⟨hp, hxl⟩)]
            rfl
          · rw [if_neg (fun hmem => hp ((mem_filter_ne _ _ _).mp hmem).1)]
            simp only [Option.map_some', Option.some.injEq]
            unfold dropNeighbor
            rw [remove_adjacent_of_not_mem b.m_next l (fun hc => hp (hsym1.mp hc))]
        · rw [if_neg (fun hmem => hs ((mem_filter_ne _ _ _).mp hmem).1)]
          by_cases hp : x ∈ bb.m_prev
          · rw [if_pos ((mem_filter_ne _ _ _).mpr ⟨hp, hxl⟩)]
            simp only [Option.map_some', Option.some.injEq]
            unfold dropNeighbor
            rw [remove_adjacent_of_not_mem b.m_prev l (fun hc => hs (hsym2.mpr hc))]
          · rw [if_neg (fun hmem => hp ((mem_filter_ne _ _ _).mp hmem).1)]
            simp only [Option.map_some', Option.some.injEq]
            unfold dropNeighbor
            rw [remove_adjacent_of_not_mem b.m_next l (fun hc => hp (hsym1.mp hc)),
                remove_adjacent_of_not_mem b.m_prev l (fun hc => hs (hsym2.mpr hc))]
  have hkeys : keys C' = (keys c).filter (fun x => !(x == l)) := by
    rw [← hC, keys_eraseKey, keys_foldl_detachSucc, keys_foldl_detachPred]
  exact ⟨C', hok, hen, hex, hchar, hkeys, wf_of_remove_char c C' hw l hen hne hchar hkeys⟩

theorem remove_ok_inv (c : CfgT) (l : Nat) (c1 : CfgT) (h : remove c l = .ok c1) :
    l ≠ c.m_entry ∧ c.m_exit ≠ some l ∧ ∃ bb, lookup c l = some bb := by
  unfold remove at h
  by_cases h1 : l = c.m_entry
  · rw [if_pos h1] at h
    cases h
  · rw [if_neg h1] at h
    by_cases h2 : c.m_exit = some l
    · rw [if_pos h2] at h
      cases h
    · rw [if_neg h2] at h
      cases hlk : lookup c l with
      | none =>
        rw [hlk] at h
        cases h
      | some bb => exact ⟨h1, h2, bb, rfl⟩

theorem contains_iff_mem (l : List Nat) (x : Nat) : l.contains x = true ↔ x ∈ l := by
  simp

theorem filter_remove_contains (l : List Nat) (d : Nat) (ds : List Nat) :
    (BasicBlock.remove_adjacent l d).filter (fun z => !(ds.contains z)) =
      l.filter (fun z => !((d :: ds).contains z)) := by
  unfold BasicBlock.remove_adjacent
  rw [List.filter_filter]
  congr 1
  funext z
  rw [List.contains_cons]
  cases hz : (z == d) <;> cases hm : ds.contains z <;> rfl

theorem dropAll_nil (b : BasicBlock) : dropAll [] b = b := by
  unfold dropAll
  have h1 : b.m_prev.filter (fun z => !(([] : List Nat).contains z)) = b.m_prev :=
    List.filter_eq_self.mpr (fun x _ => rfl)
  have h2 : b.m_next.filter (fun z => !(([] : List Nat).contains z)) = b.m_next :=
    List.filter_eq_self.mpr (fun x _ => rfl)
  rw [h1, h2]

theorem removeList_spec : ∀ (ds : List Nat) (c c' : CfgT), CfgWf c →
    removeList c ds = .ok c' →
    CfgWf c' ∧ c'.m_entry = c.m_entry ∧ c'.m_exit = c.m_exit ∧
    (∀ x, lookup c' x = if x ∈ ds then none else (lookup c x).map (dropAll ds)) ∧
    (∀ x, x ∈ keys c' ↔ x ∈ keys c ∧ x ∉ ds) ∧
    (∀ d ∈ ds, d ≠ c.m_entry) := by
  intro ds
  induction ds with
  | nil =>
    intro c c' hw h
    have hcc : c = c' := by
      unfold removeList at h
      cases h
      rfl
    subst hcc
    refine ⟨hw, rfl, rfl, ?_, ?_, ?_⟩
    · intro x
      rw [if_neg (by simp)]
      cases hlk : lookup c x with
      | none => rfl
      | some b =>
        simp only [Option.map_some', Option.some.injEq]
        rw [dropAll_nil]
    · intro x
      simp
    · intro d hd
      cases hd
  | cons d ds ih =>
    intro c c' hw h
    have hstep : removeList c (d :: ds) =
        match remove c d with
        | .error e => .error e
        | .ok c1 => removeList c1 ds := rfl
    rw [hstep] at h
    cases hrm : remove c d with
    | error e =>
      rw [hrm] at h
      cases h
    | ok c1 =>
      rw [hrm] at h
      obtain ⟨hne, hnx, bd, hbd⟩ := remove_ok_inv c d c1 hrm
      obtain ⟨C'', hok'', hen'', hex'', hchar'', hkeys'', hwf''⟩ :=
        cfg_remove_spec c d hw hne hnx bd hbd
      have hc1 : c1 = C'' := by
        rw [hrm] at hok''
        cases hok''
        rfl
      subst hc1
      obtain ⟨hw', hen', hex', hchar', hkeys', hds'⟩ := ih c1 c' hwf'' h
      refine ⟨hw', by rw [hen', hen''], by rw [hex', hex''], ?_, ?_, ?_⟩
      · intro x
        rw [hchar' x]
        by_cases hx1 : x ∈ ds
        · rw [if_pos hx1, if_pos (by simp [hx1])]
        · rw [if_neg hx1]
          rw [hchar'' x]
          by_cases hx2 : x = d
          · rw [if_pos hx2, if_pos (by simp [hx2])]
            rfl
          · rw [if_neg hx2, if_neg (by simp [hx2, hx1])]
            cases hlk : lookup c x with
            | none => rfl
            | some b =>
              simp only [Option.map_some', Option.some.injEq]
              unfold dropAll dropNeighbor
              simp only
              rw [filter_remove_contains b.m_prev d ds, filter_remove_contains b.m_next d ds]
      · intro x
        rw [hkeys' x]
        constructor
        · rintro ⟨h1, h2⟩
          rw [hkeys''] at h1
          obtain ⟨h3, h4⟩ := (mem_filter_ne _ _ _).mp h1
          refine ⟨h3, ?_⟩
          simp only [List.mem_cons, not_or]
          exact ⟨h4, h2⟩
        · rintro ⟨h1, h2⟩
          simp only [List.mem_cons, not_or] at h2
          refine ⟨?_, h2.2⟩
          rw [hkeys'']
          exact (mem_filter_ne _ _ _).mpr ⟨h1, h2.1⟩
      · intro d' hd'
        rcases List.mem_cons.mp hd' with h1 | h1
        · exact h1 ▸ hne
        · have := hds' d' h1
          rw [hen''] at this
          exact this

/-! ### Reachability and the marking pass -/
theorem ReachFrom_trans (c : CfgT) (a b d : Nat) (h1 : ReachFrom c a b)
    (h2 : ReachFrom c b d) : ReachFrom c a d := by
  induction h2 with
  | refl => exact h1
  | step x y bx hr hlk hmem ih => exact .step x y bx ih hlk hmem

theorem reach_mem_closed (c : CfgT) (v : List Nat) (src : Nat)
    (hcl : ∀ x ∈ v, ∀ bx, lookup c x = some bx → ∀ y ∈ bx.m_next, y ∈ v)
    (hsrc : src ∈ v) : ∀ z, ReachFrom c src z → z ∈ v := by
  intro z h
  induction h with
  | refl => exact hsrc
  | step x y bx hr hlk hmem ih => exact hcl x ih bx hlk y hmem

theorem markAlive_sound (src : Nat) : ∀ (fuel : Nat) (c : CfgT) (visited : List Nat)
    (cur : Nat) (v' : List Nat),
    markAlive fuel c visited cur = .ok v' →
    (∀ x ∈ visited, ReachFrom c src x) → ReachFrom c src cur →
    (∀ x ∈ v', ReachFrom c src x) ∧ (∀ x ∈ visited, x ∈ v') ∧ cur ∈ v' := by
  intro fuel
  induction fuel with
  | zero =>
    intro c visited cur v' h
    simp only [markAlive] at h
    cases h
  | succ fuel ih =>
    have ihList : ∀ (ns : List Nat) (c : CfgT) (visited : List Nat) (v' : List Nat),
        markAliveList (markAlive fuel) c visited ns = .ok v' →
        (∀ x ∈ visited, ReachFrom c src x) → (∀ n ∈ ns, ReachFrom c src n) →
        (∀ x ∈ v', ReachFrom c src x) ∧ (∀ x ∈ visited, x ∈ v') ∧ (∀ n ∈ ns, n ∈ v') := by
      intro ns
      induction ns with
      | nil =>
        intro c visited v' h hv hn
        have hvv : visited = v' := by
          unfold markAliveList at h
          cases h
          rfl
        subst hvv
        exact ⟨hv, fun x hx => hx, fun n hn' => absurd hn' (by simp)⟩
      | cons n ns ihn =>
        intro c visited v' h hv hn
        have hstep : markAliveList (markAlive fuel) c visited (n :: ns) =
            match markAlive fuel c visited n with
            | .error e => .error e
            | .ok v1 => markAliveList (markAlive fuel) c v1 ns := rfl
        rw [hstep] at h
        cases hm : markAlive fuel c visited n with
        | error e =>
          rw [hm] at h
          cases h
        | ok v1 =>
          rw [hm] at h
          obtain ⟨hs1, hs2, hs3⟩ := ih c visited n v1 hm hv (hn n (by simp))
          obtain ⟨ht1, ht2, ht3⟩ := ihn c v1 v' h hs1
            (fun n' hn' => hn n' (List.mem_cons_of_mem n hn'))
          refine ⟨ht1, fun x hx => ht2 x (hs2 x hx), ?_⟩
          intro n' hn'
          rcases List.mem_cons.mp hn' with h1 | h1
          · exact h1 ▸ ht2 n hs3
          · exact ht3 n' h1
    intro c visited cur v' h hv hcur
    simp only [markAlive] at h
    by_cases hin : cur ∈ visited
    · rw [if_pos hin] at h
      cases h
      exact ⟨hv, fun x hx => hx, hin⟩
    · rw [if_neg hin] at h
      cases hlk : lookup c cur with
      | none =>
        rw [hlk] at h
        cases h
      | some bb =>
        rw [hlk] at h
        have hv1 : ∀ x ∈ cur :: visited, ReachFrom c src x := by
          intro x hx
          rcases List.mem_cons.mp hx with h1 | h1
          · exact h1 ▸ hcur
          · exact hv x h1
        have hnext : ∀ n ∈ bb.m_next, ReachFrom c src n :=
          fun n hn => .step cur n bb hcur hlk hn
        obtain ⟨h1, h2, h3⟩ := ihList bb.m_next c (cur :: visited) v' h hv1 hnext
        exact ⟨h1, fun x hx => h2 x (List.mem_cons_of_mem cur hx), h2 cur (by simp)⟩

theorem markAlive_closed : ∀ (fuel : Nat) (c : CfgT) (visited : List Nat)
    (cur : Nat) (E : List Nat) (v' : List Nat),
    markAlive fuel c visited cur = .ok v' →
    (∀ x ∈ visited, ∀ bx, lookup c x = some bx → ∀ y ∈ bx.m_next,
      y ∈ visited ∨ y = cur ∨ y ∈ E) →
    (∀ x ∈ v', ∀ bx, lookup c x = some bx → ∀ y ∈ bx.m_next, y ∈ v' ∨ y ∈ E) ∧
    (∀ x ∈ visited, x ∈ v') ∧ cur ∈ v' := by
  intro fuel
  induction fuel with
  | zero =>
    intro c visited cur E v' h
    simp only [markAlive] at h
    cases h
  | succ fuel ih =>
    have ihList : ∀ (ns : List Nat) (c : CfgT) (visited : List Nat) (E : List Nat)
        (v' : List Nat),
        markAliveList (markAlive fuel) c visited ns = .ok v' →
        (∀ x ∈ visited, ∀ bx, lookup c x = some bx → ∀ y ∈ bx.m_next,
          y ∈ visited ∨ y ∈ ns ++ E) →
        (∀ x ∈ v', ∀ bx, lookup c x = some bx → ∀ y ∈ bx.m_next, y ∈ v' ∨ y ∈ E) ∧
        (∀ x ∈ visited, x ∈ v') ∧ (∀ n ∈ ns, n ∈ v') := by
      intro ns
      induction ns with
      | nil =>
        intro c visited E v' h hv
        have hvv : visited = v' := by
          unfold markAliveList at h
          cases h
          rfl
        subst hvv
        refine ⟨?_, fun x hx => hx, fun n hn' => absurd hn' (by simp)⟩
        intro x hx bx hbx y hy
        rcases hv x hx bx hbx y hy with h1 | h1
        · exact Or.inl h1
        · exact Or.inr (by simpa using h1)
      | cons n ns ihn =>
        intro c visited E v' h hv
        have hstep : markAliveList (markAlive fuel) c visited (n :: ns) =
            match markAlive fuel c visited n with
            | .error e => .error e
            | .ok v1 => markAliveList (markAlive fuel) c v1 ns := rfl
        rw [hstep] at h
        cases hm : markAlive fuel c visited n with
        | error e =>
          rw [hm] at h
          cases h
        | ok v1 =>
          rw [hm] at h
          obtain ⟨hs1, hs2, hs3⟩ := ih c visited n (ns ++ E) v1 hm (by
            intro x hx bx hbx y hy
            rcases hv x hx bx hbx y hy with h1 | h1
            · exact Or.inl h1
            · rcases List.mem_cons.mp (by simpa using h1 : y ∈ n :: (ns ++ E)) with h2 | h2
              · exact Or.inr (Or.inl h2)
              · exact Or.inr (Or.inr h2))
          obtain ⟨ht1, ht2, ht3⟩ := ihn c v1 E v' h hs1
          refine ⟨ht1, fun x hx => ht2 x (hs2 x hx), ?_⟩
          intro n' hn'
          rcases List.mem_cons.mp hn' with h1 | h1
          · exact h1 ▸ ht2 n hs3
          · exact ht3 n' h1
    intro c visited cur E v' h hv
    simp only [markAlive] at h
    by_cases hin : cur ∈ visited
    · rw [if_pos hin] at h
      cases h
      refine ⟨?_, fun x hx => hx, hin⟩
      intro x hx bx hbx y hy
      rcases hv x hx bx hbx y hy with h1 | h1 | h1
      · exact Or.inl h1
      · exact Or.inl (h1 ▸ hin)
      · exact Or.inr h1
    · rw [if_neg hin] at h
      cases hlk : lookup c cur with
      | none =>
        rw [hlk] at h
        cases h
      | some bb =>
        rw [hlk] at h
        obtain ⟨h1, h2, h3⟩ := ihList bb.m_next c (cur :: visited) E v' h (by
          intro x hx bx hbx y hy
          rcases List.mem_cons.mp hx with hx1 | hx1
          · subst hx1
            rw [hlk] at hbx
            cases hbx
            exact Or.inr (List.mem_append.mpr (Or.inl hy))
          · rcases hv x hx1 bx hbx y hy with hh | hh | hh
            · exact Or.inl (List.mem_cons_of_mem cur hh)
            · exact Or.inl (hh ▸ List.mem_cons_self cur visited)
            · exact Or.inr (List.mem_append.mpr (Or.inr hh)))
        exact ⟨h1, fun x hx => h2 x (List.mem_cons_of_mem cur hx), h2 cur (by simp)⟩

theorem removeUnreachable_spec (fuel : Nat) (c c' : CfgT) (hw : CfgWf c)
    (h : removeUnreachable fuel c = .ok c') :
    CfgWf c' ∧ c'.m_entry = c.m_entry ∧ c'.m_exit = c.m_exit ∧
    (∀ x ∈ keys c', x ∈ keys c) ∧ AllReach c' := by
  unfold removeUnreachable at h
  cases hma : markAlive fuel c [] c.m_entry with
  | error e =>
    rw [hma] at h
    cases h
  | ok alive =>
    rw [hma] at h
    have h2 : removeList c ((keys c).filter (fun l => !(alive.contains l))) = .ok c' := h
    obtain ⟨hsound, -, hentry_in⟩ := markAlive_sound c.m_entry fuel c [] c.m_entry alive hma
      (by intro x hx; cases hx) .refl
    obtain ⟨hclosed, -, -⟩ := markAlive_closed fuel c [] c.m_entry [] alive hma
      (by intro x hx; cases hx)
    have hcomplete : ∀ z, ReachFrom c c.m_entry z → z ∈ alive := by
      refine reach_mem_closed c alive c.m_entry ?_ hentry_in
      intro x hx bx hbx y hy
      rcases hclosed x hx bx hbx y hy with h1 | h1
      · exact h1
      · cases h1
    generalize hD : (keys c).filter (fun l => !(alive.contains l)) = D at h2
    have hmemD : ∀ z, z ∈ D ↔ (z ∈ keys c ∧ z ∉ alive) := by
      intro z
      rw [← hD, List.mem_filter]
      simp only [Bool.not_eq_true']
      constructor
      · rintro ⟨h1, h2⟩
        refine ⟨h1, fun hc => ?_⟩
        rw [(contains_iff_mem _ _).mpr hc] at h2
        cases h2
      · rintro ⟨h1, h2⟩
        refine ⟨h1, ?_⟩
        cases hc : alive.contains z with
        | true => exact absurd ((contains_iff_mem _ _).mp hc) h2
        | false => rfl
    have hnd : ∀ z, z ∈ alive → z ∉ D := by
      intro z hz hmem
      exact ((hmemD z).mp hmem).2 hz
    obtain ⟨hw', hen', hex', hchar', hkeys', hds'⟩ := removeList_spec D c c' hw h2
    refine ⟨hw', hen', hex', ?_, ?_⟩
    · intro x hx
      exact ((hkeys' x).mp hx).1
    · intro l hl
      obtain ⟨hl1, hl2⟩ := (hkeys' l).mp hl
      have hlal : l ∈ alive := by
        by_contra hno
        exact hl2 ((hmemD l).mpr ⟨hl1, hno⟩)
      have htrans : ∀ z, ReachFrom c c.m_entry z → ReachFrom c' c.m_entry z := by
        intro z hz
        induction hz with
        | refl => exact .refl
        | step x y bx hr hlk hmem ihz =>
          have hxal : x ∈ alive := hcomplete x hr
          have hyal : y ∈ alive := hcomplete y (.step x y bx hr hlk hmem)
          have hlk' : lookup c' x = some (dropAll D bx) := by
            rw [hchar' x, if_neg (hnd x hxal), hlk]
            rfl
          refine .step x y _ ihz hlk' ?_
          show y ∈ (dropAll D bx).m_next
          unfold dropAll
          simp only
          refine List.mem_filter.mpr ⟨hmem, ?_⟩
          have hyc : D.contains y = false := by
            cases hc : D.contains y with
            | true => exact absurd ((contains_iff_mem _ _).mp hc) (hnd y hyal)
            | false => rfl
          rw [hyc]
          rfl
      rw [← hen'] at htrans
      exact htrans l (by rw [hen']; exact hsound l hlal)

/-! ### Backward marking and `remove_useless_blocks` -/
theorem ReachBack_trans (c : CfgT) (e m x : Nat) (h1 : ReachBack c e m)
    (h2 : ReachBack c m x) : ReachBack c e x := by
  induction h2 with
  | refl => exact h1
  | step a b ba hr hlk hmem ih => exact .step a b ba ih hlk hmem

theorem reachback_mem_closed (c : CfgT) (v : List Nat) (e : Nat)
    (hcl : ∀ x ∈ v, ∀ bx, lookup c x = some bx → ∀ y ∈ bx.m_prev, y ∈ v)
    (he : e ∈ v) : ∀ z, ReachBack c e z → z ∈ v := by
  intro z h
  induction h with
  | refl => exact he
  | step x y bx hr hlk hmem ih => exact hcl x ih bx hlk y hmem

/-- Under well-formedness, backward reachability is forward reachability
with the endpoints swapped. -/
theorem reachback_to_reachfrom (c : CfgT) (hw : CfgWf c) (e x : Nat)
    (h : ReachBack c e x) : ReachFrom c x e := by
  induction h with
  | refl => exact .refl
  | step a b ba hr hlk hmem ih =>
    have hamem : (a, ba) ∈ c.m_blocks := lookup_mem c a ba hlk
    have hbk : b ∈ keys c :=
      hw.closed (a, ba) hamem b (List.mem_append.mpr (Or.inl hmem))
    obtain ⟨bbk, hbbk⟩ := Option.isSome_iff_exists.mp ((lookup_isSome_iff c b).mpr hbk)
    have hbmem : (b, bbk) ∈ c.m_blocks := lookup_mem c b bbk hbbk
    have hedge : a ∈ bbk.m_next := (hw.symm (b, bbk) hbmem (a, ba) hamem).mpr hmem
    exact ReachFrom_trans c b a e (.step b a bbk .refl hbbk hedge) ih

theorem reachfrom_to_reachback (c : CfgT) (hw : CfgWf c) (x : Nat) :
    ∀ y, ReachFrom c x y → ReachBack c y x := by
  intro y h
  induction h with
  | refl => exact .refl
  | step z y bz hr hlk hmem ih =>
    have hzmem : (z, bz) ∈ c.m_blocks := lookup_mem c z bz hlk
    have hyk : y ∈ keys c :=
      hw.closed (z, bz) hzmem y (List.mem_append.mpr (Or.inr hmem))
    obtain ⟨bby, hbby⟩ := Option.isSome_iff_exists.mp ((lookup_isSome_iff c y).mpr hyk)
    have hymem : (y, bby) ∈ c.m_blocks := lookup_mem c y bby hbby
    have hedge : z ∈ bby.m_prev := (hw.symm (z, bz) hzmem (y, bby) hymem).mp hmem
    exact ReachBack_trans c y z x (.step y z bby .refl hbby hedge) ih

theorem markCoAlive_sound (e : Nat) : ∀ (fuel : Nat) (c : CfgT) (visited : List Nat)
    (cur : Nat) (v' : List Nat),
    markCoAlive fuel c visited cur = .ok v' →
    (∀ x ∈ visited, ReachBack c e x) → ReachBack c e cur →
    (∀ x ∈ v', ReachBack c e x) ∧ (∀ x ∈ visited, x ∈ v') ∧ cur ∈ v' := by
  intro fuel
  induction fuel with
  | zero =>
    intro c visited cur v' h
    simp only [markCoAlive] at h
    cases h
  | succ fuel ih =>
    have ihList : ∀ (ns : List Nat) (c : CfgT) (visited : List Nat) (v' : List Nat),
        markAliveList (markCoAlive fuel) c visited ns = .ok v' →
        (∀ x ∈ visited, ReachBack c e x) → (∀ n ∈ ns, ReachBack c e n) →
        (∀ x ∈ v', ReachBack c e x) ∧ (∀ x ∈ visited, x ∈ v') ∧ (∀ n ∈ ns, n ∈ v') := by
      intro ns
      induction ns with
      | nil =>
        intro c visited v' h hv hn
        have hvv : visited = v' := by
          unfold markAliveList at h
          cases h
          rfl
        subst hvv
        exact ⟨hv, fun x hx => hx, fun n hn' => absurd hn' (by simp)⟩
      | cons n ns ihn =>
        intro c visited v' h hv hn
        have hstep : markAliveList (markCoAlive fuel) c visited (n :: ns) =
            match markCoAlive fuel c visited n with
            | .error er => .error er
            | .ok v1 => markAliveList (markCoAlive fuel) c v1 ns := rfl
        rw [hstep] at h
        cases hm : markCoAlive fuel c visited n with
        | error er =>
          rw [hm] at h
          cases h
        | ok v1 =>
          rw [hm] at h
          obtain ⟨hs1, hs2, hs3⟩ := ih c visited n v1 hm hv (hn n (by simp))
          obtain ⟨ht1, ht2, ht3⟩ := ihn c v1 v' h hs1
            (fun n' hn' => hn n' (List.mem_cons_of_mem n hn'))
          refine ⟨ht1, fun x hx => ht2 x (hs2 x hx), ?_⟩
          intro n' hn'
          rcases List.mem_cons.mp hn' with h1 | h1
          · exact h1 ▸ ht2 n hs3
          · exact ht3 n' h1
    intro c visited cur v' h hv hcur
    simp only [markCoAlive] at h
    by_cases hin : cur ∈ visited
    · rw [if_pos hin] at h
      cases h
      exact ⟨hv, fun x hx => hx, hin⟩
    · rw [if_neg hin] at h
      cases hlk : lookup c cur with
      | none =>
        rw [hlk] at h
        cases h
      | some bb =>
        rw [hlk] at h
        have hv1 : ∀ x ∈ cur :: visited, ReachBack c e x := by
          intro x hx
          rcases List.mem_cons.mp hx with h1 | h1
          · exact h1 ▸ hcur
          · exact hv x h1
        have hprev : ∀ n ∈ bb.m_prev, ReachBack c e n :=
          fun n hn => .step cur n bb hcur hlk hn
        obtain ⟨h1, h2, h3⟩ := ihList bb.m_prev c (cur :: visited) v' h hv1 hprev
        exact ⟨h1, fun x hx => h2 x (List.mem_cons_of_mem cur hx), h2 cur (by simp)⟩

theorem markCoAlive_closed : ∀ (fuel : Nat) (c : CfgT) (visited : List Nat)
    (cur : Nat) (E : List Nat) (v' : List Nat),
    markCoAlive fuel c visited cur = .ok v' →
    (∀ x ∈ visited, ∀ bx, lookup c x = some bx → ∀ y ∈ bx.m_prev,
      y ∈ visited ∨ y = cur ∨ y ∈ E) →
    (∀ x ∈ v', ∀ bx, lookup c x = some bx → ∀ y ∈ bx.m_prev, y ∈ v' ∨ y ∈ E) ∧
    (∀ x ∈ visited, x ∈ v') ∧ cur ∈ v' := by
  intro fuel
  induction fuel with
  | zero =>
    intro c visited cur E v' h
    simp only [markCoAlive] at h
    cases h
  | succ fuel ih =>
    have ihList : ∀ (ns : List Nat) (c : CfgT) (visited : List Nat) (E : List Nat)
        (v' : List Nat),
        markAliveList (markCoAlive fuel) c visited ns = .ok v' →
        (∀ x ∈ visited, ∀ bx, lookup c x = some bx → ∀ y ∈ bx.m_prev,
          y ∈ visited ∨ y ∈ ns ++ E) →
        (∀ x ∈ v', ∀ bx, lookup c x = some bx → ∀ y ∈ bx.m_prev, y ∈ v' ∨ y ∈ E) ∧
        (∀ x ∈ visited, x ∈ v') ∧ (∀ n ∈ ns, n ∈ v') := by
      intro ns
      induction ns with
      | nil =>
        intro c visited E v' h hv
        have hvv : visited = v' := by
          unfold markAliveList at h
          cases h
          rfl
        subst hvv
        refine ⟨?_, fun x hx => hx, fun n hn' => absurd hn' (by simp)⟩
        intro x hx bx hbx y hy
        rcases hv x hx bx hbx y hy with h1 | h1
        · exact Or.inl h1
        · exact Or.inr (by simpa using h1)
      | cons n ns ihn =>
        intro c visited E v' h hv
        have hstep : markAliveList (markCoAlive fuel) c visited (n :: ns) =
            match markCoAlive fuel c visited n with
            | .error er => .error er
            | .ok v1 => markAliveList (markCoAlive fuel) c v1 ns := rfl
        rw [hstep] at h
        cases hm : markCoAlive fuel c visited n with
        | error er =>
          rw [hm] at h
          cases h
        | ok v1 =>
          rw [hm] at h
          obtain ⟨hs1, hs2, hs3⟩ := ih c visited n (ns ++ E) v1 hm (by
            intro x hx bx hbx y hy
            rcases hv x hx bx hbx y hy with h1 | h1
            · exact Or.inl h1
            · rcases List.mem_cons.mp (by simpa using h1 : y ∈ n :: (ns ++ E)) with h2 | h2
              · exact Or.inr (Or.inl h2)
              · exact Or.inr (Or.inr h2))
          obtain ⟨ht1, ht2, ht3⟩ := ihn c v1 E v' h hs1
          refine ⟨ht1, fun x hx => ht2 x (hs2 x hx), ?_⟩
          intro n' hn'
          rcases List.mem_cons.mp hn' with h1 | h1
          · exact h1 ▸ ht2 n hs3
          · exact ht3 n' h1
    intro c visited cur E v' h hv
    simp only [markCoAlive] at h
    by_cases hin : cur ∈ visited
    · rw [if_pos hin] at h
      cases h
      refine ⟨?_, fun x hx => hx, hin⟩
      intro x hx bx hbx y hy
      rcases hv x hx bx hbx y hy with h1 | h1 | h1
      · exact Or.inl h1
      · exact Or.inl (h1 ▸ hin)
      · exact Or.inr h1
    · rw [if_neg hin] at h
      cases hlk : lookup c cur with
      | none =>
        rw [hlk] at h
        cases h
      | some bb =>
        rw [hlk] at h
        obtain ⟨h1, h2, h3⟩ := ihList bb.m_prev c (cur :: visited) E v' h (by
          intro x hx bx hbx y hy
          rcases List.mem_cons.mp hx with hx1 | hx1
          · subst hx1
            rw [hlk] at hbx
            cases hbx
            exact Or.inr (List.mem_append.mpr (Or.inl hy))
          · rcases hv x hx1 bx hbx y hy with hh | hh | hh
            · exact Or.inl (List.mem_cons_of_mem cur hh)
            · exact Or.inl (hh ▸ List.mem_cons_self cur visited)
            · exact Or.inr (List.mem_append.mpr (Or.inr hh)))
        exact ⟨h1, fun x hx => h2 x (List.mem_cons_of_mem cur hx), h2 cur (by simp)⟩

theorem removeUseless_spec (fuel : Nat) (c c' : CfgT) (hw : CfgWf c)
    (h : removeUseless fuel c = .ok c') :
    CfgWf c' ∧ c'.m_entry = c.m_entry ∧ c'.m_exit = c.m_exit ∧
    (∀ x ∈ keys c', x ∈ keys c) ∧
    (AllReach c → AllReach c') ∧
    (∀ e, c.m_exit = some e → AllReachExit c' e) := by
  unfold removeUseless at h
  cases hex : c.m_exit with
  | none =>
    rw [hex] at h
    cases h
    refine ⟨hw, rfl, hex, fun x hx => hx, fun hh => hh, ?_⟩
    intro e he
    cases he
  | some e =>
    rw [hex] at h
    have h1 : (match markCoAlive fuel c [] e with
        | .error er => (.error er : Except String CfgT)
        | .ok coalive =>
          removeList c ((keys c).filter (fun l => !(coalive.contains l)))) = .ok c' := h
    cases hmc : markCoAlive fuel c [] e with
    | error er =>
      rw [hmc] at h1
      cases h1
    | ok coalive =>
      rw [hmc] at h1
      have h2 : removeList c ((keys c).filter (fun l => !(coalive.contains l))) = .ok c' := h1
      obtain ⟨hsound, -, he_in⟩ := markCoAlive_sound e fuel c [] e coalive hmc
        (by intro x hx; cases hx) .refl
      obtain ⟨hclosed, -, -⟩ := markCoAlive_closed fuel c [] e [] coalive hmc
        (by intro x hx; cases hx)
      have hcomplete : ∀ z, ReachBack c e z → z ∈ coalive := by
        refine reachback_mem_closed c coalive e ?_ he_in
        intro x hx bx hbx y hy
        rcases hclosed x hx bx hbx y hy with h1 | h1
        · exact h1
        · cases h1
      generalize hD : (keys c).filter (fun l => !(coalive.contains l)) = D at h2
      have hmemD : ∀ z, z ∈ D ↔ (z ∈ keys c ∧ z ∉ coalive) := by
        intro z
        rw [← hD, List.mem_filter]
        simp only [Bool.not_eq_true']
        constructor
        · rintro ⟨h1, hh⟩
          refine ⟨h1, fun hc => ?_⟩
          rw [(contains_iff_mem _ _).mpr hc] at hh
          cases hh
        · rintro ⟨h1, hh⟩
          refine ⟨h1, ?_⟩
          cases hc : coalive.contains z with
          | true => exact absurd ((contains_iff_mem _ _).mp hc) hh
          | false => rfl
      have hnd : ∀ z, z ∈ coalive → z ∉ D := by
        intro z hz hmem
        exact ((hmemD z).mp hmem).2 hz
      obtain ⟨hw', hen', hex', hchar', hkeys', hds'⟩ := removeList_spec D c c' hw h2
      have htransB : ∀ z, ReachBack c e z → ReachBack c' e z := by
        intro z hz
        induction hz with
        | refl => exact .refl
        | step x y bx hr hlk hmem ihz =>
          have hxco : x ∈ coalive := hcomplete x hr
          have hyco : y ∈ coalive := hcomplete y (.step x y bx hr hlk hmem)
          have hlk' : lookup c' x = some (dropAll D bx) := by
            rw [hchar' x, if_neg (hnd x hxco), hlk]
            rfl
          refine .step x y _ ihz hlk' ?_
          show y ∈ (dropAll D bx).m_prev
          unfold dropAll
          simp only
          refine List.mem_filter.mpr ⟨hmem, ?_⟩
          have hyc : D.contains y = false := by
            cases hc : D.contains y with
            | true => exact absurd ((contains_iff_mem _ _).mp hc) (hnd y hyco)
            | false => rfl
          rw [hyc]
          rfl
      refine ⟨hw', hen', hex'.trans hex, fun x hx => ((hkeys' x).mp hx).1, ?_, ?_⟩
      · intro hAR l hl
        obtain ⟨hl1, hl2⟩ := (hkeys' l).mp hl
        have hlco : l ∈ coalive := by
          by_contra hno
          exact hl2 ((hmemD l).mpr ⟨hl1, hno⟩)
        have htransF : ∀ z, ReachFrom c c.m_entry z → z ∈ coalive →
            ReachFrom c' c.m_entry z := by
          intro z hz
          induction hz with
          | refl => intro _; exact .refl
          | step x y bx hr hlk hmem ihz =>
            intro hyco
            have hyB : ReachBack c e y := hsound y hyco
            have hxmem : (x, bx) ∈ c.m_blocks := lookup_mem c x bx hlk
            have hyk : y ∈ keys c :=
              hw.closed (x, bx) hxmem y (List.mem_append.mpr (Or.inr hmem))
            obtain ⟨bby, hbby⟩ :=
              Option.isSome_iff_exists.mp ((lookup_isSome_iff c y).mpr hyk)
            have hymem : (y, bby) ∈ c.m_blocks := lookup_mem c y bby hbby
            have hedge : x ∈ bby.m_prev :=
              (hw.symm (x, bx) hxmem (y, bby) hymem).mp hmem
            have hxB : ReachBack c e x := .step y x bby hyB hbby hedge
            have hxco : x ∈ coalive := hcomplete x hxB
            have hih := ihz hxco
            have hlk' : lookup c' x = some (dropAll D bx) := by
              rw [hchar' x, if_neg (hnd x hxco), hlk]
              rfl
            refine .step x y _ hih hlk' ?_
            show y ∈ (dropAll D bx).m_next
            unfold dropAll
            simp only
            refine List.mem_filter.mpr ⟨hmem, ?_⟩
            have hyc : D.contains y = false := by
              cases hc : D.contains y with
              | true => exact absurd ((contains_iff_mem _ _).mp hc) (hnd y hyco)
              | false => rfl
            rw [hyc]
            rfl
        rw [← hen'] at htransF
        exact htransF l (by rw [hen']; exact hAR l hl1) hlco
      · intro e' he'
        cases he'
        intro l hl
        obtain ⟨hl1, hl2⟩ := (hkeys' l).mp hl
        have hlco : l ∈ coalive := by
          by_contra hno
          exact hl2 ((hmemD l).mpr ⟨hl1, hno⟩)
        exact reachback_to_reachfrom c' hw' e l (htransB l (hsound l hlco))

/-! ### One merge of `merge_blocks_rec` -/
theorem length_one_headD (l : List Nat) (h : l.length = 1) : l = [l.headD 0] := by
  cases l with
  | nil => cases h
  | cons a t =>
    cases t with
    | nil => rfl
    | cons b t2 => simp at h

/-- A block update that only touches the statement list preserves
well-formedness. -/
theorem wf_updBlock_pres (c : CfgT) (l : Nat) (f : BasicBlock → BasicBlock) (hw : CfgWf c)
    (hid : ∀ b, (f b).m_bb_id = b.m_bb_id) (hpr : ∀ b, (f b).m_prev = b.m_prev)
    (hnx : ∀ b, (f b).m_next = b.m_next) : CfgWf (updBlock c l f) := by
  have hfacts : ∀ q : Nat × BasicBlock,
      ((if q.1 = l then (q.1, f q.2) else q) : Nat × BasicBlock).1 = q.1 ∧
      ((if q.1 = l then (q.1, f q.2) else q) : Nat × BasicBlock).2.m_bb_id = q.2.m_bb_id ∧
      ((if q.1 = l then (q.1, f q.2) else q) : Nat × BasicBlock).2.m_prev = q.2.m_prev ∧
      ((if q.1 = l then (q.1, f q.2) else q) : Nat × BasicBlock).2.m_next = q.2.m_next := by
    intro q
    by_cases hq : q.1 = l
    · rw [if_pos hq]
      exact ⟨rfl, hid q.2, hpr q.2, hnx q.2⟩
    · rw [if_neg hq]
      exact ⟨rfl, rfl, rfl, rfl⟩
  have hdec : ∀ p ∈ (updBlock c l f).m_blocks, ∃ q ∈ c.m_blocks,
      p = if q.1 = l then (q.1, f q.2) else q := by
    intro p hp
    obtain ⟨q, hq, hgq⟩ := List.mem_map.mp hp
    exact ⟨q, hq, hgq.symm⟩
  constructor
  · show ((updBlock c l f).m_blocks.map Prod.fst).Nodup
    have : (updBlock c l f).m_blocks.map Prod.fst = keys (updBlock c l f) := rfl
    rw [this, keys_updBlock]
    exact hw.keys_nodup
  · intro p hp
    obtain ⟨q, hq, rfl⟩ := hdec p hp
    obtain ⟨h1, h2, -, -⟩ := hfacts q
    rw [h1, h2]
    exact hw.label_eq q hq
  · show (updBlock c l f).m_entry ∈ keys (updBlock c l f)
    rw [keys_updBlock]
    exact hw.entry_mem
  · intro p hp x hx
    obtain ⟨q, hq, rfl⟩ := hdec p hp
    obtain ⟨-, -, h3, h4⟩ := hfacts q
    rw [h3, h4] at hx
    show x ∈ keys (updBlock c l f)
    rw [keys_updBlock]
    exact hw.closed q hq x hx
  · intro p hp q' hq'
    obtain ⟨qp, hqp, rfl⟩ := hdec p hp
    obtain ⟨qq, hqq, rfl⟩ := hdec q' hq'
    obtain ⟨hp1, -, hp3, hp4⟩ := hfacts qp
    obtain ⟨hq1, -, hq3, hq4⟩ := hfacts qq
    rw [hp1, hp4, hq1, hq3]
    exact hw.symm qp hqp qq hqq
  · intro p hp
    obtain ⟨q, hq, rfl⟩ := hdec p hp
    obtain ⟨-, -, h3, h4⟩ := hfacts q
    rw [h3, h4]
    exact hw.adj_nodup q hq

theorem mergeStep_spec (c : CfgT) (cur p ch : Nat) (bb pb : BasicBlock) (c3 : CfgT)
    (hin : MergeIn c cur p ch bb pb) (hok : mergeStep c cur bb = .ok c3) :
    MergeOut c cur p ch bb c3 := by
  obtain ⟨hw, hbb, hprev, hnext, hpb, hpnext⟩ := hin
  have hphead : bb.m_prev.headD 0 = p := by rw [hprev]; rfl
  have hchhead : bb.m_next.headD 0 = ch := by rw [hnext]; rfl
  have hbbmem : (cur, bb) ∈ c.m_blocks := lookup_mem c cur bb hbb
  have hpbmem : (p, pb) ∈ c.m_blocks := lookup_mem c p pb hpb
  unfold mergeStep at hok
  rw [hphead, hchhead] at hok
  generalize hC1 : updBlock c p (fun blk => { blk with m_ts := blk.m_ts ++ bb.m_ts }) = c1 at hok
  have hwf1 : CfgWf c1 := by
    rw [← hC1]
    exact wf_updBlock_pres c p _ hw (fun b => rfl) (fun b => rfl) (fun b => rfl)
  have hen1 : c1.m_entry = c.m_entry := by rw [← hC1]; rfl
  have hex1 : c1.m_exit = c.m_exit := by rw [← hC1]; rfl
  have hkeys1 : keys c1 = keys c := by
    rw [← hC1]
    exact keys_updBlock c p _
  have hlk1 : ∀ x, lookup c1 x = if x = p
      then (lookup c p).map (fun blk => { blk with m_ts := blk.m_ts ++ bb.m_ts })
      else lookup c x := by
    intro x
    rw [← hC1, lookup_updBlock]
  cases hrm : remove c1 cur with
  | error e =>
    rw [hrm] at hok
    cases hok
  | ok c2 =>
    rw [hrm] at hok
    have hok' : addEdgeE c2 p ch = .ok c3 := hok
    obtain ⟨hne1, hnx1, bb1, hb1⟩ := remove_ok_inv c1 cur c2 hrm
    obtain ⟨C2, hok2, hen2, hex2, hchar2, hkeys2, hwf2⟩ := cfg_remove_spec c1 cur hwf1 hne1 hnx1 bb1 hb1
    have hc2 : C2 = c2 := by
      rw [hrm] at hok2
      exact (Except.ok.inj hok2).symm
    rw [hc2] at hen2 hex2 hchar2 hkeys2 hwf2
    unfold addEdgeE at hok'
    cases hp2 : lookup c2 p with
    | none =>
      rw [hp2] at hok'
      cases hok'
    | some pb2 =>
      rw [hp2] at hok'
      cases hch2 : lookup c2 ch with
      | none =>
        rw [hch2] at hok'
        cases hok'
      | some cb2 =>
        rw [hch2] at hok'
        have hc3 : updBlock (updBlock c2 p
            (fun blk => { blk with m_next := BasicBlock.insert_adjacent blk.m_next ch })) ch
            (fun blk => { blk with m_prev := BasicBlock.insert_adjacent blk.m_prev p }) = c3 :=
          Except.ok.inj hok' 
        have hpcur : p ≠ cur := by
          intro he
          rw [hchar2 p, if_pos he] at hp2
          cases hp2
        have hchcur : ch ≠ cur := by
          intro he
          rw [hchar2 ch, if_pos he] at hch2
          cases hch2
        -- key symmetry facts
        have hcur_pbprev : cur ∈ pb.m_prev ↔ p ∈ bb.m_next := by
          exact (hw.symm (cur, bb) hbbmem (p, pb) hpbmem).symm
        have hp_not_pbprev : p ∉ pb.m_prev := by
          intro hc
          have := (hw.symm (p, pb) hpbmem (p, pb) hpbmem).mpr hc
          rw [hpnext] at this
          exact hpcur (by simpa using this)
        -- c2 characterization relative to c
        have hc2x : ∀ y, y ≠ cur → y ≠ p → lookup c2 y = (lookup c y).map (dropNeighbor cur) := by
          intro y hy hyp
          rw [hchar2 y, if_neg hy, hlk1 y, if_neg hyp]
        have hc2p : lookup c2 p =
            some (dropNeighbor cur { pb with m_ts := pb.m_ts ++ bb.m_ts }) := by
          rw [hchar2 p, if_neg hpcur, hlk1 p, if_pos rfl, hpb]
          rfl
        refine ⟨hpcur, hchcur, by rw [← hen1]; exact hne1, by rw [← hex1]; exact hnx1,
          ?_, ?_, ?_, ?_, ?_⟩
        · rw [← hc3]
          show c2.m_entry = c.m_entry
          rw [hen2, hen1]
        · rw [← hc3]
          show c2.m_exit = c.m_exit
          rw [hex2, hex1]
        · rw [← hc3]
          show keys (updBlock _ _ _) = _
          rw [keys_updBlock, keys_updBlock, hkeys2, hkeys1]
        · intro x hxcur
          rw [← hc3, lookup_updBlock, lookup_updBlock]
          by_cases hxch : x = ch
          · rw [if_pos hxch]
            by_cases hxp : x = p
            · -- x = p = ch
              rw [if_pos (hxch ▸ hxp : ch = p)]
              rw [hc2p]
              subst hxp
              rw [hpb]
              simp only [Option.map_some', Option.some.injEq]
              unfold mergeXform dropNeighbor BasicBlock.insert_adjacent
              simp only
              have hrm_next : BasicBlock.remove_adjacent pb.m_next cur = [] := by
                rw [hpnext]
                unfold BasicBlock.remove_adjacent
                simp
              have hnm : x ∉ BasicBlock.remove_adjacent pb.m_prev cur := by
                intro hc
                exact hp_not_pbprev ((mem_remove_adjacent _ _ _).mp hc).1
              have hnm2 : ch ∉ BasicBlock.remove_adjacent pb.m_prev cur := hxch ▸ hnm
              rw [hrm_next]
              simp [hnm, hnm2, hxch]
            · -- x = ch ≠ p
              rw [if_neg (hxch ▸ hxp : ¬ ch = p)]
              rw [hc2x ch hchcur (hxch ▸ hxp), hxch]
              have hchp : ¬ ch = p := hxch ▸ hxp
              cases hcch : lookup c ch with
              | none => rfl
              | some cb =>
                have hcbmem : (ch, cb) ∈ c.m_blocks := lookup_mem c ch cb hcch
                simp only [Option.map_some', Option.some.injEq]
                unfold mergeXform dropNeighbor BasicBlock.insert_adjacent
                simp only
                have hp_not : p ∉ BasicBlock.remove_adjacent cb.m_prev cur := by
                  intro hc
                  have h1 := ((mem_remove_adjacent _ _ _).mp hc).1
                  have h2 := (hw.symm (p, pb) hpbmem (ch, cb) hcbmem).mpr h1
                  rw [hpnext] at h2
                  exact hchcur (by simpa using h2)
                have hcur_not : cur ∉ cb.m_next := by
                  intro hc
                  have h2 := (hw.symm (ch, cb) hcbmem (cur, bb) hbbmem).mp hc
                  rw [hprev] at h2
                  exact hchp (by simpa using h2)
                rw [remove_adjacent_of_not_mem cb.m_next cur hcur_not]
                simp [hp_not, hchp]
          · rw [if_neg hxch, lookup_updBlock]
            by_cases hxp : x = p
            · -- x = p ≠ ch
              rw [if_pos hxp, hc2p]
              subst hxp
              rw [hpb]
              simp only [Option.map_some', Option.some.injEq]
              unfold mergeXform dropNeighbor BasicBlock.insert_adjacent
              simp only
              have hrm_next : BasicBlock.remove_adjacent pb.m_next cur = [] := by
                rw [hpnext]
                unfold BasicBlock.remove_adjacent
                simp
              have hcur_not : cur ∉ pb.m_prev := by
                intro hc
                have h2 := hcur_pbprev.mp hc
                rw [hnext] at h2
                have h3 : x = ch := by simpa using h2
                exact hxch h3
              rw [hrm_next, remove_adjacent_of_not_mem pb.m_prev cur hcur_not]
              simp [hxch]
            · -- x ∉ {p, ch}
              rw [if_neg hxp, hc2x x hxcur hxp]
              cases hcx : lookup c x with
              | none => rfl
              | some bx =>
                have hbxmem : (x, bx) ∈ c.m_blocks := lookup_mem c x bx hcx
                simp only [Option.map_some', Option.some.injEq]
                unfold mergeXform dropNeighbor
                have h1 : cur ∉ bx.m_next := by
                  intro hc
                  have h2 := (hw.symm (x, bx) hbxmem (cur, bb) hbbmem).mp hc
                  rw [hprev] at h2
                  exact hxp (by simpa using h2)
                have h2 : cur ∉ bx.m_prev := by
                  intro hc
                  have h3 := (hw.symm (cur, bb) hbbmem (x, bx) hbxmem).mpr hc
                  rw [hnext] at h3
                  exact hxch (by simpa using h3)
                rw [remove_adjacent_of_not_mem bx.m_next cur h1,
                    remove_adjacent_of_not_mem bx.m_prev cur h2]
                simp [hxch, hxp]
        · rw [← hc3, lookup_updBlock,
              if_neg (show ¬ (cur = ch) from fun hc => hchcur hc.symm), lookup_updBlock,
              if_neg (show ¬ (cur = p) from fun hc => hpcur hc.symm),
              hchar2 cur, if_pos rfl]

theorem mergeOut_wf (c : CfgT) (cur p ch : Nat) (bb pb : BasicBlock) (c3 : CfgT)
    (hin : MergeIn c cur p ch bb pb) (hout : MergeOut c cur p ch bb c3) : CfgWf c3 := by
  obtain ⟨hw, hbb, hprev, hnext, hpb, hpnext⟩ := hin
  obtain ⟨hp_ne, hch_ne, hentry_ne, hexit_ne, hen, hex, hkeys, hchar, hcur⟩ := hout
  have hbbmem : (cur, bb) ∈ c.m_blocks := lookup_mem c cur bb hbb
  have hpbmem : (p, pb) ∈ c.m_blocks := lookup_mem c p pb hpb
  have hchk : ch ∈ keys c :=
    hw.closed (cur, bb) hbbmem ch (List.mem_append.mpr (Or.inr (by rw [hnext]; simp)))
  have hpk : p ∈ keys c := mem_keys_of_mem c (p, pb) hpbmem
  have hmemk : ∀ x, x ∈ keys c3 ↔ x ∈ keys c ∧ x ≠ cur := by
    intro x
    rw [hkeys]
    exact mem_filter_ne _ _ _
  have hknd : (c3.m_blocks.map Prod.fst).Nodup := by
    show (keys c3).Nodup
    rw [hkeys]
    exact List.Nodup.filter _ hw.keys_nodup
  have hold : ∀ q ∈ c3.m_blocks, q.1 ≠ cur ∧ ∃ b, lookup c q.1 = some b ∧
      mergeXform cur p ch bb q.1 b = q.2 ∧ (q.1, b) ∈ c.m_blocks := by
    intro q hq
    have hq1 : q.1 ∈ keys c3 := mem_keys_of_mem c3 q hq
    have hq2 : q.1 ≠ cur := ((hmemk q.1).mp hq1).2
    have hlq : lookup c3 q.1 = some q.2 := mem_lookup c3 q.1 q.2 hknd (by cases q; exact hq)
    rw [hchar q.1 hq2] at hlq
    obtain ⟨b, hb1, hb2⟩ := Option.map_eq_some'.mp hlq
    exact ⟨hq2, b, hb1, hb2, lookup_mem c q.1 b hb1⟩
  -- membership in the transformed adjacency lists
  have hmem_next : ∀ x b y, (x, b) ∈ c.m_blocks → x ≠ cur →
      (y ∈ (mergeXform cur p ch bb x b).m_next ↔ (if x = p then y = ch else y ∈ b.m_next)) := by
    intro x b y hmem hxc
    unfold mergeXform
    simp only
    by_cases hxp : x = p
    · rw [if_pos hxp, if_pos hxp]
      simp
    · rw [if_neg hxp, if_neg hxp]
  have hmem_prev : ∀ x b y, (x, b) ∈ c.m_blocks → x ≠ cur → y ≠ cur →
      (y ∈ (mergeXform cur p ch bb x b).m_prev ↔
        (if x = ch then (y ∈ b.m_prev ∨ y = p) else y ∈ b.m_prev)) := by
    intro x b y hmem hxc hyc
    unfold mergeXform
    simp only
    by_cases hxch : x = ch
    · rw [if_pos hxch, if_pos hxch]
      rw [List.mem_append, mem_remove_adjacent]
      constructor
      · rintro (⟨h1, -⟩ | h1)
        · exact Or.inl h1
        · exact Or.inr (by simpa using h1)
      · rintro (h1 | h1)
        · exact Or.inl ⟨h1, hyc⟩
        · exact Or.inr (by simp [h1])
    · rw [if_neg hxch, if_neg hxch]
  have hcur_not_next : ∀ x b, (x, b) ∈ c.m_blocks → x ≠ p → cur ∉ b.m_next := by
    intro x b hmem hxp hc
    have h2 := (hw.symm (x, b) hmem (cur, bb) hbbmem).mp hc
    rw [hprev] at h2
    exact hxp (by simpa using h2)
  have hcur_not_prev : ∀ x b, (x, b) ∈ c.m_blocks → x ≠ ch → cur ∉ b.m_prev := by
    intro x b hmem hxch hc
    have h2 := (hw.symm (cur, bb) hbbmem (x, b) hmem).mpr hc
    rw [hnext] at h2
    exact hxch (by simpa using h2)
  constructor
  · exact hknd
  · intro q hq
    obtain ⟨hq2, b, hb1, hb2, hbm⟩ := hold q hq
    rw [← hb2]
    show b.m_bb_id = q.1
    exact hw.label_eq (q.1, b) hbm
  · show c3.m_entry ∈ keys c3
    rw [hen, hmemk]
    exact ⟨hw.entry_mem, fun hc => hentry_ne hc.symm⟩
  · intro q hq x hx
    obtain ⟨hq2, b, hb1, hb2, hbm⟩ := hold q hq
    rw [← hb2] at hx
    show x ∈ keys c3
    rcases List.mem_append.mp hx with hx | hx
    · -- x in the transformed prev list
      have hx' : x ∈ (mergeXform cur p ch bb q.1 b).m_prev := hx
      unfold mergeXform at hx'
      simp only at hx'
      by_cases hqch : q.1 = ch
      · rw [if_pos hqch] at hx'
        rcases List.mem_append.mp hx' with h1 | h1
        · obtain ⟨h2, h3⟩ := (mem_remove_adjacent _ _ _).mp h1
          exact (hmemk x).mpr
            ⟨hw.closed (q.1, b) hbm x (List.mem_append.mpr (Or.inl h2)), h3⟩
        · have h2 : x = p := by simpa using h1
          exact (hmemk x).mpr ⟨h2 ▸ hpk, h2 ▸ hp_ne⟩
      · rw [if_neg hqch] at hx'
        have hxc : x ≠ cur := fun hc => hcur_not_prev q.1 b hbm hqch (hc ▸ hx')
        exact (hmemk x).mpr
          ⟨hw.closed (q.1, b) hbm x (List.mem_append.mpr (Or.inl hx')), hxc⟩
    · have hx' : x ∈ (mergeXform cur p ch bb q.1 b).m_next := hx
      unfold mergeXform at hx'
      simp only at hx'
      by_cases hqp : q.1 = p
      · rw [if_pos hqp] at hx'
        have h2 : x = ch := by simpa using hx'
        exact (hmemk x).mpr ⟨h2 ▸ hchk, h2 ▸ hch_ne⟩
      · rw [if_neg hqp] at hx'
        have hxc : x ≠ cur := fun hc => hcur_not_next q.1 b hbm hqp (hc ▸ hx')
        exact (hmemk x).mpr
          ⟨hw.closed (q.1, b) hbm x (List.mem_append.mpr (Or.inr hx')), hxc⟩
  · intro q hq q' hq'
    obtain ⟨hq2, b, hb1, hb2, hbm⟩ := hold q hq
    obtain ⟨hq2', b', hb1', hb2', hbm'⟩ := hold q' hq'
    rw [← hb2, ← hb2']
    rw [hmem_next q.1 b q'.1 hbm hq2, hmem_prev q'.1 b' q.1 hbm' hq2' hq2]
    by_cases hqp : q.1 = p
    · rw [if_pos hqp]
      by_cases hqch' : q'.1 = ch
      · rw [if_pos hqch']
        constructor
        · intro h1
          exact Or.inr hqp
        · intro h1
          exact hqch'
      · rw [if_neg hqch']
        constructor
        · intro h1
          exact absurd h1 hqch'
        · intro h1
          have h1' : p ∈ b'.m_prev := by
            rw [← hqp]
            exact h1
          have h2 := (hw.symm (p, pb) hpbmem (q'.1, b') hbm').mpr h1'
          rw [hpnext] at h2
          exact absurd (by simpa using h2) hq2'
    · rw [if_neg hqp]
      by_cases hqch' : q'.1 = ch
      · rw [if_pos hqch']
        rw [hw.symm (q.1, b) hbm (q'.1, b') hbm']
        constructor
        · intro h1
          exact Or.inl h1
        · rintro (h1 | h1)
          · exact h1
          · exact absurd h1 hqp
      · rw [if_neg hqch']
        exact hw.symm (q.1, b) hbm (q'.1, b') hbm'
  · intro q hq
    obtain ⟨hq2, b, hb1, hb2, hbm⟩ := hold q hq
    rw [← hb2]
    obtain ⟨hnd1, hnd2⟩ := hw.adj_nodup (q.1, b) hbm
    constructor
    · show (mergeXform cur p ch bb q.1 b).m_prev.Nodup
      unfold mergeXform
      simp only
      by_cases hqch : q.1 = ch
      · rw [if_pos hqch]
        refine List.Nodup.append (remove_adjacent_nodup _ _ hnd1) (by simp) ?_
        intro z hz hz'
        have hzp : z = p := by simpa using hz'
        have h1 := ((mem_remove_adjacent _ _ _).mp hz).1
        have h2 := (hw.symm (p, pb) hpbmem (q.1, b) hbm).mpr (hzp ▸ h1)
        rw [hpnext] at h2
        exact hq2 (by simpa using h2)
      · rw [if_neg hqch]
        exact hnd1
    · show (mergeXform cur p ch bb q.1 b).m_next.Nodup
      unfold mergeXform
      simp only
      by_cases hqp : q.1 = p
      · rw [if_pos hqp]
        simp
      · rw [if_neg hqp]
        exact hnd2

/-- A merge never makes a surviving block mergeable: mergeability in the
merged graph implies mergeability in the original. -/
theorem mergeOut_nonmerge (c : CfgT) (cur p ch : Nat) (bb pb : BasicBlock) (c3 : CfgT)
    (hin : MergeIn c cur p ch bb pb) (hout : MergeOut c cur p ch bb c3)
    (x : Nat) (hx : x ≠ cur) (hm3 : Mergeable c3 x) : Mergeable c x := by
  obtain ⟨hw, hbb, hprev, hnext, hpb, hpnext⟩ := hin
  have hbbmem : (cur, bb) ∈ c.m_blocks := lookup_mem c cur bb hbb
  have hpbmem : (p, pb) ∈ c.m_blocks := lookup_mem c p pb hpb
  obtain ⟨bl3, pb3, hlk3, hn1, hp1, hlkp3, hpn1⟩ := hm3
  rw [hout.hchar x hx] at hlk3
  obtain ⟨b, hb1, hb2⟩ := Option.map_eq_some'.mp hlk3
  have hbm : (x, b) ∈ c.m_blocks := lookup_mem c x b hb1
  by_cases hxch : x = ch
  · -- x = ch: in c its sole predecessor was cur, whose sole child it was
    have hcur_mem : cur ∈ b.m_prev := by
      refine (hw.symm (cur, bb) hbbmem (x, b) hbm).mp ?_
      rw [hnext, hxch]
      simp
    have hnd := (hw.adj_nodup (x, b) hbm).1
    have hlen : (BasicBlock.remove_adjacent b.m_prev cur).length + 1 = b.m_prev.length :=
      remove_adjacent_length b.m_prev cur hnd hcur_mem
    have hp3 : bl3.m_prev = BasicBlock.remove_adjacent b.m_prev cur ++ [p] := by
      rw [← hb2]
      unfold mergeXform
      simp only
      rw [if_pos hxch]
    have hplen : b.m_prev.length = 1 := by
      rw [hp3] at hp1
      simp only [List.length_append, List.length_cons, List.length_nil] at hp1
      omega
    have hbprev : b.m_prev = [cur] := by
      have h1 := length_one_headD b.m_prev hplen
      have h2 : b.m_prev.headD 0 = cur := by
        rw [h1] at hcur_mem
        exact (by simpa using hcur_mem : cur = b.m_prev.headD 0).symm
      rw [h1, h2]
    have hnext_len : b.m_next.length = 1 := by
      by_cases hxp : x = p
      · have hbpb : b = pb := by
          rw [hxp, hpb] at hb1
          exact (Option.some.inj hb1).symm
        rw [hbpb, hpnext]
        rfl
      · have hn3 : bl3.m_next = b.m_next := by
          rw [← hb2]
          unfold mergeXform
          simp only
          rw [if_neg hxp]
        rw [← hn3]
        exact hn1
    refine ⟨b, bb, hb1, hnext_len, hplen, ?_, ?_⟩
    · rw [hbprev]
      exact hbb
    · rw [hnext]
      rfl
  · -- x ≠ ch: predecessor structure unchanged
    have hp3 : bl3.m_prev = b.m_prev := by
      rw [← hb2]
      unfold mergeXform
      simp only
      rw [if_neg hxch]
    have hplen : b.m_prev.length = 1 := by
      rw [← hp3]
      exact hp1
    have hnext_len : b.m_next.length = 1 := by
      by_cases hxp : x = p
      · have hbpb : b = pb := by
          rw [hxp, hpb] at hb1
          exact (Option.some.inj hb1).symm
        rw [hbpb, hpnext]
        rfl
      · have hn3 : bl3.m_next = b.m_next := by
          rw [← hb2]
          unfold mergeXform
          simp only
          rw [if_neg hxp]
        rw [← hn3]
        exact hn1
    have hhead : bl3.m_prev.headD 0 = b.m_prev.headD 0 := by rw [hp3]
    set q := b.m_prev.headD 0 with hq
    have hqmem : q ∈ b.m_prev := by
      rw [length_one_headD b.m_prev hplen]
      simp [hq]
    have hqcur : q ≠ cur := by
      intro hc
      have h2 := (hw.symm (cur, bb) hbbmem (x, b) hbm).mpr (hc ▸ hqmem)
      rw [hnext] at h2
      exact hxch (by simpa using h2)
    rw [hhead, hout.hchar q hqcur] at hlkp3
    obtain ⟨bq, hbq1, hbq2⟩ := Option.map_eq_some'.mp hlkp3
    have hqn : bq.m_next.length = 1 := by
      by_cases hqp : q = p
      · have hbqpb : bq = pb := by
          rw [hqp, hpb] at hbq1
          exact (Option.some.inj hbq1).symm
        rw [hbqpb, hpnext]
        rfl
      · have hn3 : pb3.m_next = bq.m_next := by
          rw [← hbq2]
          unfold mergeXform
          simp only
          rw [if_neg hqp]
        rw [← hn3]
        exact hpn1
    exact ⟨b, bq, hb1, hnext_len, hplen, hbq1, hqn⟩

/-- Reachability transfers across one merge: targets other than the
merged block stay reachable, and a path to the merged block becomes a
path to its child. -/
theorem mergeOut_reach (c : CfgT) (cur p ch : Nat) (bb pb : BasicBlock) (c3 : CfgT)
    (hin : MergeIn c cur p ch bb pb) (hout : MergeOut c cur p ch bb c3)
    (a : Nat) (ha : a ≠ cur) : ∀ z, ReachFrom c a z →
    (z ≠ cur → ReachFrom c3 a z) ∧ (z = cur → ReachFrom c3 a ch) := by
  have hw := hin.hw
  have hbbmem : (cur, bb) ∈ c.m_blocks := lookup_mem c cur bb hin.hbb
  intro z hz
  induction hz with
  | refl =>
    refine ⟨fun _ => .refl, fun hc => absurd hc ha⟩
  | step x y bx hr hlk hmem ih =>
    constructor
    · intro hy
      by_cases hxc : x = cur
      · have hbxbb : bx = bb := by
          rw [hxc, hin.hbb] at hlk
          exact (Option.some.inj hlk).symm
        have hych : y = ch := by
          rw [hbxbb, hin.hnext] at hmem
          simpa using hmem
        exact hych ▸ ih.2 hxc
      · have hxp : x ≠ p := by
          intro he
          have hbxpb : bx = pb := by
            rw [he, hin.hpb] at hlk
            exact (Option.some.inj hlk).symm
          rw [hbxpb, hin.hpnext] at hmem
          exact hy (by simpa using hmem)
        have hlk3 : lookup c3 x = some (mergeXform cur p ch bb x bx) := by
          rw [hout.hchar x hxc, hlk]
          rfl
        refine .step x y _ (ih.1 hxc) hlk3 ?_
        show y ∈ (mergeXform cur p ch bb x bx).m_next
        unfold mergeXform
        simp only
        rw [if_neg hxp]
        exact hmem
    · intro hy
      have hxmem : (x, bx) ∈ c.m_blocks := lookup_mem c x bx hlk
      have hxp : x = p := by
        have h2 := (hw.symm (x, bx) hxmem (cur, bb) hbbmem).mp (hy ▸ hmem)
        rw [hin.hprev] at h2
        simpa using h2
      have hxc : x ≠ cur := by
        rw [hxp]
        exact hout.hp_ne
      have hlk3 : lookup c3 x = some (mergeXform cur p ch bb x bx) := by
        rw [hout.hchar x hxc, hlk]
        rfl
      refine .step x ch _ (ih.1 hxc) hlk3 ?_
      show ch ∈ (mergeXform cur p ch bb x bx).m_next
      unfold mergeXform
      simp only
      rw [if_pos hxp]
      simp

theorem mergeOut_allreach (c : CfgT) (cur p ch : Nat) (bb pb : BasicBlock) (c3 : CfgT)
    (hin : MergeIn c cur p ch bb pb) (hout : MergeOut c cur p ch bb c3)
    (h : AllReach c) : AllReach c3 := by
  intro l hl
  have hl' : l ∈ keys c ∧ l ≠ cur := by
    have := hout.hkeys ▸ hl
    exact (mem_filter_ne _ _ _).mp this
  rw [hout.hen]
  exact (mergeOut_reach c cur p ch bb pb c3 hin hout c.m_entry
    (fun hc => hout.hentry_ne hc.symm) l (h l hl'.1)).1 hl'.2

theorem mergeOut_allreachexit (c : CfgT) (cur p ch : Nat) (bb pb : BasicBlock) (c3 : CfgT)
    (hin : MergeIn c cur p ch bb pb) (hout : MergeOut c cur p ch bb c3)
    (e : Nat) (he : c.m_exit = some e) (h : AllReachExit c e) : AllReachExit c3 e := by
  have hecur : e ≠ cur := by
    intro hc
    exact hout.hexit_ne (hc ▸ he)
  intro l hl
  have hl' : l ∈ keys c ∧ l ≠ cur := by
    have := hout.hkeys ▸ hl
    exact (mem_filter_ne _ _ _).mp this
  exact (mergeOut_reach c cur p ch bb pb c3 hin hout l hl'.2 e (h l hl'.1)).1 hecur

theorem mergeRec_spec : ∀ (fuel : Nat) (c : CfgT) (visited : List Nat) (cur : Nat)
    (E : List Nat) (c' : CfgT) (v' : List Nat),
    mergeRec fuel c visited cur = .ok (c', v') →
    MPre c visited (cur :: E) →
    MPre c' v' E ∧ (∀ x ∈ visited, x ∈ v') ∧ (∀ x ∈ keys c', x ∈ keys c) ∧
    c'.m_entry = c.m_entry ∧ c'.m_exit = c.m_exit ∧
    (cur ∈ v' ∨ cur ∉ keys c') ∧
    (AllReach c → AllReach c') ∧
    (∀ e, c.m_exit = some e → AllReachExit c e → AllReachExit c' e) := by
  intro fuel
  induction fuel with
  | zero =>
    intro c visited cur E c' v' hok
    simp only [mergeRec] at hok
    cases hok
  | succ fuel ih =>
    have ihList : ∀ (ns : List Nat) (c : CfgT) (visited : List Nat) (E : List Nat)
        (c' : CfgT) (v' : List Nat),
        mergeList (mergeRec fuel) c visited ns = .ok (c', v') →
        MPre c visited (ns ++ E) →
        MPre c' v' E ∧ (∀ x ∈ visited, x ∈ v') ∧ (∀ x ∈ keys c', x ∈ keys c) ∧
        c'.m_entry = c.m_entry ∧ c'.m_exit = c.m_exit ∧
        (AllReach c → AllReach c') ∧
        (∀ e, c.m_exit = some e → AllReachExit c e → AllReachExit c' e) := by
      intro ns
      induction ns with
      | nil =>
        intro c visited E c' v' hok hpre
        have hcc : (c, visited) = (c', v') := by
          unfold mergeList at hok
          exact Except.ok.inj hok
        obtain ⟨rfl, rfl⟩ := Prod.mk.injEq .. |>.mp hcc
        exact ⟨hpre, fun x hx => hx, fun x hx => hx, rfl, rfl,
          fun h => h, fun e he h => h⟩
      | cons n ns ihn =>
        intro c visited E c' v' hok hpre
        have hstep : mergeList (mergeRec fuel) c visited (n :: ns) =
            match mergeRec fuel c visited n with
            | .error e => .error e
            | .ok (c1, v1) => mergeList (mergeRec fuel) c1 v1 ns := by
          rw [mergeList]
        rw [hstep] at hok
        cases hm : mergeRec fuel c visited n with
        | error e =>
          rw [hm] at hok
          cases hok
        | ok r =>
          obtain ⟨c1, v1⟩ := r
          rw [hm] at hok
          obtain ⟨hpre1, hsub1, hkeys1, hen1, hex1, -, hre1, hree1⟩ :=
            ih c visited n (ns ++ E) c1 v1 hm hpre
          obtain ⟨hpre2, hsub2, hkeys2, hen2, hex2, hre2, hree2⟩ :=
            ihn c1 v1 E c' v' hok hpre1
          refine ⟨hpre2, fun x hx => hsub2 x (hsub1 x hx),
            fun x hx => hkeys1 x (hkeys2 x hx), hen2.trans hen1, hex2.trans hex1,
            fun h => hre2 (hre1 h), ?_⟩
          intro e he h
          exact hree2 e (by rw [hex1]; exact he) (hree1 e he h)
    intro c visited cur E c' v' hok hpre
    obtain ⟨hw, hvk, hvm, hvc⟩ := hpre
    simp only [mergeRec] at hok
    by_cases hinv : cur ∈ visited
    · rw [if_pos hinv] at hok
      have hcc : (c, visited) = (c', v') := Except.ok.inj hok
      obtain ⟨rfl, rfl⟩ := Prod.mk.injEq .. |>.mp hcc
      refine ⟨⟨hw, hvk, hvm, ?_⟩, fun x hx => hx, fun x hx => hx, rfl, rfl,
        Or.inl hinv, fun h => h, fun e he h => h⟩
      intro x hx bx hbx y hy
      rcases hvc x hx bx hbx y hy with h1 | h1
      · exact Or.inl h1
      · rcases List.mem_cons.mp h1 with h2 | h2
        · exact Or.inl (h2 ▸ hinv)
        · exact Or.inr h2
    · rw [if_neg hinv] at hok
      cases hbb : lookup c cur with
      | none =>
        rw [hbb] at hok
        cases hok
      | some bb =>
        rw [hbb] at hok
        have hok2 : (if bb.m_next.length = 1 && bb.m_prev.length = 1 then
            match lookup c (bb.m_prev.headD 0) with
            | none => Except.error "Basic block not found in the CFG"
            | some pb =>
              match lookup c (bb.m_next.headD 0) with
              | none => Except.error "Basic block not found in the CFG"
              | some _ =>
                if pb.m_next.length = 1 then
                  match mergeStep c cur bb with
                  | .error e => Except.error e
                  | .ok c3 => mergeRec fuel c3 visited (bb.m_next.headD 0)
                else mergeList (mergeRec fuel) c (cur :: visited) bb.m_next
          else mergeList (mergeRec fuel) c (cur :: visited) bb.m_next)
            = Except.ok (c', v') := hok
        clear hok
        have hbbmem : (cur, bb) ∈ c.m_blocks := lookup_mem c cur bb hbb
        have hcurk : cur ∈ keys c := mem_keys_of_mem c (cur, bb) hbbmem
        -- common facts for the non-merge branches
        have hlistPre : ∀ (hnm : ¬ Mergeable c cur),
            MPre c (cur :: visited) (bb.m_next ++ E) := by
          intro hnm
          refine ⟨hw, ?_, ?_, ?_⟩
          · intro x hx
            rcases List.mem_cons.mp hx with h1 | h1
            · exact h1 ▸ hcurk
            · exact hvk x h1
          · intro x hx
            rcases List.mem_cons.mp hx with h1 | h1
            · exact h1 ▸ hnm
            · exact hvm x h1
          · intro x hx bx hbx y hy
            rcases List.mem_cons.mp hx with h1 | h1
            · have hbxbb : bx = bb := by
                rw [h1, hbb] at hbx
                exact (Option.some.inj hbx).symm
              exact Or.inr (List.mem_append.mpr (Or.inl (hbxbb ▸ hy)))
            · rcases hvc x h1 bx hbx y hy with h2 | h2
              · exact Or.inl (List.mem_cons_of_mem cur h2)
              · rcases List.mem_cons.mp h2 with h3 | h3
                · exact Or.inl (h3 ▸ List.mem_cons_self cur visited)
                · exact Or.inr (List.mem_append.mpr (Or.inr h3))
        have hlistFin : mergeList (mergeRec fuel) c (cur :: visited) bb.m_next = .ok (c', v') →
            (¬ Mergeable c cur) →
            MPre c' v' E ∧ (∀ x ∈ visited, x ∈ v') ∧ (∀ x ∈ keys c', x ∈ keys c) ∧
            c'.m_entry = c.m_entry ∧ c'.m_exit = c.m_exit ∧
            (cur ∈ v' ∨ cur ∉ keys c') ∧
            (AllReach c → AllReach c') ∧
            (∀ e, c.m_exit = some e → AllReachExit c e → AllReachExit c' e) := by
          intro hok' hnm
          obtain ⟨hpre2, hsub2, hkeys2, hen2, hex2, hre2, hree2⟩ :=
            ihList bb.m_next c (cur :: visited) E c' v' hok' (hlistPre hnm)
          exact ⟨hpre2, fun x hx => hsub2 x (List.mem_cons_of_mem cur hx), hkeys2,
            hen2, hex2, Or.inl (hsub2 cur (List.mem_cons_self cur visited)),
            hre2, hree2⟩
        by_cases hcond : (bb.m_next.length = 1 && bb.m_prev.length = 1) = true
        · rw [if_pos hcond] at hok2
          have hcond' : bb.m_next.length = 1 ∧ bb.m_prev.length = 1 := by
            simpa using hcond
          cases hpbl : lookup c (bb.m_prev.headD 0) with
          | none =>
            rw [hpbl] at hok2
            cases hok2
          | some pb =>
            rw [hpbl] at hok2
            have hok3 : (match lookup c (bb.m_next.headD 0) with
                | none => Except.error "Basic block not found in the CFG"
                | some _ =>
                  if pb.m_next.length = 1 then
                    match mergeStep c cur bb with
                    | .error e => Except.error e
                    | .ok c3 => mergeRec fuel c3 visited (bb.m_next.headD 0)
                  else mergeList (mergeRec fuel) c (cur :: visited) bb.m_next)
                = Except.ok (c', v') := hok2
            clear hok2
            cases hchl : lookup c (bb.m_next.headD 0) with
            | none =>
              rw [hchl] at hok3
              cases hok3
            | some cb =>
              rw [hchl] at hok3
              have hok4 : (if pb.m_next.length = 1 then
                  match mergeStep c cur bb with
                  | .error e => Except.error e
                  | .ok c3 => mergeRec fuel c3 visited (bb.m_next.headD 0)
                  else mergeList (mergeRec fuel) c (cur :: visited) bb.m_next)
                  = Except.ok (c', v') := hok3
              clear hok3
              by_cases hpn : pb.m_next.length = 1
              · rw [if_pos hpn] at hok4
                cases hms : mergeStep c cur bb with
                | error e =>
                  rw [hms] at hok4
                  cases hok4
                | ok c3 =>
                  rw [hms] at hok4
                  have hok : mergeRec fuel c3 visited (bb.m_next.headD 0)
                      = Except.ok (c', v') := hok4
                  clear hok4
                  -- build the merge-step data
                  have hpbmem : (bb.m_prev.headD 0, pb) ∈ c.m_blocks :=
                    lookup_mem c _ pb hpbl
                  have hprev : bb.m_prev = [bb.m_prev.headD 0] :=
                    length_one_headD bb.m_prev hcond'.2
                  have hnext : bb.m_next = [bb.m_next.headD 0] :=
                    length_one_headD bb.m_next hcond'.1
                  have hcur_mem : cur ∈ pb.m_next := by
                    refine (hw.symm (bb.m_prev.headD 0, pb) hpbmem (cur, bb) hbbmem).mpr ?_
                    rw [hprev]
                    simp
                  have hpnext : pb.m_next = [cur] := by
                    have h1 := length_one_headD pb.m_next hpn
                    rw [h1] at hcur_mem
                    rw [h1]
                    have h2 : cur = pb.m_next.headD 0 := by simpa using hcur_mem
                    rw [← h2]
                  have hmin : MergeIn c cur (bb.m_prev.headD 0) (bb.m_next.headD 0) bb pb :=
                    ⟨hw, hbb, hprev, hnext, hpbl, hpnext⟩
                  have hout := mergeStep_spec c cur (bb.m_prev.headD 0) (bb.m_next.headD 0)
                    bb pb c3 hmin hms
                  have hwf3 := mergeOut_wf c cur _ _ bb pb c3 hmin hout
                  have hmemk3 : ∀ x, x ∈ keys c3 ↔ x ∈ keys c ∧ x ≠ cur := by
                    intro x
                    rw [hout.hkeys]
                    exact mem_filter_ne _ _ _
                  -- invariant for the recursive call on the child
                  have hpre3 : MPre c3 visited (bb.m_next.headD 0 :: E) := by
                    refine ⟨hwf3, ?_, ?_, ?_⟩
                    · intro x hx
                      exact (hmemk3 x).mpr ⟨hvk x hx, fun hc => hinv (hc ▸ hx)⟩
                    · intro x hx hm3
                      exact hvm x hx (mergeOut_nonmerge c cur _ _ bb pb c3 hmin hout x
                        (fun hc => hinv (hc ▸ hx)) hm3)
                    · intro x hx bx3 hbx3 y hy
                      have hxcur : x ≠ cur := fun hc => hinv (hc ▸ hx)
                      rw [hout.hchar x hxcur] at hbx3
                      obtain ⟨bx, hbx1, hbx2⟩ := Option.map_eq_some'.mp hbx3
                      rw [← hbx2] at hy
                      have hy' : y ∈ (mergeXform cur (bb.m_prev.headD 0)
                          (bb.m_next.headD 0) bb x bx).m_next := hy
                      unfold mergeXform at hy'
                      simp only at hy'
                      by_cases hxp : x = bb.m_prev.headD 0
                      · rw [if_pos hxp] at hy'
                        have : y = bb.m_next.headD 0 := by simpa using hy'
                        exact Or.inr (this ▸ List.mem_cons_self _ E)
                      · rw [if_neg hxp] at hy'
                        rcases hvc x hx bx hbx1 y hy' with h1 | h1
                        · exact Or.inl h1
                        · rcases List.mem_cons.mp h1 with h2 | h2
                          · -- y = cur: impossible, cur has a unique parent
                            have hbxmem : (x, bx) ∈ c.m_blocks := lookup_mem c x bx hbx1
                            have h3 := (hw.symm (x, bx) hbxmem (cur, bb) hbbmem).mp
                              (h2 ▸ hy')
                            rw [hprev] at h3
                            exact absurd (by simpa using h3) hxp
                          · exact Or.inr (List.mem_cons_of_mem _ h2)
                  obtain ⟨hpre', hsub', hkeys', hen', hex', -, hre', hree'⟩ :=
                    ih c3 visited (bb.m_next.headD 0) E c' v' hok hpre3
                  refine ⟨hpre', hsub', ?_, hen'.trans hout.hen, hex'.trans hout.hex,
                    ?_, ?_, ?_⟩
                  · intro x hx
                    exact ((hmemk3 x).mp (hkeys' x hx)).1
                  · refine Or.inr ?_
                    intro hc
                    exact ((hmemk3 cur).mp (hkeys' cur hc)).2 rfl
                  · intro h
                    exact hre' (mergeOut_allreach c cur _ _ bb pb c3 hmin hout h)
                  · intro e he h
                    exact hree' e (by rw [hout.hex]; exact he)
                      (mergeOut_allreachexit c cur _ _ bb pb c3 hmin hout e he h)
              · rw [if_neg hpn] at hok4
                refine hlistFin hok4 ?_
                rintro ⟨bl, pb', hbl, hn1, hp1, hpl, hpn1⟩
                have hblbb : bl = bb := by
                  rw [hbb] at hbl
                  exact (Option.some.inj hbl).symm
                have hpb' : pb' = pb := by
                  rw [hblbb, hpbl] at hpl
                  exact (Option.some.inj hpl).symm
                rw [hpb'] at hpn1
                exact hpn hpn1
        · rw [if_neg hcond] at hok2
          refine hlistFin hok2 ?_
          rintro ⟨bl, pb', hbl, hn1, hp1, hpl, hpn1⟩
          have hblbb : bl = bb := by
            rw [hbb] at hbl
            exact (Option.some.inj hbl).symm
          rw [hblbb] at hn1 hp1
          exact hcond (by simp [hn1, hp1])

theorem mergeBlocks_spec (fuel : Nat) (c c' : CfgT)
    (hw : CfgWf c) (hok : mergeBlocks fuel c = .ok c') :
    CfgWf c' ∧ (∀ x ∈ keys c', x ∈ keys c) ∧ c'.m_entry = c.m_entry ∧
    c'.m_exit = c.m_exit ∧
    (AllReach c → AllReach c' ∧ ∀ l ∈ keys c', ¬ Mergeable c' l) ∧
    (∀ e, c.m_exit = some e → AllReachExit c e → AllReachExit c' e) := by
  unfold mergeBlocks at hok
  cases hm : mergeRec fuel c [] c.m_entry with
  | error e =>
    rw [hm] at hok
    cases hok
  | ok r =>
    obtain ⟨c1, v1⟩ := r
    rw [hm] at hok
    have hok' : Except.ok (ε := String) c1 = Except.ok c' := hok
    have hc1 : c1 = c' := Except.ok.inj hok'
    subst hc1
    have hpre : MPre c [] [c.m_entry] := by
      refine ⟨hw, ?_, ?_, ?_⟩ <;> intro x hx <;> cases hx
    obtain ⟨⟨hw', hk', hm', hcl'⟩, -, hkeys, hen, hex, hcurd, hre, hree⟩ :=
      mergeRec_spec fuel c [] c.m_entry [] c1 v1 hm hpre
    refine ⟨hw', hkeys, hen, hex, ?_, hree⟩
    intro hAR
    have hAR' := hre hAR
    have hent' : c.m_entry ∈ keys c1 := hen ▸ hw'.entry_mem
    have hentv : c.m_entry ∈ v1 := by
      rcases hcurd with h | h
      · exact h
      · exact absurd hent' h
    have hcl2 : ∀ x ∈ v1, ∀ bx, lookup c1 x = some bx → ∀ y ∈ bx.m_next, y ∈ v1 := by
      intro x hx bx hbx y hy
      rcases hcl' x hx bx hbx y hy with h1 | h1
      · exact h1
      · cases h1
    refine ⟨hAR', ?_⟩
    intro l hl
    have hlv : l ∈ v1 := by
      refine reach_mem_closed c1 v1 c1.m_entry hcl2 ?_ l (hAR' l hl)
      rw [hen]
      exact hentv
    exact hm' l hlv

theorem simplifyF_spec (fuel : Nat) (c c' : CfgT)
    (hw : CfgWf c) (hok : simplifyF fuel c = .ok c') :
    CfgWf c' ∧ AllReach c' ∧
    (∀ e, c'.m_exit = some e → AllReachExit c' e) ∧
    (∀ l ∈ keys c', ¬ Mergeable c' l) := by
  unfold simplifyF at hok
  cases h1 : mergeBlocks fuel c with
  | error e =>
    rw [h1] at hok
    cases hok
  | ok c1 =>
    rw [h1] at hok
    have hokA : (match removeUnreachable fuel c1 with
        | Except.error e => Except.error e
        | Except.ok c2 =>
          match removeUseless fuel c2 with
          | Except.error e => Except.error e
          | Except.ok c3 =>
            match mergeBlocks fuel c3 with
            | Except.error e => Except.error e
            | Except.ok c4 => mergeBlocks fuel c4) = Except.ok c' := hok
    clear hok
    obtain ⟨hw1, -, -, -, -, -⟩ := mergeBlocks_spec fuel c c1 hw h1
    cases h2 : removeUnreachable fuel c1 with
    | error e =>
      rw [h2] at hokA
      cases hokA
    | ok c2 =>
      rw [h2] at hokA
      have hokB : (match removeUseless fuel c2 with
          | Except.error e => Except.error e
          | Except.ok c3 =>
            match mergeBlocks fuel c3 with
            | Except.error e => Except.error e
            | Except.ok c4 => mergeBlocks fuel c4) = Except.ok c' := hokA
      clear hokA
      obtain ⟨hw2, -, -, -, hAR2⟩ := removeUnreachable_spec fuel c1 c2 hw1 h2
      cases h3 : removeUseless fuel c2 with
      | error e =>
        rw [h3] at hokB
        cases hokB
      | ok c3 =>
        rw [h3] at hokB
        have hokC : (match mergeBlocks fuel c3 with
            | Except.error e => Except.error e
            | Except.ok c4 => mergeBlocks fuel c4) = Except.ok c' := hokB
        clear hokB
        obtain ⟨hw3, -, hex3, -, hre3, hree3⟩ := removeUseless_spec fuel c2 c3 hw2 h3
        have hAR3 : AllReach c3 := hre3 hAR2
        cases h4 : mergeBlocks fuel c3 with
        | error e =>
          rw [h4] at hokC
          cases hokC
        | ok c4 =>
          rw [h4] at hokC
          have hok5 : mergeBlocks fuel c4 = .ok c' := hokC
          obtain ⟨hw4, -, -, hex4, hmg4, hree4⟩ := mergeBlocks_spec fuel c3 c4 hw3 h4
          obtain ⟨hAR4, -⟩ := hmg4 hAR3
          obtain ⟨hw5, -, -, hex5, hmg5, hree5⟩ := mergeBlocks_spec fuel c4 c' hw4 hok5
          obtain ⟨hAR5, hnomg5⟩ := hmg5 hAR4
          refine ⟨hw5, hAR5, ?_, hnomg5⟩
          intro e he
          have he4 : c4.m_exit = some e := by rw [← hex5]; exact he
          have he3 : c3.m_exit = some e := by rw [← hex4]; exact he4
          have he2 : c2.m_exit = some e := by rw [← hex3]; exact he3
          have hax3 : AllReachExit c3 e := hree3 e he2
          have hax4 : AllReachExit c4 e := hree4 e he3 hax3
          exact hree5 e he4 hax4

/-- C7: `remove(l)` fails fatally when `l` is the entry label or the
declared exit label; otherwise, on a present label, it removes exactly the
block `l`: the key set loses `l`, lookups of `l` fail, and every other
block keeps its statements and its neighbor lists except that `l` is
deleted from them; well-formedness is preserved. -/
theorem claim_C7 (c : CfgT) (l : Nat) (hw : CfgWf c) :
    (l = c.m_entry → ∃ s, remove c l = .error s) ∧
    (c.m_exit = some l → ∃ s, remove c l = .error s) ∧
    (l ≠ c.m_entry → c.m_exit ≠ some l → ∀ bb, lookup c l = some bb →
      ∃ c', remove c l = .ok c' ∧
        c'.m_entry = c.m_entry ∧ c'.m_exit = c.m_exit ∧
        lookup c' l = none ∧
        (∀ x, x ≠ l → lookup c' x = (lookup c x).map (dropNeighbor l)) ∧
        keys c' = (keys c).filter (fun x => !(x == l)) ∧
        CfgWf c') := by
  refine ⟨?_, ?_, ?_⟩
  · intro h
    refine ⟨"Cannot remove entry block", ?_⟩
    unfold remove
    rw [if_pos h]
  · intro h
    by_cases he : l = c.m_entry
    · refine ⟨"Cannot remove entry block", ?_⟩
      unfold remove
      rw [if_pos he]
    · refine ⟨"Cannot remove exit block", ?_⟩
      unfold remove
      rw [if_neg he, if_pos h]
  · intro hne hnx bb hb
    obtain ⟨c', hok, hen, hex, hchar, hkeys, hwf⟩ := cfg_remove_spec c l hw hne hnx bb hb
    refine ⟨c', hok, hen, hex, ?_, ?_, hkeys, hwf⟩
    · rw [hchar l, if_pos rfl]
    · intro x hx
      rw [hchar x, if_neg hx]

theorem claim_C7_witness :
    (∃ s, remove cfg012 0 = .error s) ∧ (∃ s, remove cfg012 2 = .error s) ∧
    (∃ c', remove cfg012 1 = .ok c' ∧ c'.m_entry = cfg012.m_entry ∧
      c'.m_exit = cfg012.m_exit ∧ lookup c' 1 = none ∧
      (∀ x, x ≠ 1 → lookup c' x = (lookup cfg012 x).map (dropNeighbor 1)) ∧
      keys c' = (keys cfg012).filter (fun x => !(x == 1)) ∧ CfgWf c') := by
  have hw : CfgWf cfg012 :=
    ⟨by decide, by decide, by decide, by decide, by decide, by decide⟩
  exact ⟨(claim_C7 cfg012 0 hw).1 rfl, (claim_C7 cfg012 2 hw).2.1 rfl,
    (claim_C7 cfg012 1 hw).2.2 (by decide) (by decide) ⟨1, [], [0], [2]⟩ rfl⟩

/-- C8 counterexample: in the chain `0 → 1` the childless block 1 survives
`simplify()` unchanged, yet it has in-degree 1, its sole predecessor has
out-degree 1, and its (empty) successor list is vacuously reachable — the
condition the spec claims is eliminated.  The code additionally requires
the block to have exactly one child before merging, which block 1 fails. -/
theorem claim_C8_counterexample :
    CfgWf cfg01 ∧ simplifyF 10 cfg01 = .ok cfg01 ∧ 1 ∈ keys cfg01 ∧
    SpecMergeable cfg01 1 ∧ ¬ Mergeable cfg01 1 := by
  refine ⟨⟨by decide, by decide, by decide, by decide, by decide, by decide⟩,
    rfl, by decide, ?_, ?_⟩
  · exact ⟨⟨1, [], [0], []⟩, ⟨0, [], [], [1]⟩, rfl, rfl, rfl, rfl,
      fun s hs => absurd hs (List.not_mem_nil s)⟩
  · rintro ⟨bl, pb, hbl, hn1, hp1, -, -⟩
    have he : lookup cfg01 1 = some ⟨1, [], [0], []⟩ := rfl
    rw [he] at hbl
    have hbl' : bl = ⟨1, [], [0], []⟩ := (Option.some.inj hbl).symm
    rw [hbl'] at hn1
    exact absurd hn1 (by decide)

/-- C8 (amended): after a successful `simplify()` on a well-formed CFG,
every remaining block is reachable from the entry; if an exit label is
set, every remaining block reaches the exit; and no remaining block
satisfies the merge condition of the code — one child, one parent, and the
sole parent with one child. -/
theorem claim_C8_amended (fuel : Nat) (c c' : CfgT) (hw : CfgWf c)
    (hok : simplifyF fuel c = .ok c') :
    AllReach c' ∧ (∀ e, c'.m_exit = some e → AllReachExit c' e) ∧
    (∀ l ∈ keys c', ¬ Mergeable c' l) := by
  obtain ⟨-, h1, h2, h3⟩ := simplifyF_spec fuel c c' hw hok
  exact ⟨h1, h2, h3⟩

theorem claim_C8_witness :
    AllReach cfg012s ∧ (∀ e, cfg012s.m_exit = some e → AllReachExit cfg012s e) ∧
    (∀ l ∈ keys cfg012s, ¬ Mergeable cfg012s l) :=
  claim_C8_amended 10 cfg012 cfg012s
    ⟨by decide, by decide, by decide, by decide, by decide, by decide⟩ rfl
end CfgT

namespace AsmCfg

theorem mapLookup_append_none (g h : List (Nat × AsmBasicBlock)) (x : Nat)
    (hx : mapLookup g x = none) : mapLookup (g ++ h) x = mapLookup h x := by
  induction g with
  | nil => rfl
  | cons a g ih =>
    obtain ⟨k, v⟩ := a
    have hx' : (if k = x then some v else mapLookup g x) = none := hx
    rw [List.cons_append]
    show (if k = x then some v else mapLookup (g ++ h) x) = mapLookup h x
    by_cases hk : k = x
    · rw [if_pos hk] at hx'
      cases hx'
    · rw [if_neg hk] at hx' ⊢
      exact ih hx'

theorem mapLookup_append_some (g h : List (Nat × AsmBasicBlock)) (x : Nat)
    (v : AsmBasicBlock) (hx : mapLookup g x = some v) :
    mapLookup (g ++ h) x = some v := by
  induction g with
  | nil => cases hx
  | cons a g ih =>
    obtain ⟨k, w⟩ := a
    have hx' : (if k = x then some w else mapLookup g x) = some v := hx
    rw [List.cons_append]
    show (if k = x then some w else mapLookup (g ++ h) x) = some v
    by_cases hk : k = x
    · rw [if_pos hk] at hx' ⊢
      exact hx'
    · rw [if_neg hk] at hx' ⊢
      exact ih hx'

/-- C10: evaluating `c[l]` on a label absent from the block map and never
encountered inserts a fresh empty block into the map — afterwards `at(l)`
succeeds with the empty block and every other lookup is unchanged — but
does not append `l` to the ordered label list, so `keys()` still does not
contain `l` and iteration over `keys()` skips the new block. -/
theorem claim_C10 (c : AsmCfg) (l : Nat) (hg : mapLookup c.graph l = none)
    (ho : l ∉ c.ordered_labels) :
    atLabel (opIndex c l) l = some emptyBlock ∧
    (∀ x, x ≠ l → atLabel (opIndex c l) x = atLabel c x) ∧
    keysF (opIndex c l) = keysF c ∧
    l ∉ keysF (opIndex c l) := by
  have hcond : ¬ ((mapLookup c.graph l).isSome = true) := by
    rw [hg]
    exact Bool.false_ne_true
  have hcc : opIndex c l = { c with graph := c.graph ++ [(l, emptyBlock)] } := by
    unfold opIndex
    rw [if_neg hcond]
  refine ⟨?_, ?_, ?_, ?_⟩
  · unfold atLabel
    rw [hcc]
    show mapLookup (c.graph ++ [(l, emptyBlock)]) l = some emptyBlock
    rw [mapLookup_append_none c.graph _ l hg]
    show (if l = l then some emptyBlock else mapLookup [] l) = some emptyBlock
    rw [if_pos rfl]
  · intro x hx
    unfold atLabel
    rw [hcc]
    show mapLookup (c.graph ++ [(l, emptyBlock)]) x = mapLookup c.graph x
    cases hgx : mapLookup c.graph x with
    | none =>
      rw [mapLookup_append_none c.graph _ x hgx]
      show (if l = x then some emptyBlock else mapLookup [] x) = none
      rw [if_neg (fun h => hx h.symm)]
      rfl
    | some v =>
      exact mapLookup_append_some c.graph _ x v hgx
  · rw [hcc]
    rfl
  · rw [hcc]
    exact ho

theorem claim_C10_witness :
    atLabel (opIndex asmc 1) 1 = some emptyBlock ∧
    (∀ x, x ≠ 1 → atLabel (opIndex asmc 1) x = atLabel asmc x) ∧
    keysF (opIndex asmc 1) = keysF asmc ∧
    1 ∉ keysF (opIndex asmc 1) :=
  claim_C10 asmc 1 rfl (by decide)
end AsmCfg

end EbpfVerifier
